import Mathlib

/-!
Shallow embedding of the selection data model and transactional editing
engine of `pdf_annotation_tool` (file `selection/manager.py`, data model in
`selection/data.py`).

The Python store is an `OrderedDict[int, List[SelectableRegionItem]]`; it is
modelled here as an association list `Store := List (Nat × List Sel)` whose
entry order is the `OrderedDict` insertion order.  Each
`SelectableRegionItem` wraps a mutable `SelectionData` dataclass; commands
identify items by their `id_` field, and all mutations of a live item
(`selection.data.page = ...`, `child.data.parent = ...`) are modelled as
functional updates of the record stored at the item's position.  Python
`int` indices may be negative (`-1` is the append flag), hence `idx : Int`.
-/

/-- Embedding of `SelectionData` (`selection/data.py`): one annotated region.
`category` is kept as the category display name string, `coords` as integer
point pairs; neither is inspected by the command engine. -/
structure Sel where
  id_ : String
  doc : String
  page : Nat
  idx : Int
  coords : List (Int × Int)
  text : String
  category : String
  image : String
  parent : Option String
  children : List String
  description : String
deriving Repr, DecidableEq

/-- Embedding of `EditingData` (`selection/manager.py`): one edit of a
`MoveAllCmd`, replacing the item at `editing_page -> editing_idx` with
`new_selection` (inserted at the page/idx carried in its own fields). -/
structure EditingData where
  editing_page : Nat
  editing_idx : Int
  new_selection : Sel
deriving Repr, DecidableEq

/-- The paged ordered store: `OrderedDict[int, List]` as an association list
in dictionary insertion order. -/
abbrev Store := List (Nat × List Sel)

/-! ## OrderedDict primitives -/

/-- Dictionary lookup `d[k]` / `d.get(k)`: first entry with key `k`. -/
def odGet : Store → Nat → Option (List Sel)
  | [], _ => none
  | (k', v) :: rest, k => if k' = k then some v else odGet rest k

/-- Dictionary lookup with default: `d.get(k, [])`. -/
def odGetD (d : Store) (k : Nat) : List Sel :=
  (odGet d k).getD []

/-- Key membership `k in d`. -/
def odMem (d : Store) (k : Nat) : Bool :=
  (odGet d k).isSome

/-- Assignment `d[k] = v`: replaces the value in place if the key exists
(keeping its position), otherwise appends the new entry at the end,
exactly as a Python `OrderedDict` does. -/
def odSet : Store → Nat → List Sel → Store
  | [], k, v => [(k, v)]
  | (k', v') :: rest, k, v =>
    if k' = k then (k, v) :: rest else (k', v') :: odSet rest k v

/-- Deletion `del d[k]`: removes the first entry with key `k`. -/
def odDel : Store → Nat → Store
  | [], _ => []
  | (k', v) :: rest, k => if k' = k then rest else (k', v) :: odDel rest k

/-- `OrderedDict.move_to_end(k)`: the entry for `k` is moved to the last
position.  It is only ever invoked on present keys in the source; on a
missing key it is a no-op here. -/
def odMoveToEnd (d : Store) (k : Nat) : Store :=
  match d.find? (fun e => e.1 = k) with
  | none => d
  | some e => (d.eraseP (fun e' => e'.1 = k)) ++ [e]

/-- The key view `list(d.keys())`. -/
def odKeys (d : Store) : List Nat := d.map Prod.fst

/-! ## Python list primitives -/

/-- Python `list.insert(i, x)` for `i ≥ 0`: positions beyond the length
append at the end. -/
def pyInsert (l : List α) (i : Nat) (x : α) : List α :=
  l.take i ++ x :: l.drop i

/-- Python `list.pop(i)`: negative indices wrap once from the end;
out-of-range indices raise `IndexError`, modelled as `none`.
Returns the popped element and the remaining list. -/
def pyPop (l : List α) (i : Int) : Option (α × List α) :=
  let j : Int := if i < 0 then i + l.length else i
  if 0 ≤ j then
    match l.get? j.toNat with
    | some x => some (x, l.take j.toNat ++ l.drop (j.toNat + 1))
    | none => none
  else none

/-- Python `l[i]` element access: negative indices wrap once from the end;
out-of-range indices raise `IndexError`, modelled as `none`. -/
def pyGetInt (l : List α) (i : Int) : Option α :=
  (pyPop l i).map Prod.fst

/-- Search a list for the first element with the given `id_`, returning its
position and the element (helper for the id-based scans of the source). -/
def findWithIdx : List Sel → String → Option (Nat × Sel)
  | [], _ => none
  | s :: rest, sid =>
    if s.id_ = sid then some (0, s)
    else (findWithIdx rest sid).map (fun p => (p.1 + 1, p.2))

/-- Functional update of the record at a list position (models the in-place
mutation `l[i].data.parent = pid` of the live item). -/
def listSetParent : List Sel → Nat → Option String → List Sel
  | [], _, _ => []
  | s :: r, 0, pid => { s with parent := pid } :: r
  | s :: r, n + 1, pid => s :: listSetParent r n pid

/-! ## Index re-derivation (`SelectionsManager._update_page_indexes`) -/

/-- Body of the `_update_page_indexes` loop: every record of the page list
gets `page` and `idx` set from its actual position (counting from `i`).
This is the net effect of `_update_indexes`, whose `if` guards only control
logging. -/
def reindexFrom (p : Nat) (i : Nat) : List Sel → List Sel
  | [] => []
  | s :: rest => { s with page := p, idx := (i : Int) } :: reindexFrom p (i + 1) rest

/-- `SelectionsManager._update_page_indexes(selections, page_number)`:
iterates `selections.get(page_number, [])`, so an absent key is a no-op. -/
def updatePageIndexes (d : Store) (p : Nat) : Store :=
  match odGet d p with
  | none => d
  | some l => odSet d p (reindexFrom p 0 l)

/-- `SelectionsManager.find_selection_by_id`: first match by `id_` scanning
pages in dictionary order, returning `(page_number, index, selection)`. -/
def find_selection_by_id : Store → String → Option (Nat × Nat × Sel)
  | [], _ => none
  | (p, items) :: rest, sid =>
    match findWithIdx items sid with
    | some (i, s) => some (p, i, s)
    | none => find_selection_by_id rest sid

/-! ## `InsertCmd` -/

/-- `InsertCmd.insert_ordered(dictionary, value, key=None, idx=None)`.
Returns the updated store together with the `(final_key, index)` pair the
source returns.  Faithful details: the new-key branch appends the entry,
moves every greater key to the end, and returns index `0` without
re-deriving any `page`/`idx` field; the `idx ≥ 0` branch returns the
requested `idx` itself (not the clamped position). -/
def insert_ordered (d : Store) (value : Sel) (key : Option Nat) (idx : Option Int) :
    Store × Nat × Int :=
  let k := key.getD value.page
  let i := idx.getD value.idx
  if odMem d k then
    if i < 0 then
      let l := odGetD d k
      let d1 := odSet d k (l ++ [value])
      (updatePageIndexes d1 k, k, (l.length : Int))
    else
      let l := odGetD d k
      let d1 := odSet d k (pyInsert l i.toNat value)
      (updatePageIndexes d1 k, k, i)
  else
    let d1 := odSet d k [value]
    let toMove := (odKeys d1).filter (fun k' => decide (k < k'))
    (toMove.foldl odMoveToEnd d1, k, 0)

/-- `InsertCmd.undo_insert_ordered(dictionary, key, idx)`.  `dictionary[key]`
raises `KeyError` on an absent key (uncaught: `none` here); `pop` raising
`IndexError` is caught and leaves the store unchanged; otherwise the page is
dropped when emptied and reindexed. -/
def undo_insert_ordered (d : Store) (k : Nat) (i : Int) : Option Store :=
  match odGet d k with
  | none => none
  | some l =>
    match pyPop l i with
    | none => some d
    | some (_, l') =>
      let d1 := if l'.isEmpty then odDel d k else odSet d k l'
      some (updatePageIndexes d1 k)

/-! ## `InsertAllCmd` -/

/-- `InsertAllCmd.redo`: inserts each value via `insert_ordered`, with
`idx = -1` in append mode and the value's own declared `idx` otherwise,
recording the returned keys and indexes for undo. -/
def insertAllRedo (d : Store) (values : List Sel) (append : Bool) :
    Store × List Nat × List Int :=
  values.foldl
    (fun acc v =>
      let i : Int := if append then -1 else v.idx
      let r := insert_ordered acc.1 v none (some i)
      (r.1, acc.2.1 ++ [r.2.1], acc.2.2 ++ [r.2.2]))
    (d, [], [])

/-- Loop of `InsertAllCmd.undo` over the recorded `(key, index)` pairs; an
uncaught `KeyError` from `undo_insert_ordered` aborts the loop, leaving the
store in its partially-undone state. -/
def insertAllUndoGo : Store → List (Nat × Int) → Store
  | d, [] => d
  | d, ki :: rest =>
    match undo_insert_ordered d ki.1 ki.2 with
    | none => d
    | some d1 => insertAllUndoGo d1 rest

/-- `InsertAllCmd.undo`: undoes the recorded insertions in exact reverse
order. -/
def insertAllUndo (d : Store) (keys : List Nat) (indexes : List Int) : Store :=
  insertAllUndoGo d (keys.zip indexes).reverse

/-! ## `RemoveCmd` -/

/-- First phase of `RemoveCmd.remove_and_relink_children`: for every id in
`children` that resolves via `find_selection_by_id`, the live child record's
`parent` is set to `pid` and the child is collected (here: its id, which is
what identifies the live object for the undo mutation). -/
def reparentPhase (d : Store) (pid : Option String) : List String → Store × List String
  | [] => (d, [])
  | cid :: rest =>
    match find_selection_by_id d cid with
    | none => reparentPhase d pid rest
    | some (p, i, _) =>
      let d1 :=
        match odGet d p with
        | none => d
        | some l => odSet d p (listSetParent l i pid)
      let r := reparentPhase d1 pid rest
      (r.1, cid :: r.2)

/-- Second phase of `RemoveCmd.remove_and_relink_children`: scan pages in
order for the first item with the removed id; pop it; if the page empties it
is deleted and the scan of later pages continues (the source only breaks the
outer loop when `edited_page` was set, which the empty-page branch skips);
otherwise the page is remembered for reindexing and the scan stops. -/
def removeById : Store → String → Store × Option Nat
  | [], _ => ([], none)
  | (p, items) :: rest, sid =>
    match findWithIdx items sid with
    | some (j, _) =>
      let items' := items.eraseIdx j
      if items'.isEmpty then
        let r := removeById rest sid
        (r.1, r.2)
      else
        ((p, items') :: rest, some p)
    | none =>
      let r := removeById rest sid
      ((p, items) :: r.1, r.2)

/-- `RemoveCmd.remove_and_relink_children`: reparent the children first,
then remove the node by id and reindex the edited page (if any).
Returns the store and the collected children (as ids). -/
def remove_and_relink_children (d : Store) (selection : Sel) : Store × List String :=
  let r1 := reparentPhase d selection.parent selection.children
  let r2 := removeById r1.1 selection.id_
  let d3 :=
    match r2.2 with
    | some p => updatePageIndexes r2.1 p
    | none => r2.1
  (d3, r1.2)

/-- Mutation `child.data.parent = pid` performed through the live object
reference the command captured: the object is identified by its id in the
store (its position may have shifted since capture). -/
def setParentById (d : Store) (cid : String) (pid : Option String) : Store :=
  match find_selection_by_id d cid with
  | none => d
  | some (p, i, _) =>
    match odGet d p with
    | none => d
    | some l => odSet d p (listSetParent l i pid)

/-- `RemoveCmd.undo`: re-insert the removed record (at the page/idx carried
in its fields) and restore `parent` of every collected child back to the
removed record's id. -/
def removeCmdUndo (d : Store) (value : Sel) (childIds : List String) : Store :=
  let d1 := (insert_ordered d value none none).1
  childIds.foldl (fun acc cid => setParentById acc cid (some value.id_)) d1

/-! ## `RemoveAllCmd` -/

/-- Per-page scan of `RemoveAllCmd.remove_selections`: iterates the snapshot
of the page list, removing every item whose id is still in `toRm` and
shrinking `toRm`; when `toRm` empties the source returns immediately, so the
remaining snapshot items are kept and the early flag is raised.
Returns `(new page list, remaining toRm, removed-any flag, early-return)`. -/
def removePageItems : List Sel → List String → List Sel × List String × Bool × Bool
  | [], toRm => ([], toRm, false, false)
  | s :: rest, toRm =>
    if s.id_ ∈ toRm then
      let toRm' := toRm.erase s.id_
      if toRm'.isEmpty then (rest, toRm', true, true)
      else
        let r := removePageItems rest toRm'
        (r.1, r.2.1, true, r.2.2.2)
    else
      let r := removePageItems rest toRm
      (s :: r.1, r.2.1, r.2.2.1, r.2.2.2)

/-- Fold of `remove_selections` over the snapshot of the dictionary entries:
after each page either the key is deleted (the live list emptied), or the
new list is stored; the page is reindexed only when something was removed
and the early return was not taken (the early return also skips all later
pages). -/
def removeSelectionsGo : List (Nat × List Sel) → Store → List String → Store
  | [], d, _ => d
  | (p, items) :: rest, d, toRm =>
    let r := removePageItems items toRm
    let d1 := if r.1.isEmpty ∧ r.2.2.1 then odDel d p else odSet d p r.1
    if r.2.2.2 then d1
    else
      let d2 := if r.2.2.1 then updatePageIndexes d1 p else d1
      removeSelectionsGo rest d2 r.2.1

/-- `RemoveAllCmd.remove_selections(dictionary, selections)`: the removable
ids form a set (`{s.data.id_ for s in selections}`, deduplicated; Python set
iteration order is irrelevant since only membership, erasure and emptiness
are used). -/
def remove_selections (d : Store) (selections : List Sel) : Store :=
  removeSelectionsGo d d ((selections.map Sel.id_).dedup)

/-- `RemoveAllCmd.undo`: re-insert every removed selection, in the original
batch order, each at the page/idx carried in its fields. -/
def removeAllUndo (d : Store) (values : List Sel) : Store :=
  values.foldl (fun acc v => (insert_ordered acc v none none).1) d

/-! ## `EditCmd` -/

/-- `EditCmd.edit_selection(dictionary, old_key, old_idx, selection)`: the
whole body is wrapped in a bare `except`, so every failure path (missing
`old_key`, out-of-range `old_idx`) leaves the store exactly as it was;
otherwise the old item is popped (dropping the page if emptied), the new
selection is inserted at its own declared page/idx, and the target page —
plus the old page when different — is reindexed. -/
def edit_selection (d : Store) (old_key : Nat) (old_idx : Int) (selection : Sel) : Store :=
  match odGet d old_key with
  | none => d
  | some l =>
    match pyPop l old_idx with
    | none => d
    | some (_, l') =>
      let d1 := if l'.isEmpty then odDel d old_key else odSet d old_key l'
      let d2 := (insert_ordered d1 selection none none).1
      let tk := selection.page
      let d3 := updatePageIndexes d2 tk
      if tk ≠ old_key then updatePageIndexes d3 old_key else d3

/-- `EditCmd.redo`: `self.model[editing_key][editing_idx].copy()` runs first
and outside any handler, so an invalid position raises to the caller before
any mutation (`Except.error`); on success `edit_selection` runs. -/
def editCmdRedo (d : Store) (editing_key : Nat) (editing_idx : Int) (new_value : Sel) :
    Except Unit Store :=
  match odGet d editing_key with
  | none => Except.error ()
  | some l =>
    match pyGetInt l editing_idx with
    | none => Except.error ()
    | some _ => Except.ok (edit_selection d editing_key editing_idx new_value)

/-! ## `MoveAllCmd` -/

/-- `MoveAllCmd._compute_inverse`: run before any mutation; every edit whose
source position is valid contributes the inverse edit that reinstates a copy
of the original record (stamped with the source position) at the position
the replacement declares. -/
def compute_inverse (d : Store) (editing : List EditingData) : List EditingData :=
  editing.filterMap fun (e : EditingData) =>
    match odGet d e.editing_page with
    | none => none
    | some l =>
      if h : 0 ≤ e.editing_idx ∧ e.editing_idx < (l.length : Int) then
        have hm : e.editing_idx.toNat < l.length := by
          have h0 := h.1
          have h1 := h.2
          omega
        let old := l.get ⟨e.editing_idx.toNat, hm⟩
        some { editing_page := e.new_selection.page
               editing_idx := e.new_selection.idx
               new_selection := { old with page := e.editing_page, idx := e.editing_idx } }
      else none

/-- Removal phase of `MoveAllCmd._apply_edit`: for each edit, the first item
of `dictionary.get(editing_page, [])` whose id matches the replacement's id
is popped (no key deletion); pages where a removal happened are collected. -/
def applyEditRemovalStep (acc : Store × List Nat) (e : EditingData) : Store × List Nat :=
  let arr := odGetD acc.1 e.editing_page
  match findWithIdx arr e.new_selection.id_ with
  | none => acc
  | some (j, _) =>
    (odSet acc.1 e.editing_page (arr.eraseIdx j), acc.2.insert e.editing_page)

/-- Insertion phase of `MoveAllCmd._apply_edit`: a missing target page is
created (appended at the dictionary's end), the target index is clamped to
the list length when negative or too large, and the replacement is inserted. -/
def applyEditInsertStep (acc : Store × List Nat) (e : EditingData) : Store × List Nat :=
  let tp := e.new_selection.page
  let d1 := if odMem acc.1 tp then acc.1 else odSet acc.1 tp []
  let arr := odGetD d1 tp
  let ti : Nat :=
    if e.new_selection.idx < 0 ∨ (arr.length : Int) < e.new_selection.idx then arr.length
    else e.new_selection.idx.toNat
  (odSet d1 tp (pyInsert arr ti e.new_selection), acc.2.insert tp)

/-- `MoveAllCmd._apply_edit(dictionary, editing)`: remove all targeted
records by id, then insert every replacement at its declared position, then
reindex every touched page.  `edit_pages` is a Python set; reindexing
distinct pages commutes and repeats are idempotent, so the deduplicated
collection order is used. -/
def apply_edit (d : Store) (editing : List EditingData) : Store :=
  let r1 := editing.foldl applyEditRemovalStep (d, [])
  let r2 := editing.foldl applyEditInsertStep r1
  r2.2.foldl updatePageIndexes r2.1

/-! ## Path-to-root walk (`SelectionsManager.get_selection_path_str`) -/

/-- `SelectionsManager.build_id_lookup`: flatten the store into an id-keyed
map (later occurrences overwrite earlier ones, as repeated dict assignment
does). -/
def build_id_lookup (d : Store) : List (String × Sel) :=
  d.foldl (fun acc e => e.2.foldl (fun acc' s =>
    if (acc'.find? (fun p => p.1 = s.id_)).isSome
    then acc'.map (fun p => if p.1 = s.id_ then (s.id_, s) else p)
    else acc' ++ [(s.id_, s)]) acc) []

/-- Lookup in the flattened id map. -/
def lookupId (m : List (String × Sel)) (sid : String) : Option Sel :=
  (m.find? (fun p => p.1 = sid)).map Prod.snd

/-- One iteration of the `while current is not None` climb in
`get_selection_path_str`: follow `parent` if it resolves in the lookup,
otherwise stop (`None`).  The loop body never checks any bound. -/
def pathStep (m : List (String × Sel)) (c : String) : Option String :=
  match lookupId m c with
  | none => none
  | some s =>
    match s.parent with
    | none => none
    | some p => if (lookupId m p).isSome then some p else none

/-- The climb after `n` iterations: `some c` means the loop is still running
with `current = c`; `none` means it has exited. -/
def pathIter (m : List (String × Sel)) (c : String) : Nat → Option String
  | 0 => some c
  | n + 1 =>
    match pathIter m c n with
    | none => none
    | some c' => pathStep m c'

/-! ## The command engine as one operation type -/

/-- Every store mutation a command stack replay can perform: the `do()` of
the six commands and the `undo()` of each (the undo forms carry the state
the command recorded at `redo` time).  Exception-raising undo paths leave
the store in its at-raise state, which for `undo_insert_ordered`'s
`KeyError` is the unmutated store. -/
inductive EngineOp where
  | insert (r : Sel)
  | insertAll (rs : List Sel) (append : Bool)
  | remove (r : Sel)
  | removeAll (rs : List Sel)
  | edit (k : Nat) (i : Int) (r : Sel)
  | moveAll (es : List EditingData)
  | undoInsert (k : Nat) (i : Int)
  | undoInsertAll (keys : List Nat) (indexes : List Int)
  | undoRemove (r : Sel) (childIds : List String)
  | undoRemoveAll (rs : List Sel)
  | undoEdit (k : Nat) (i : Int) (r : Sel)
  | undoMoveAll (inv : List EditingData)
deriving Repr

/-- Apply one engine operation to the store. -/
def applyOp : EngineOp → Store → Store
  | .insert r, d => (insert_ordered d r none none).1
  | .insertAll rs ap, d => (insertAllRedo d rs ap).1
  | .remove r, d => (remove_and_relink_children d r).1
  | .removeAll rs, d => remove_selections d rs
  | .edit k i r, d => (editCmdRedo d k i r).toOption.getD d
  | .moveAll es, d => apply_edit d es
  | .undoInsert k i, d => (undo_insert_ordered d k i).getD d
  | .undoInsertAll ks is, d => insertAllUndo d ks is
  | .undoRemove r cids, d => removeCmdUndo d r cids
  | .undoRemoveAll rs, d => removeAllUndo d rs
  | .undoEdit k i r, d => edit_selection d k i r
  | .undoMoveAll inv, d => apply_edit d inv

/-! ## Invariants of the spec (I1, I2, I4) -/

/-- All ids stored across all pages, in store order, with multiplicity. -/
def storeIds : Store → List String
  | [] => []
  | (_, l) :: rest => l.map Sel.id_ ++ storeIds rest

/-- I1 (uniqueness): no id appears in the store more than once. -/
def NodupIds (d : Store) : Prop := (storeIds d).Nodup

/-- I2 (contiguity) for one page: each record's `page` and `idx` fields
match its actual key and position (positions counted from `i`). -/
def pageIndexed (p : Nat) : Nat → List Sel → Bool
  | _, [] => true
  | i, s :: rest => s.page == p && s.idx == (i : Int) && pageIndexed p (i + 1) rest

/-- I2 (contiguity): every page's records carry `idx` fields `0..n-1` in
list order and `page` fields equal to their key. -/
def WellIndexed (d : Store) : Prop := ∀ e ∈ d, pageIndexed e.1 0 e.2 = true

/-- I4 (page key presence): a page key exists only with a non-empty list. -/
def NoEmptyPages (d : Store) : Prop := ∀ e ∈ d, e.2 ≠ []

/-- Page keys are unique (always true of a Python dict). -/
def NodupKeys (d : Store) : Prop := (odKeys d).Nodup

/-- Page keys appear in strictly ascending order. -/
def SortedKeys (d : Store) : Prop := (odKeys d).Sorted (· < ·)

instance (d : Store) : Decidable (WellIndexed d) :=
  inferInstanceAs (Decidable (∀ e ∈ d, pageIndexed e.1 0 e.2 = true))

instance (d : Store) : Decidable (NoEmptyPages d) :=
  inferInstanceAs (Decidable (∀ e ∈ d, e.2 ≠ []))

instance (d : Store) : Decidable (NodupIds d) :=
  inferInstanceAs (Decidable ((storeIds d).Nodup))

instance (d : Store) : Decidable (NodupKeys d) :=
  inferInstanceAs (Decidable ((odKeys d).Nodup))

instance (d : Store) : Decidable (SortedKeys d) :=
  inferInstanceAs (Decidable (List.Pairwise (· < ·) (odKeys d)))

/-- All records across all pages, in store order. -/
def storeRecords : Store → List Sel
  | [] => []
  | (_, l) :: rest => l ++ storeRecords rest

/-- The parent fields of all records carrying the given id, in store order
(a singleton exactly when the id occurs once). -/
def parentsOfId (d : Store) (sid : String) : List (Option String) :=
  ((storeRecords d).filter (fun s => s.id_ = sid)).map Sel.parent

/-- Map a record transformation over every record of the store. -/
def storeMapSel (f : Sel → Sel) (d : Store) : Store :=
  d.map (fun e => (e.1, e.2.map f))

/-- Set the parent field of the records carrying the given id (the
functional image of the in-place mutation `child.data.parent = pid` when the
id is unique in the store). -/
def updParent (sid : String) (pid : Option String) (s : Sel) : Sel :=
  if s.id_ = sid then { s with parent := pid } else s

/-- Record builder for concrete witnesses and counterexamples. -/
def mkSel (i : String) (p : Nat) (ix : Int) (par : Option String := none)
    (ch : List String := []) : Sel :=
  { id_ := i, doc := "doc.pdf", page := p, idx := ix,
    coords := [(0, 0), (0, 1), (1, 1)], text := "t", category := "text",
    image := "", parent := par, children := ch, description := "" }

/-- The replacement record a move-batch caller constructs: a copy of the
moved record declaring the target page and index in its own fields. -/
def setPos (s : Sel) (p : Nat) (i : Int) : Sel :=
  { s with page := p, idx := i }

/-! # Lemma library -/

/-! ## Dictionary primitives -/

theorem odGet_odSet_self (d : Store) (k : Nat) (v : List Sel) :
    odGet (odSet d k v) k = some v := by
  induction d with
  | nil => simp [odSet, odGet]
  | cons e rest ih =>
    obtain ⟨k', v'⟩ := e
    by_cases h : k' = k
    · simp [odSet, h, odGet]
    · simp [odSet, h, odGet, ih]

theorem odGet_odSet_ne (d : Store) {k q : Nat} (v : List Sel) (h : q ≠ k) :
    odGet (odSet d k v) q = odGet d q := by
  have hk : k ≠ q := Ne.symm h
  induction d with
  | nil => simp [odSet, odGet, hk]
  | cons e rest ih =>
    obtain ⟨k', v'⟩ := e
    by_cases he : k' = k
    · subst he
      simp [odSet, odGet, hk]
    · simp only [odSet, if_neg he, odGet]
      by_cases hq : k' = q
      · simp [hq]
      · simp [hq, ih]

theorem odSet_self {d : Store} {k : Nat} {v : List Sel} (h : odGet d k = some v) :
    odSet d k v = d := by
  induction d with
  | nil => simp [odGet] at h
  | cons e rest ih =>
    obtain ⟨k', v'⟩ := e
    by_cases hk : k' = k
    · subst hk
      simp [odGet] at h
      simp [odSet, h]
    · simp [odGet, hk] at h
      simp [odSet, hk, ih h]

theorem odSet_odSet (d : Store) (k : Nat) (v w : List Sel) :
    odSet (odSet d k v) k w = odSet d k w := by
  induction d with
  | nil => simp [odSet]
  | cons e rest ih =>
    obtain ⟨k', v'⟩ := e
    by_cases hk : k' = k
    · simp [odSet, hk]
    · simp [odSet, hk, ih]

theorem odSet_comm {d : Store} {k q : Nat} (v w : List Sel) (h : k ≠ q)
    (hkm : (odGet d k).isSome) (hqm : (odGet d q).isSome) :
    odSet (odSet d k v) q w = odSet (odSet d q w) k v := by
  induction d with
  | nil => simp [odGet] at hkm
  | cons e rest ih =>
    obtain ⟨k', v'⟩ := e
    by_cases hk : k' = k
    · subst hk
      simp [odSet, h, Ne.symm h]
    · by_cases hq : k' = q
      · subst hq
        simp [odSet, h.symm, hk, h]
      · simp only [odGet, if_neg hk] at hkm
        simp only [odGet, if_neg hq] at hqm
        simp [odSet, hk, hq, ih hkm hqm]

theorem odSet_absent {d : Store} {k : Nat} (v : List Sel) (h : odGet d k = none) :
    odSet d k v = d ++ [(k, v)] := by
  induction d with
  | nil => simp [odSet]
  | cons e rest ih =>
    obtain ⟨k', v'⟩ := e
    by_cases hk : k' = k
    · simp [odGet, hk] at h
    · simp [odGet, hk] at h
      simp [odSet, hk, ih h]

theorem odGet_eq_none_iff {d : Store} {k : Nat} :
    odGet d k = none ↔ k ∉ odKeys d := by
  induction d with
  | nil => simp [odGet, odKeys]
  | cons e rest ih =>
    obtain ⟨k', v'⟩ := e
    by_cases hk : k' = k
    · simp [odGet, hk, odKeys]
    · simp [odGet, hk, odKeys, ih, Ne.symm hk]

theorem odGet_mem {d : Store} {k : Nat} {l : List Sel} (h : odGet d k = some l) :
    (k, l) ∈ d := by
  induction d with
  | nil => simp [odGet] at h
  | cons e rest ih =>
    obtain ⟨k', v'⟩ := e
    by_cases hk : k' = k
    · subst hk
      simp [odGet] at h
      simp [h]
    · simp [odGet, hk] at h
      simp [ih h]

theorem odGet_odDel_ne (d : Store) {k q : Nat} (h : q ≠ k) :
    odGet (odDel d k) q = odGet d q := by
  have hk : k ≠ q := Ne.symm h
  induction d with
  | nil => simp [odDel]
  | cons e rest ih =>
    obtain ⟨k', v'⟩ := e
    by_cases he : k' = k
    · subst he
      simp [odDel, odGet, hk]
    · simp only [odDel, if_neg he, odGet]
      by_cases hq : k' = q
      · simp [hq]
      · simp [hq, ih]

theorem odKeys_odDel_sublist (d : Store) (k : Nat) :
    List.Sublist (odKeys (odDel d k)) (odKeys d) := by
  induction d with
  | nil => simp [odDel]
  | cons e rest ih =>
    obtain ⟨k', v'⟩ := e
    by_cases hk : k' = k
    · simp only [odDel, if_pos hk, odKeys, List.map_cons]
      exact List.sublist_cons_self _ _
    · simpa [odDel, hk, odKeys] using ih.cons₂ k'

theorem nodupKeys_cons {k : Nat} {v : List Sel} {rest : Store}
    (h : NodupKeys ((k, v) :: rest)) : k ∉ odKeys rest ∧ NodupKeys rest := by
  simp only [NodupKeys, odKeys, List.map_cons, List.nodup_cons] at h
  exact ⟨h.1, h.2⟩

theorem odGet_odDel_self {d : Store} {k : Nat} (h : NodupKeys d) :
    odGet (odDel d k) k = none := by
  induction d with
  | nil => simp [odDel, odGet]
  | cons e rest ih =>
    obtain ⟨k', v'⟩ := e
    obtain ⟨hnm, hrest⟩ := nodupKeys_cons h
    by_cases hk : k' = k
    · subst hk
      simp [odDel, odGet_eq_none_iff.2 hnm]
    · simp [odDel, hk, odGet, ih hrest]

/-! ## `move_to_end` and key permutation -/

theorem find_eraseP_perm {α} (p : α → Bool) {l : List α} {x : α}
    (h : l.find? p = some x) : l.Perm (x :: l.eraseP p) := by
  induction l with
  | nil => simp [List.find?] at h
  | cons a rest ih =>
    by_cases hp : p a
    · rw [List.find?_cons_of_pos _ hp] at h
      cases h
      rw [List.eraseP_cons_of_pos hp]
    · rw [List.find?_cons_of_neg _ (by simpa using hp)] at h
      rw [List.eraseP_cons_of_neg (by simpa using hp)]
      exact ((ih h).cons a).trans (List.Perm.swap _ _ _)

theorem odMoveToEnd_perm (d : Store) (k : Nat) : (odMoveToEnd d k).Perm d := by
  unfold odMoveToEnd
  cases hf : d.find? (fun e => e.1 = k) with
  | none => exact List.Perm.refl d
  | some e =>
    exact ((List.perm_append_singleton e _).trans (find_eraseP_perm _ hf).symm)

theorem find_key_eq_odGet {d : Store} {k : Nat} {e : Nat × List Sel}
    (h : d.find? (fun x => x.1 = k) = some e) : odGet d k = some e.2 ∧ e.1 = k := by
  induction d with
  | nil => simp [List.find?] at h
  | cons a rest ih =>
    obtain ⟨k', v'⟩ := a
    by_cases hp : k' = k
    · rw [List.find?_cons_of_pos _ (by simpa using hp)] at h
      cases h
      simp [odGet, hp]
    · rw [List.find?_cons_of_neg _ (by simpa using hp)] at h
      simp [odGet, hp, ih h]

theorem odGet_eraseP_self {d : Store} {k : Nat} (h : NodupKeys d) :
    odGet (d.eraseP (fun e => e.1 = k)) k = none := by
  induction d with
  | nil => simp [odGet]
  | cons a rest ih =>
    obtain ⟨k', v'⟩ := a
    obtain ⟨hnm, hrest⟩ := nodupKeys_cons h
    by_cases hp : k' = k
    · subst hp
      rw [List.eraseP_cons_of_pos (by simp)]
      exact odGet_eq_none_iff.2 hnm
    · rw [List.eraseP_cons_of_neg (by simpa using hp)]
      simp [odGet, hp, ih hrest]

theorem odGet_eraseP_ne (d : Store) {k q : Nat} (h : q ≠ k) :
    odGet (d.eraseP (fun e => e.1 = k)) q = odGet d q := by
  induction d with
  | nil => simp
  | cons a rest ih =>
    obtain ⟨k', v'⟩ := a
    by_cases hp : k' = k
    · subst hp
      rw [List.eraseP_cons_of_pos (by simp)]
      simp [odGet, Ne.symm h]
    · rw [List.eraseP_cons_of_neg (by simpa using hp)]
      by_cases hq : k' = q
      · simp [odGet, hq]
      · simp [odGet, hq, ih]

theorem odGet_append (A B : Store) (q : Nat) :
    odGet (A ++ B) q = match odGet A q with
      | some v => some v
      | none => odGet B q := by
  induction A with
  | nil => simp [odGet]
  | cons a rest ih =>
    obtain ⟨k', v'⟩ := a
    by_cases hq : k' = q
    · simp [odGet, hq]
    · simp [odGet, hq, ih]

theorem odGet_odMoveToEnd {d : Store} (h : NodupKeys d) (k q : Nat) :
    odGet (odMoveToEnd d k) q = odGet d q := by
  unfold odMoveToEnd
  cases hf : d.find? (fun e => e.1 = k) with
  | none => rfl
  | some e =>
    obtain ⟨hget, hek⟩ := find_key_eq_odGet hf
    by_cases hq : q = k
    · subst hq
      rw [odGet_append, odGet_eraseP_self h]
      simp [odGet, hek, hget]
    · rw [odGet_append, odGet_eraseP_ne d hq]
      cases hg : odGet d q with
      | none => simp [odGet, hek, Ne.symm hq]
      | some v => simp

theorem odKeys_perm_of_perm {d d' : Store} (h : d.Perm d') :
    (odKeys d).Perm (odKeys d') := h.map Prod.fst

theorem nodupKeys_odMoveToEnd {d : Store} (h : NodupKeys d) (k : Nat) :
    NodupKeys (odMoveToEnd d k) :=
  ((odKeys_perm_of_perm (odMoveToEnd_perm d k)).nodup_iff).2 h

theorem foldl_odMoveToEnd_props (ks : List Nat) :
    ∀ d : Store, NodupKeys d →
      NodupKeys (ks.foldl odMoveToEnd d) ∧
      (ks.foldl odMoveToEnd d).Perm d ∧
      ∀ q, odGet (ks.foldl odMoveToEnd d) q = odGet d q := by
  induction ks with
  | nil => exact fun d h => ⟨h, List.Perm.refl d, fun q => rfl⟩
  | cons a rest ih =>
    intro d h
    have h1 : NodupKeys (odMoveToEnd d a) := nodupKeys_odMoveToEnd h a
    obtain ⟨hn, hp, hg⟩ := ih (odMoveToEnd d a) h1
    simp only [List.foldl_cons]
    refine ⟨hn, hp.trans (odMoveToEnd_perm d a), fun q => ?_⟩
    rw [hg q, odGet_odMoveToEnd h]

/-- Moving the keys of `B`, in order, to the end of `A ++ B ++ C` yields
`A ++ C ++ B`, provided the moved keys avoid `A` and `C` and are distinct. -/
theorem foldl_odMoveToEnd_shift (B : Store) :
    ∀ A C : Store, (∀ b ∈ B, b.1 ∉ odKeys A) → (∀ b ∈ B, b.1 ∉ odKeys C) →
      NodupKeys B →
      (odKeys B).foldl odMoveToEnd (A ++ (B ++ C)) = A ++ (C ++ B) := by
  induction B with
  | nil => intro A C _ _ _; simp [odKeys]
  | cons b B' ih =>
    intro A C hA hC hB
    obtain ⟨b1, b2⟩ := b
    obtain ⟨hbm, hBrest⟩ := nodupKeys_cons hB
    have hb1A : b1 ∉ odKeys A := hA (b1, b2) (by simp)
    have hnoA : ∀ x ∈ A, ¬ (fun e : Nat × List Sel => decide (e.1 = b1)) x = true := by
      intro x hx
      simp only [decide_eq_true_eq]
      intro hx1
      exact hb1A (show b1 ∈ odKeys A from hx1 ▸ List.mem_map_of_mem Prod.fst hx)
    have hfind : (A ++ ((b1, b2) :: (B' ++ C))).find? (fun e => e.1 = b1) = some (b1, b2) := by
      rw [List.find?_append, List.find?_eq_none.2 hnoA]
      simp [List.find?]
    have herase : (A ++ ((b1, b2) :: (B' ++ C))).eraseP (fun e => e.1 = b1)
        = A ++ (B' ++ C) := by
      rw [List.eraseP_append_right _ hnoA, List.eraseP_cons_of_pos (by simp)]
    have hstep : odMoveToEnd (A ++ ((b1, b2) :: (B' ++ C))) b1
        = A ++ (B' ++ (C ++ [(b1, b2)])) := by
      unfold odMoveToEnd
      rw [hfind, herase]
      simp
    have hA' : ∀ x ∈ B', x.1 ∉ odKeys A := fun x hx => hA x (by simp [hx])
    have hC' : ∀ x ∈ B', x.1 ∉ odKeys (C ++ [(b1, b2)]) := by
      intro x hx
      simp only [odKeys, List.map_append, List.mem_append]
      rintro (hc | hc)
      · exact (hC x (by simp [hx])) hc
      · simp only [List.map_cons, List.map_nil, List.mem_singleton] at hc
        exact hbm (hc ▸ (show x.1 ∈ odKeys B' from List.mem_map_of_mem Prod.fst hx))
    have hfold := ih A (C ++ [(b1, b2)]) hA' hC' hBrest
    calc (odKeys ((b1, b2) :: B')).foldl odMoveToEnd (A ++ ((b1, b2) :: B' ++ C))
        = (odKeys B').foldl odMoveToEnd (A ++ (B' ++ (C ++ [(b1, b2)]))) := by
          simp only [odKeys, List.map_cons, List.foldl_cons, List.cons_append]
          rw [hstep]
      _ = A ++ ((C ++ [(b1, b2)]) ++ B') := hfold
      _ = A ++ (C ++ ((b1, b2) :: B')) := by simp

/-- A store with strictly ascending keys splits, at any absent key `p`, into
the entries with smaller keys followed by the entries with greater keys. -/
theorem sorted_split {d : Store} {p : Nat} (hs : SortedKeys d) (hp : odGet d p = none) :
    ∃ A B : Store, d = A ++ B ∧ (∀ a ∈ A, a.1 < p) ∧ (∀ b ∈ B, p < b.1) := by
  induction d with
  | nil => exact ⟨[], [], by simp⟩
  | cons e rest ih =>
    obtain ⟨k, v⟩ := e
    have hs' : List.Sorted (· < ·) (k :: odKeys rest) := hs
    have hsr : SortedKeys rest := List.Sorted.of_cons hs'
    have hall : ∀ q ∈ odKeys rest, k < q := List.rel_of_sorted_cons hs'
    by_cases hk : k = p
    · simp [odGet, hk] at hp
    · simp only [odGet, if_neg hk] at hp
      rcases Nat.lt_or_ge k p with hlt | hge
      · obtain ⟨A, B, hAB, hA, hB⟩ := ih hsr hp
        exact ⟨(k, v) :: A, B, by simp [hAB], by
          intro a ha
          rcases List.mem_cons.1 ha with h1 | h1
          · subst h1; exact hlt
          · exact hA a h1, hB⟩
      · have hkp : p < k := lt_of_le_of_ne hge (fun hh => hk hh.symm)
        refine ⟨[], (k, v) :: rest, by simp, by simp, ?_⟩
        intro b hb
        rcases List.mem_cons.1 hb with h1 | h1
        · subst h1; exact hkp
        · exact hkp.trans (hall b.1 (List.mem_map_of_mem Prod.fst h1))

/-! ## Records, ids and reindexing -/

theorem storeRecords_append (A B : Store) :
    storeRecords (A ++ B) = storeRecords A ++ storeRecords B := by
  induction A with
  | nil => simp [storeRecords]
  | cons e rest ih => obtain ⟨k, v⟩ := e; simp [storeRecords, ih]

theorem storeIds_append (A B : Store) :
    storeIds (A ++ B) = storeIds A ++ storeIds B := by
  induction A with
  | nil => simp [storeIds]
  | cons e rest ih => obtain ⟨k, v⟩ := e; simp [storeIds, ih]

theorem storeIds_eq_map (d : Store) : storeIds d = (storeRecords d).map Sel.id_ := by
  induction d with
  | nil => simp [storeIds, storeRecords]
  | cons e rest ih => obtain ⟨k, v⟩ := e; simp [storeIds, storeRecords, ih]

theorem storeIds_perm_of_perm {d d' : Store} (h : d.Perm d') :
    (storeIds d).Perm (storeIds d') := by
  have hj : ∀ e : Store, storeIds e = (e.map (fun x => x.2.map Sel.id_)).flatten := by
    intro e
    induction e with
    | nil => simp [storeIds]
    | cons a rest ih => obtain ⟨k, v⟩ := a; simp [storeIds, ih]
  rw [hj d, hj d']
  exact (h.map _).flatten

theorem map_id_reindexFrom (p : Nat) (i : Nat) (l : List Sel) :
    (reindexFrom p i l).map Sel.id_ = l.map Sel.id_ := by
  induction l generalizing i with
  | nil => simp [reindexFrom]
  | cons s rest ih => simp [reindexFrom, ih]

theorem length_reindexFrom (p : Nat) (i : Nat) (l : List Sel) :
    (reindexFrom p i l).length = l.length := by
  induction l generalizing i with
  | nil => simp [reindexFrom]
  | cons s rest ih => simp [reindexFrom, ih]

theorem reindexFrom_append (p : Nat) (i : Nat) (l1 l2 : List Sel) :
    reindexFrom p i (l1 ++ l2) = reindexFrom p i l1 ++ reindexFrom p (i + l1.length) l2 := by
  induction l1 generalizing i with
  | nil => simp [reindexFrom]
  | cons s rest ih =>
    simp only [List.cons_append, reindexFrom, List.length_cons, List.append_eq]
    rw [ih]
    have hlen : i + 1 + rest.length = i + (rest.length + 1) := by omega
    rw [hlen]

theorem reindexFrom_reindexFrom (p : Nat) (i j : Nat) (l : List Sel) :
    reindexFrom p i (reindexFrom p j l) = reindexFrom p i l := by
  induction l generalizing i j with
  | nil => simp [reindexFrom]
  | cons s rest ih => simp [reindexFrom, ih]

theorem sel_update_eq_self (s : Sel) (p : Nat) (i : Int) :
    ({ s with page := p, idx := i } : Sel) = s ↔ s.page = p ∧ s.idx = i := by
  constructor
  · intro h
    rw [← h]
    exact ⟨rfl, rfl⟩
  · rintro ⟨h1, h2⟩
    rw [← h1, ← h2]

theorem pageIndexed_iff (p : Nat) (i : Nat) (l : List Sel) :
    pageIndexed p i l = true ↔ reindexFrom p i l = l := by
  induction l generalizing i with
  | nil => simp [pageIndexed, reindexFrom]
  | cons s rest ih =>
    simp only [pageIndexed, reindexFrom, Bool.and_eq_true, beq_iff_eq, List.cons_eq_cons,
      ih, sel_update_eq_self]

theorem pageIndexed_reindexFrom (p : Nat) (i : Nat) (l : List Sel) :
    pageIndexed p i (reindexFrom p i l) = true := by
  rw [pageIndexed_iff, reindexFrom_reindexFrom]

theorem storeIds_odSet_map {d : Store} {k : Nat} {l v : List Sel}
    (h : odGet d k = some l) (hm : v.map Sel.id_ = l.map Sel.id_) :
    storeIds (odSet d k v) = storeIds d := by
  induction d with
  | nil => simp [odGet] at h
  | cons e rest ih =>
    obtain ⟨k', v'⟩ := e
    by_cases hk : k' = k
    · subst hk
      have h' : v' = l := by simpa [odGet] using h
      subst h'
      simp [odSet, storeIds, hm]
    · simp only [odGet, if_neg hk] at h
      simp [odSet, hk, storeIds, ih h]

theorem storeIds_odSet_get {d : Store} {k : Nat} {l : List Sel} (v : List Sel)
    (h : odGet d k = some l) :
    (storeIds (odSet d k v) ++ l.map Sel.id_).Perm (storeIds d ++ v.map Sel.id_) := by
  induction d with
  | nil => simp [odGet] at h
  | cons e rest ih =>
    obtain ⟨k', v'⟩ := e
    by_cases hk : k' = k
    · subst hk
      have h' : v' = l := by simpa [odGet] using h
      subst h'
      simp only [odSet, if_pos rfl, storeIds]
      rw [← Multiset.coe_eq_coe]
      repeat rw [← Multiset.coe_add]
      abel
    · simp only [odGet, if_neg hk] at h
      simp only [odSet, if_neg hk, storeIds, List.append_assoc]
      exact (ih h).append_left _

theorem storeIds_odDel_get {d : Store} {k : Nat} {l : List Sel}
    (h : odGet d k = some l) :
    (storeIds (odDel d k) ++ l.map Sel.id_).Perm (storeIds d) := by
  induction d with
  | nil => simp [odGet] at h
  | cons e rest ih =>
    obtain ⟨k', v'⟩ := e
    by_cases hk : k' = k
    · subst hk
      have h' : v' = l := by simpa [odGet] using h
      subst h'
      simp only [odDel, if_pos rfl, storeIds]
      exact List.perm_append_comm
    · simp only [odGet, if_neg hk] at h
      simp only [odDel, if_neg hk, storeIds, List.append_assoc]
      exact (ih h).append_left _

theorem storeIds_odSet_absent {d : Store} {k : Nat} (v : List Sel)
    (h : odGet d k = none) :
    storeIds (odSet d k v) = storeIds d ++ v.map Sel.id_ := by
  rw [odSet_absent v h, storeIds_append]
  simp [storeIds]

theorem storeIds_updatePageIndexes (d : Store) (p : Nat) :
    storeIds (updatePageIndexes d p) = storeIds d := by
  unfold updatePageIndexes
  cases hg : odGet d p with
  | none => rfl
  | some l => exact storeIds_odSet_map hg (map_id_reindexFrom p 0 l)

/-! ## Popping and inserting at known positions -/

theorem pyPop_at (l1 l2 : List α) (x : α) :
    pyPop (l1 ++ x :: l2) (l1.length : Int) = some (x, l1 ++ l2) := by
  simp only [pyPop]
  rw [if_neg (by omega : ¬ ((l1.length : Int) < 0)),
    if_pos (by omega : (0 : Int) ≤ (l1.length : Int))]
  have hj : ((l1.length : Int)).toNat = l1.length := by omega
  rw [hj]
  have hget : (l1 ++ x :: l2).get? l1.length = some x := by
    rw [List.get?_append_right (le_refl _)]
    simp
  rw [hget]
  have hdrop : (l1 ++ x :: l2).drop (l1.length + 1) = l2 := by
    have h1 := @List.drop_append _ l1 (x :: l2) 1
    simpa using h1
  rw [List.take_left, hdrop]

theorem pyInsert_at (l1 l2 : List α) (x : α) :
    pyInsert (l1 ++ l2) l1.length x = l1 ++ x :: l2 := by
  unfold pyInsert
  rw [List.take_left]
  have hdrop : (l1 ++ l2).drop l1.length = l2 := by
    have h1 := @List.drop_append _ l1 l2 0
    simpa using h1
  rw [hdrop]

theorem pyInsert_length (l : List α) (i : Nat) (x : α) :
    (pyInsert l i x).length = l.length + 1 := by
  unfold pyInsert
  simp
  omega

theorem pyInsert_map_perm (l : List α) (i : Nat) (x : α) (f : α → β) :
    ((pyInsert l i x).map f).Perm (f x :: l.map f) := by
  unfold pyInsert
  simp only [List.map_append, List.map_cons]
  refine List.perm_middle.trans ?_
  rw [← List.map_append, List.take_append_drop]

theorem pyInsert_ne_nil (l : List α) (i : Nat) (x : α) : pyInsert l i x ≠ [] := by
  intro h
  have := congrArg List.length h
  rw [pyInsert_length] at this
  simp at this

/-! ## `updatePageIndexes` structure -/

theorem updatePageIndexes_absent {d : Store} {p : Nat} (h : odGet d p = none) :
    updatePageIndexes d p = d := by
  unfold updatePageIndexes
  rw [h]

theorem odGet_updatePageIndexes_self {d : Store} {p : Nat} {l : List Sel}
    (h : odGet d p = some l) :
    odGet (updatePageIndexes d p) p = some (reindexFrom p 0 l) := by
  unfold updatePageIndexes
  rw [h, odGet_odSet_self]

theorem odGet_updatePageIndexes_ne (d : Store) {p q : Nat} (h : q ≠ p) :
    odGet (updatePageIndexes d p) q = odGet d q := by
  unfold updatePageIndexes
  cases hg : odGet d p with
  | none => rfl
  | some l => rw [odGet_odSet_ne _ _ h]

theorem updatePageIndexes_eq_self {d : Store} {p : Nat} {l : List Sel}
    (h : odGet d p = some l) (hl : pageIndexed p 0 l = true) :
    updatePageIndexes d p = d := by
  unfold updatePageIndexes
  rw [h]
  show odSet d p (reindexFrom p 0 l) = d
  rw [(pageIndexed_iff p 0 l).1 hl, odSet_self h]

theorem odKeys_odSet_present {d : Store} {k : Nat} (v : List Sel)
    (h : (odGet d k).isSome) : odKeys (odSet d k v) = odKeys d := by
  induction d with
  | nil => simp [odGet] at h
  | cons e rest ih =>
    obtain ⟨k', v'⟩ := e
    by_cases hk : k' = k
    · subst hk
      simp [odSet, odKeys]
    · simp only [odGet, if_neg hk] at h
      have h2 := ih h
      simp only [odKeys] at h2
      simp [odSet, hk, odKeys, h2]

theorem odKeys_updatePageIndexes (d : Store) (p : Nat) :
    odKeys (updatePageIndexes d p) = odKeys d := by
  unfold updatePageIndexes
  cases hg : odGet d p with
  | none => rfl
  | some l => exact odKeys_odSet_present _ (by simp [hg])

/-! ## `NoEmptyPages` preservation pieces -/

theorem mem_odSet {d : Store} {k : Nat} {v : List Sel} {e : Nat × List Sel}
    (h : e ∈ odSet d k v) : e = (k, v) ∨ e ∈ d := by
  induction d with
  | nil => simp [odSet] at h; simp [h]
  | cons a rest ih =>
    obtain ⟨k', v'⟩ := a
    by_cases hk : k' = k
    · subst hk
      simp only [odSet, if_pos] at h
      rcases List.mem_cons.1 h with h1 | h1
      · exact Or.inl h1
      · exact Or.inr (by simp [h1])
    · simp only [odSet, if_neg hk] at h
      rcases List.mem_cons.1 h with h1 | h1
      · exact Or.inr (by simp [h1])
      · rcases ih h1 with h2 | h2
        · exact Or.inl h2
        · exact Or.inr (by simp [h2])

theorem mem_odDel {d : Store} {k : Nat} {e : Nat × List Sel}
    (h : e ∈ odDel d k) : e ∈ d := by
  induction d with
  | nil => simp [odDel] at h
  | cons a rest ih =>
    obtain ⟨k', v'⟩ := a
    by_cases hk : k' = k
    · subst hk
      simp only [odDel, if_pos] at h
      exact by simp [h]
    · simp only [odDel, if_neg hk] at h
      rcases List.mem_cons.1 h with h1 | h1
      · simp [h1]
      · exact by simp [ih h1]

theorem noEmptyPages_odSet {d : Store} {k : Nat} {v : List Sel}
    (hv : v ≠ []) (hd : NoEmptyPages d) : NoEmptyPages (odSet d k v) := by
  intro e he
  rcases mem_odSet he with h | h
  · simp [h, hv]
  · exact hd e h

theorem noEmptyPages_odDel {d : Store} (k : Nat) (hd : NoEmptyPages d) :
    NoEmptyPages (odDel d k) := fun e he => hd e (mem_odDel he)

theorem noEmptyPages_perm {d d' : Store} (h : d.Perm d') (hd : NoEmptyPages d) :
    NoEmptyPages d' := fun e he => hd e (h.symm.subset he)

theorem noEmptyPages_updatePageIndexes {d : Store} (p : Nat) (hd : NoEmptyPages d) :
    NoEmptyPages (updatePageIndexes d p) := by
  unfold updatePageIndexes
  cases hg : odGet d p with
  | none => exact hd
  | some l =>
    have hl : l ≠ [] := hd (p, l) (odGet_mem hg)
    refine noEmptyPages_odSet ?_ hd
    intro hcon
    have := congrArg List.length hcon
    rw [length_reindexFrom] at this
    exact hl (List.length_eq_zero.1 (by simpa using this))

theorem wellIndexed_odGet {d : Store} {p : Nat} {l : List Sel}
    (hw : WellIndexed d) (h : odGet d p = some l) : pageIndexed p 0 l = true :=
  hw (p, l) (odGet_mem h)

/-! ## `insert_ordered` branch characterizations -/

theorem odMem_eq_true_iff {d : Store} {k : Nat} :
    odMem d k = true ↔ (odGet d k).isSome := by
  simp [odMem]

theorem insert_ordered_present_append {d : Store} {v : Sel} {key : Option Nat}
    {idx : Option Int} {k : Nat} {l : List Sel} (hkk : key.getD v.page = k)
    (h : odGet d k = some l) (hi : idx.getD v.idx < 0) :
    insert_ordered d v key idx =
      (updatePageIndexes (odSet d k (l ++ [v])) k, k, (l.length : Int)) := by
  unfold insert_ordered
  rw [hkk]
  rw [if_pos (by simp [odMem, h]), if_pos hi]
  simp [odGetD, h]

theorem insert_ordered_present_at {d : Store} {v : Sel} {key : Option Nat}
    {idx : Option Int} {k : Nat} {l : List Sel} (hkk : key.getD v.page = k)
    (h : odGet d k = some l) (hi : ¬ idx.getD v.idx < 0) :
    insert_ordered d v key idx =
      (updatePageIndexes (odSet d k (pyInsert l (idx.getD v.idx).toNat v)) k, k,
        idx.getD v.idx) := by
  unfold insert_ordered
  rw [hkk]
  rw [if_pos (by simp [odMem, h]), if_neg hi]
  simp [odGetD, h]

theorem insert_ordered_absent {d : Store} {v : Sel} {key : Option Nat}
    {idx : Option Int} {k : Nat} (hkk : key.getD v.page = k) (h : odGet d k = none) :
    insert_ordered d v key idx =
      (((odKeys (d ++ [(k, [v])])).filter (fun q => decide (k < q))).foldl odMoveToEnd
          (d ++ [(k, [v])]), k, 0) := by
  unfold insert_ordered
  rw [hkk]
  rw [if_neg (by simp [odMem, h]), odSet_absent _ h]

/-- The new-key branch under unique keys: the fresh page holds exactly the
inserted record, every other page is untouched, and keys stay unique. -/
theorem insert_ordered_absent_get {d : Store} {v : Sel} {key : Option Nat}
    {idx : Option Int} {k : Nat} (hkk : key.getD v.page = k) (h : odGet d k = none)
    (hNK : NodupKeys d) :
    odGet (insert_ordered d v key idx).1 k = some [v] ∧
    (∀ q, q ≠ k → odGet (insert_ordered d v key idx).1 q = odGet d q) ∧
    NodupKeys (insert_ordered d v key idx).1 ∧
    (insert_ordered d v key idx).1.Perm (d ++ [(k, [v])]) := by
  rw [insert_ordered_absent hkk h]
  have hNK1 : NodupKeys (d ++ [(k, [v])]) := by
    simp only [NodupKeys, odKeys, List.map_append, List.map_cons, List.map_nil]
    rw [List.nodup_append]
    refine ⟨hNK, by simp, ?_⟩
    intro a ha
    simp only [List.mem_singleton]
    intro hb
    subst hb
    exact (odGet_eq_none_iff.1 h) ha
  obtain ⟨hn, hp, hg⟩ := foldl_odMoveToEnd_props _ (d ++ [(k, [v])]) hNK1
  refine ⟨?_, ?_, hn, hp⟩
  · rw [hg k, odGet_append]
    rw [h]
    simp [odGet]
  · intro q hq
    rw [hg q, odGet_append]
    cases hgq : odGet d q with
    | none => simp [odGet, Ne.symm hq]
    | some w => simp

theorem foldl_odMoveToEnd_perm (ks : List Nat) :
    ∀ d : Store, (ks.foldl odMoveToEnd d).Perm d := by
  induction ks with
  | nil => exact fun d => List.Perm.refl d
  | cons a rest ih =>
    intro d
    simp only [List.foldl_cons]
    exact (ih (odMoveToEnd d a)).trans (odMoveToEnd_perm d a)

theorem perm_cancel_right {α} {as bs cs : List α} (h : (as ++ cs).Perm (bs ++ cs)) :
    as.Perm bs := (List.perm_append_right_iff cs).1 h

theorem storeIds_insert_ordered (d : Store) (v : Sel) (key : Option Nat) (idx : Option Int) :
    (storeIds (insert_ordered d v key idx).1).Perm (v.id_ :: storeIds d) := by
  set k := key.getD v.page with hkk
  cases hg : odGet d k with
  | none =>
    rw [insert_ordered_absent hkk.symm hg]
    refine ((storeIds_perm_of_perm (foldl_odMoveToEnd_perm _ _)).trans ?_)
    rw [storeIds_append]
    simp only [storeIds]
    rw [← Multiset.coe_eq_coe]
    simp only [← Multiset.coe_add, ← Multiset.cons_coe, ← Multiset.singleton_add,
      Multiset.coe_singleton, List.map_cons, List.map_nil, List.append_nil]
    abel
  | some l =>
    by_cases hi : idx.getD v.idx < 0
    · rw [insert_ordered_present_append hkk.symm hg hi]
      simp only [storeIds_updatePageIndexes]
      have h1 := storeIds_odSet_get (l ++ [v]) hg
      have h2 : (storeIds d ++ (l ++ [v]).map Sel.id_).Perm
          ((v.id_ :: storeIds d) ++ l.map Sel.id_) := by
        rw [← Multiset.coe_eq_coe]
        simp only [List.map_append, List.map_cons, List.map_nil, ← Multiset.coe_add,
          ← Multiset.cons_coe, ← Multiset.singleton_add, Multiset.coe_singleton]
        abel
      exact perm_cancel_right (h1.trans h2)
    · rw [insert_ordered_present_at hkk.symm hg hi]
      simp only [storeIds_updatePageIndexes]
      have h1 := storeIds_odSet_get (pyInsert l (idx.getD v.idx).toNat v) hg
      have h2 : (storeIds d ++ (pyInsert l (idx.getD v.idx).toNat v).map Sel.id_).Perm
          ((v.id_ :: storeIds d) ++ l.map Sel.id_) := by
        refine ((pyInsert_map_perm l _ v Sel.id_).append_left (storeIds d)).trans ?_
        rw [← Multiset.coe_eq_coe]
        simp only [← Multiset.coe_add, ← Multiset.cons_coe, ← Multiset.singleton_add,
          Multiset.coe_singleton]
        abel
      exact perm_cancel_right (h1.trans h2)

theorem noEmptyPages_insert_ordered {d : Store} (v : Sel) (key : Option Nat)
    (idx : Option Int) (hd : NoEmptyPages d) :
    NoEmptyPages (insert_ordered d v key idx).1 := by
  set k := key.getD v.page with hkk
  cases hg : odGet d k with
  | none =>
    rw [insert_ordered_absent hkk.symm hg]
    refine noEmptyPages_perm (foldl_odMoveToEnd_perm _ _).symm ?_
    intro e he
    rcases List.mem_append.1 he with h1 | h1
    · exact hd e h1
    · simp only [List.mem_singleton] at h1
      subst h1
      simp
  | some l =>
    by_cases hi : idx.getD v.idx < 0
    · rw [insert_ordered_present_append hkk.symm hg hi]
      exact noEmptyPages_updatePageIndexes _ (noEmptyPages_odSet (by simp) hd)
    · rw [insert_ordered_present_at hkk.symm hg hi]
      exact noEmptyPages_updatePageIndexes _ (noEmptyPages_odSet (pyInsert_ne_nil _ _ _) hd)

theorem nodupIds_insert_ordered {d : Store} {v : Sel} (key : Option Nat)
    (idx : Option Int) (hd : NodupIds d) (hv : v.id_ ∉ storeIds d) :
    NodupIds (insert_ordered d v key idx).1 := by
  refine (storeIds_insert_ordered d v key idx).symm.nodup ?_
  exact List.nodup_cons.2 ⟨hv, hd⟩

/-- The new-key branch on a sorted store: the new entry is spliced between
the smaller and the greater keys. -/
theorem insert_ordered_sorted_splice {d : Store} {v : Sel} {key : Option Nat}
    {idx : Option Int} {k : Nat} (hkk : key.getD v.page = k) (h : odGet d k = none)
    (hs : SortedKeys d) :
    ∃ A B : Store, d = A ++ B ∧ (∀ a ∈ A, a.1 < k) ∧ (∀ b ∈ B, k < b.1) ∧
      (insert_ordered d v key idx).1 = A ++ ((k, [v]) :: B) := by
  obtain ⟨A, B, hAB, hA, hB⟩ := sorted_split hs h
  refine ⟨A, B, hAB, hA, hB, ?_⟩
  rw [insert_ordered_absent hkk h]
  subst hAB
  have hkeys : odKeys (A ++ B ++ [(k, [v])]) = odKeys A ++ odKeys B ++ [k] := by
    simp [odKeys]
  have hfilter : (odKeys (A ++ B ++ [(k, [v])])).filter (fun q => decide (k < q))
      = odKeys B := by
    rw [hkeys]
    rw [List.filter_append, List.filter_append]
    have hfA : (odKeys A).filter (fun q => decide (k < q)) = [] := by
      rw [List.filter_eq_nil]
      intro a ha
      simp only [decide_eq_true_eq, not_lt]
      obtain ⟨e, he, hfst⟩ := List.mem_map.1 ha
      exact le_of_lt (hfst ▸ hA e he)
    have hfB : (odKeys B).filter (fun q => decide (k < q)) = odKeys B := by
      rw [List.filter_eq_self]
      intro a ha
      simp only [decide_eq_true_eq]
      obtain ⟨e, he, hfst⟩ := List.mem_map.1 ha
      exact hfst ▸ hB e he
    have hfk : ([k]).filter (fun q => decide (k < q)) = [] := by
      simp
    rw [hfA, hfB, hfk]
    simp
  rw [hfilter]
  have hsortB : (odKeys B).Sorted (· < ·) := by
    have := hs
    simp only [SortedKeys, odKeys, List.map_append] at this
    exact ((List.pairwise_append.1 this).2.1)
  have hNB : NodupKeys B := hsortB.nodup
  have hBA : ∀ b ∈ B, b.1 ∉ odKeys A := by
    intro b hb hmem
    obtain ⟨e, he, hfst⟩ := List.mem_map.1 hmem
    have h1 : e.1 < k := hA e he
    have h2 : k < b.1 := hB b hb
    omega
  have hBC : ∀ b ∈ B, b.1 ∉ odKeys [(k, [v])] := by
    intro b hb hmem
    simp only [odKeys, List.map_cons, List.map_nil, List.mem_singleton] at hmem
    have h2 : k < b.1 := hB b hb
    omega
  have hshift := foldl_odMoveToEnd_shift B A [(k, [v])] hBA hBC hNB
  calc (odKeys B).foldl odMoveToEnd (A ++ B ++ [(k, [v])])
      = (odKeys B).foldl odMoveToEnd (A ++ (B ++ [(k, [v])])) := by
        rw [List.append_assoc]
    _ = A ++ ([(k, [v])] ++ B) := hshift
    _ = A ++ ((k, [v]) :: B) := by simp

theorem odDel_append_middle {A : Store} (B : Store) {k : Nat} (w : List Sel)
    (hA : ∀ a ∈ A, a.1 ≠ k) : odDel (A ++ (k, w) :: B) k = A ++ B := by
  induction A with
  | nil => simp [odDel]
  | cons a rest ih =>
    obtain ⟨k', v'⟩ := a
    have hk : k' ≠ k := hA (k', v') (by simp)
    have hrest : ∀ a ∈ rest, a.1 ≠ k := fun a ha => hA a (by simp [ha])
    simp only [List.cons_append, odDel, if_neg hk]
    exact congrArg (List.cons (k', v')) (ih hrest)

theorem updatePageIndexes_odSet (d : Store) (k : Nat) (v : List Sel) :
    updatePageIndexes (odSet d k v) k = odSet d k (reindexFrom k 0 v) := by
  unfold updatePageIndexes
  rw [odGet_odSet_self]
  show odSet (odSet d k v) k (reindexFrom k 0 v) = odSet d k (reindexFrom k 0 v)
  rw [odSet_odSet]

/-- Undoing an insertion restores the store exactly, provided the store is
well-formed (sorted keys, contiguous indices, no empty pages) and the
record's declared index is negative (append) or at most the page length.
This is the content of claim C4 after removing the failing cases. -/
theorem C4_undo_insert_restores_store (d : Store) (r : Sel)
    (hWI : WellIndexed d) (hNE : NoEmptyPages d) (hS : SortedKeys d)
    (hidx : ∀ l, odGet d r.page = some l → r.idx < 0 ∨ r.idx ≤ (l.length : Int)) :
    undo_insert_ordered (insert_ordered d r none none).1
      (insert_ordered d r none none).2.1 (insert_ordered d r none none).2.2 = some d := by
  have hkk : (none : Option Nat).getD r.page = r.page := rfl
  cases hg : odGet d r.page with
  | none =>
    obtain ⟨A, B, hAB, hA, hB, heq⟩ := @insert_ordered_sorted_splice _ _ _ none _ hkk hg hS
    have hk2 : (insert_ordered d r none none).2.1 = r.page := by
      rw [insert_ordered_absent hkk hg]
    have hi2 : (insert_ordered d r none none).2.2 = 0 := by
      rw [insert_ordered_absent hkk hg]
    rw [heq, hk2, hi2]
    have hgA : odGet A r.page = none := by
      rw [odGet_eq_none_iff]
      intro hmem
      obtain ⟨e, he, hfst⟩ := List.mem_map.1 hmem
      exact absurd (hfst ▸ hA e he) (lt_irrefl r.page)
    have hgB : odGet B r.page = none := by
      rw [odGet_eq_none_iff]
      intro hmem
      obtain ⟨e, he, hfst⟩ := List.mem_map.1 hmem
      exact absurd (hfst ▸ hB e he) (lt_irrefl r.page)
    have hget : odGet (A ++ ((r.page, [r]) :: B)) r.page = some [r] := by
      rw [odGet_append, hgA]
      simp [odGet]
    have hpop : pyPop [r] (0 : Int) = some (r, []) := rfl
    simp only [undo_insert_ordered, hget, hpop]
    have hAne : ∀ a ∈ A, a.1 ≠ r.page := fun a ha => Nat.ne_of_lt (hA a ha)
    rw [List.isEmpty_nil, if_pos rfl, odDel_append_middle B [r] hAne]
    have hgAB : odGet (A ++ B) r.page = none := by
      rw [odGet_append, hgA, hgB]
    rw [updatePageIndexes_absent hgAB, hAB]
  | some l =>
    have hl_ne : l ≠ [] := hNE (r.page, l) (odGet_mem hg)
    have hpi : pageIndexed r.page 0 l = true := wellIndexed_odGet hWI hg
    have hre : reindexFrom r.page 0 l = l := (pageIndexed_iff _ _ _).1 hpi
    by_cases hi : r.idx < 0
    · rw [@insert_ordered_present_append _ _ _ none _ _ hkk hg hi]
      have hD1 : updatePageIndexes (odSet d r.page (l ++ [r])) r.page
          = odSet d r.page (reindexFrom r.page 0 (l ++ [r])) :=
        updatePageIndexes_odSet d r.page (l ++ [r])
      have hsplit : reindexFrom r.page 0 (l ++ [r])
          = reindexFrom r.page 0 l ++ [{ r with page := r.page, idx := (l.length : Int) }] := by
        rw [reindexFrom_append]
        simp [reindexFrom]
      have hgetD1 : odGet (odSet d r.page (reindexFrom r.page 0 (l ++ [r]))) r.page
          = some (reindexFrom r.page 0 l ++ [{ r with page := r.page, idx := (l.length : Int) }]) := by
        rw [odGet_odSet_self, hsplit]
      have hpop : pyPop (reindexFrom r.page 0 l ++ [{ r with page := r.page, idx := (l.length : Int) }])
          ((l.length : Int))
          = some ({ r with page := r.page, idx := (l.length : Int) }, reindexFrom r.page 0 l ++ []) := by
        have h1 := pyPop_at (reindexFrom r.page 0 l) []
          ({ r with page := r.page, idx := (l.length : Int) })
        rw [length_reindexFrom] at h1
        exact h1
      simp only [hD1, undo_insert_ordered, hgetD1, hpop]
      have hempty : (reindexFrom r.page 0 l ++ []).isEmpty = false := by
        simp only [List.append_nil, hre]
        exact List.isEmpty_eq_false.2 hl_ne
      rw [hempty]
      simp only [Bool.false_eq_true, if_false, List.append_nil, hre]
      rw [odSet_odSet, odSet_self hg, updatePageIndexes_eq_self hg hpi]
    · have hbound : r.idx ≤ (l.length : Int) := by
        rcases hidx l hg with h1 | h1
        · exact absurd h1 hi
        · exact h1
      rw [@insert_ordered_present_at _ _ _ none _ _ hkk hg hi]
      simp only [Option.getD_none]
      have hn_le : r.idx.toNat ≤ l.length := by omega
      have hcast : ((r.idx.toNat : Nat) : Int) = r.idx := by omega
      have htake_len : (l.take r.idx.toNat).length = r.idx.toNat := by
        simp [hn_le]
      have hD1 : updatePageIndexes (odSet d r.page (pyInsert l r.idx.toNat r)) r.page
          = odSet d r.page (reindexFrom r.page 0 (pyInsert l r.idx.toNat r)) :=
        updatePageIndexes_odSet d r.page (pyInsert l r.idx.toNat r)
      have hsplit : reindexFrom r.page 0 (pyInsert l r.idx.toNat r)
          = reindexFrom r.page 0 (l.take r.idx.toNat)
            ++ ({ r with page := r.page, idx := r.idx }
              :: reindexFrom r.page (r.idx.toNat + 1) (l.drop r.idx.toNat)) := by
        unfold pyInsert
        rw [reindexFrom_append, htake_len]
        simp only [reindexFrom, Nat.zero_add, hcast]
      have hgetD1 : odGet (odSet d r.page (reindexFrom r.page 0 (pyInsert l r.idx.toNat r))) r.page
          = some (reindexFrom r.page 0 (l.take r.idx.toNat)
            ++ ({ r with page := r.page, idx := r.idx }
              :: reindexFrom r.page (r.idx.toNat + 1) (l.drop r.idx.toNat))) := by
        rw [odGet_odSet_self, hsplit]
      have hpop : pyPop (reindexFrom r.page 0 (l.take r.idx.toNat)
            ++ ({ r with page := r.page, idx := r.idx }
              :: reindexFrom r.page (r.idx.toNat + 1) (l.drop r.idx.toNat))) r.idx
          = some ({ r with page := r.page, idx := r.idx },
              reindexFrom r.page 0 (l.take r.idx.toNat)
                ++ reindexFrom r.page (r.idx.toNat + 1) (l.drop r.idx.toNat)) := by
        have h1 := pyPop_at (reindexFrom r.page 0 (l.take r.idx.toNat))
          (reindexFrom r.page (r.idx.toNat + 1) (l.drop r.idx.toNat))
          ({ r with page := r.page, idx := r.idx })
        rw [length_reindexFrom, htake_len, hcast] at h1
        exact h1
      simp only [hD1, undo_insert_ordered, hgetD1, hpop]
      have hlen2 : (reindexFrom r.page 0 (l.take r.idx.toNat)
          ++ reindexFrom r.page (r.idx.toNat + 1) (l.drop r.idx.toNat)).length = l.length := by
        simp only [List.length_append, length_reindexFrom, List.length_take, List.length_drop]
        omega
      have hempty : (reindexFrom r.page 0 (l.take r.idx.toNat)
          ++ reindexFrom r.page (r.idx.toNat + 1) (l.drop r.idx.toNat)).isEmpty = false := by
        rw [List.isEmpty_eq_false]
        intro hcon
        have hcl := congrArg List.length hcon
        rw [hlen2] at hcl
        exact hl_ne (List.length_eq_zero.1 (by simpa using hcl))
      rw [hempty]
      simp only [Bool.false_eq_true, if_false]
      rw [odSet_odSet]
      have hreagain : reindexFrom r.page 0 (reindexFrom r.page 0 (l.take r.idx.toNat)
          ++ reindexFrom r.page (r.idx.toNat + 1) (l.drop r.idx.toNat)) = l := by
        rw [reindexFrom_append, reindexFrom_reindexFrom, length_reindexFrom, htake_len]
        rw [Nat.zero_add, reindexFrom_reindexFrom]
        have h2 : reindexFrom r.page 0 (l.take r.idx.toNat)
            ++ reindexFrom r.page r.idx.toNat (l.drop r.idx.toNat)
            = reindexFrom r.page 0 (l.take r.idx.toNat ++ l.drop r.idx.toNat) := by
          rw [reindexFrom_append, htake_len, Nat.zero_add]
        rw [h2, List.take_append_drop, hre]
      rw [updatePageIndexes_odSet, hreagain, odSet_self hg]

/-- C4 witness: the amended round-trip at a concrete store and record. -/
theorem C4_undo_insert_restores_store_witness :
    undo_insert_ordered
      (insert_ordered [(1, [mkSel "a" 1 0])] (mkSel "b" 1 1) none none).1
      (insert_ordered [(1, [mkSel "a" 1 0])] (mkSel "b" 1 1) none none).2.1
      (insert_ordered [(1, [mkSel "a" 1 0])] (mkSel "b" 1 1) none none).2.2
      = some [(1, [mkSel "a" 1 0])] :=
  C4_undo_insert_restores_store [(1, [mkSel "a" 1 0])] (mkSel "b" 1 1)
    (by decide) (by decide) (by decide)
    (by
      intro l hl
      have hl' : l = [mkSel "a" 1 0] := by
        have h0 : odGet [(1, [mkSel "a" 1 0])] (mkSel "b" 1 1).page = some [mkSel "a" 1 0] := rfl
        rw [h0] at hl
        injection hl with h
        exact h.symm
      subst hl'
      right
      decide)

/-- C4 counterexample: `Insert` of a record with declared index `5` into a
page of length 1 records index `5`; the undo's `pop(5)` raises `IndexError`,
which is swallowed, so the store keeps the inserted record instead of being
restored. -/
theorem C4_undo_insert_not_inverse :
    (insert_ordered [(1, [mkSel "a" 1 0])] (mkSel "b" 1 5) none none).2.2 = 5 ∧
    undo_insert_ordered
      (insert_ordered [(1, [mkSel "a" 1 0])] (mkSel "b" 1 5) none none).1
      (insert_ordered [(1, [mkSel "a" 1 0])] (mkSel "b" 1 5) none none).2.1
      (insert_ordered [(1, [mkSel "a" 1 0])] (mkSel "b" 1 5) none none).2.2
      = some (insert_ordered [(1, [mkSel "a" 1 0])] (mkSel "b" 1 5) none none).1 ∧
    (insert_ordered [(1, [mkSel "a" 1 0])] (mkSel "b" 1 5) none none).1
      ≠ [(1, [mkSel "a" 1 0])] := by
  refine ⟨rfl, rfl, ?_⟩
  decide

/-- C1: the contiguity invariant fails on the code.  Inserting a record with
declared index 3 into an absent page leaves it at position 0 with `idx = 3`
(the new-key branch of `insert_ordered` skips re-derivation, contradicting
its own docstring), and a `RemoveBatch` whose last removal is found leaves
the page unreindexed (the early `return` skips `_update_page_indexes`). -/
theorem C1_contiguity_violations :
    (insert_ordered [] (mkSel "a" 1 3) none none).1 = [(1, [mkSel "a" 1 3])] ∧
    pageIndexed 1 0 [mkSel "a" 1 3] = false ∧
    remove_selections [(1, [mkSel "a" 1 0, mkSel "b" 1 1])] [mkSel "a" 1 0]
      = [(1, [mkSel "b" 1 1])] ∧
    pageIndexed 1 0 [mkSel "b" 1 1] = false := by
  refine ⟨rfl, rfl, rfl, rfl⟩

/-- C10: inserting a record whose page key is absent into a store with
strictly ascending keys splices the new page entry into its sorted position,
so the keys are strictly ascending again. -/
theorem C10_insert_new_key_sorted (d : Store) (v : Sel) (idx : Option Int)
    (hs : SortedKeys d) (habs : odGet d v.page = none) :
    ∃ A B : Store, d = A ++ B ∧
      (insert_ordered d v none idx).1 = A ++ ((v.page, [v]) :: B) ∧
      SortedKeys (insert_ordered d v none idx).1 := by
  obtain ⟨A, B, hAB, hA, hB, heq⟩ :=
    @insert_ordered_sorted_splice _ _ none idx _ rfl habs hs
  refine ⟨A, B, hAB, heq, ?_⟩
  rw [heq]
  subst hAB
  have hs' : List.Pairwise (· < ·) (odKeys A ++ odKeys B) := by
    have h0 : List.Pairwise (· < ·) (odKeys (A ++ B)) := hs
    simpa [odKeys] using h0
  rw [List.pairwise_append] at hs'
  obtain ⟨pwA, pwB, cross⟩ := hs'
  show List.Pairwise (· < ·) (odKeys (A ++ ((v.page, [v]) :: B)))
  have hgoal : List.Pairwise (· < ·) (odKeys A ++ (v.page :: odKeys B)) := by
    rw [List.pairwise_append]
    refine ⟨pwA, ?_, ?_⟩
    · rw [List.pairwise_cons]
      refine ⟨?_, pwB⟩
      intro b hb
      obtain ⟨e, he, hfst⟩ := List.mem_map.1 hb
      exact hfst ▸ hB e he
    · intro a ha b hb
      obtain ⟨ea, hea, hfa⟩ := List.mem_map.1 ha
      rcases List.mem_cons.1 hb with h1 | h1
      · subst h1
        exact hfa ▸ hA ea hea
      · obtain ⟨eb, heb, hfb⟩ := List.mem_map.1 h1
        exact lt_trans (hfa ▸ hA ea hea) (hfb ▸ hB eb heb)
  simpa [odKeys] using hgoal

/-- C10 witness: splicing page 2 between pages 1 and 3. -/
theorem C10_insert_new_key_sorted_witness :
    ∃ A B : Store, [(1, [mkSel "a" 1 0]), (3, [mkSel "c" 3 0])] = A ++ B ∧
      (insert_ordered [(1, [mkSel "a" 1 0]), (3, [mkSel "c" 3 0])] (mkSel "b" 2 0)
        none none).1 = A ++ (((mkSel "b" 2 0).page, [mkSel "b" 2 0]) :: B) ∧
      SortedKeys (insert_ordered [(1, [mkSel "a" 1 0]), (3, [mkSel "c" 3 0])]
        (mkSel "b" 2 0) none none).1 :=
  C10_insert_new_key_sorted [(1, [mkSel "a" 1 0]), (3, [mkSel "c" 3 0])]
    (mkSel "b" 2 0) none (by decide) (by rfl)

/-- C9: `InsertBatch([X, Y], append)` into a store whose page 3 is absent
places X at index 0 and Y at index 1 of page 3 regardless of the declared
`idx` fields, recording keys `[3, 3]` and indexes `[0, 1]`; the undo removes
Y first (leaving page 3 = `[X]`) and then X, leaving page 3's key absent. -/
theorem C9_insert_batch_append_empty_page (S : Store) (X Y : Sel)
    (hNK : NodupKeys S) (h3 : odGet S 3 = none) (hX : X.page = 3) (hY : Y.page = 3) :
    (insertAllRedo S [X, Y] true).2.1 = [3, 3] ∧
    (insertAllRedo S [X, Y] true).2.2 = [0, 1] ∧
    odGet (insertAllRedo S [X, Y] true).1 3
      = some [{ X with page := 3, idx := 0 }, { Y with page := 3, idx := 1 }] ∧
    ∃ D2, undo_insert_ordered (insertAllRedo S [X, Y] true).1 3 1 = some D2 ∧
      odGet D2 3 = some [{ X with page := 3, idx := 0 }] ∧
      ∃ F, undo_insert_ordered D2 3 0 = some F ∧
        odGet F 3 = none ∧
        insertAllUndo (insertAllRedo S [X, Y] true).1
          (insertAllRedo S [X, Y] true).2.1 (insertAllRedo S [X, Y] true).2.2 = F := by
  have hkkX : (none : Option Nat).getD X.page = 3 := by simp [hX]
  have hkkY : (none : Option Nat).getD Y.page = 3 := by simp [hY]
  set X0 : Sel := { X with page := 3, idx := 0 } with hX0
  set Y1 : Sel := { Y with page := 3, idx := 1 } with hY1
  -- first insertion: new-key branch
  obtain ⟨hget1, hne1, hNK1, hperm1⟩ :=
    @insert_ordered_absent_get _ _ none (some (-1)) _ hkkX h3 hNK
  have hr1 : (insert_ordered S X none (some (-1))).2.1 = 3 := by
    rw [insert_ordered_absent hkkX h3]
  have hr1i : (insert_ordered S X none (some (-1))).2.2 = 0 := by
    rw [insert_ordered_absent hkkX h3]
  set M1 : Store := (insert_ordered S X none (some (-1))).1 with hM1
  -- second insertion: append branch
  have hins2 : insert_ordered M1 Y none (some (-1))
      = (updatePageIndexes (odSet M1 3 ([X] ++ [Y])) 3, 3, (([X] : List Sel).length : Int)) :=
    @insert_ordered_present_append _ _ _ (some (-1)) _ _ hkkY hget1 (by norm_num)
  have hupd2 : updatePageIndexes (odSet M1 3 ([X] ++ [Y])) 3 = odSet M1 3 [X0, Y1] := by
    rw [updatePageIndexes_odSet]
    have hreix : reindexFrom 3 0 ([X] ++ [Y]) = [X0, Y1] := by
      simp [reindexFrom, hX0, hY1]
    rw [hreix]
  have hfold : insertAllRedo S [X, Y] true = (odSet M1 3 [X0, Y1], [3, 3], [0, 1]) := by
    unfold insertAllRedo
    simp only [List.foldl_cons, List.foldl_nil, if_pos]
    rw [← hM1]
    rw [hins2, hr1, hr1i]
    rw [hupd2]
    simp
  rw [hfold]
  have hgetD : odGet (odSet M1 3 [X0, Y1]) 3 = some [X0, Y1] := odGet_odSet_self M1 3 _
  refine ⟨rfl, rfl, hgetD, ?_⟩
  -- first undo: removes Y
  have hpop1 : pyPop [X0, Y1] (1 : Int) = some (Y1, [X0]) := rfl
  have hreix1 : reindexFrom 3 0 [X0] = [X0] := by
    simp [reindexFrom, hX0]
  have hu1 : undo_insert_ordered (odSet M1 3 [X0, Y1]) 3 1 = some (odSet M1 3 [X0]) := by
    simp only [undo_insert_ordered, hgetD, hpop1]
    have hemp : ([X0] : List Sel).isEmpty = false := rfl
    rw [hemp]
    simp only [Bool.false_eq_true, if_false, odSet_odSet]
    rw [updatePageIndexes_odSet, hreix1]
  have hgetD2 : odGet (odSet M1 3 [X0]) 3 = some [X0] := odGet_odSet_self M1 3 _
  refine ⟨odSet M1 3 [X0], hu1, hgetD2, ?_⟩
  -- second undo: removes X, page 3 emptied and deleted
  have hNKD2 : NodupKeys (odSet M1 3 [X0]) := by
    have hk : odKeys (odSet M1 3 [X0]) = odKeys M1 := odKeys_odSet_present _ (by simp [hget1])
    unfold NodupKeys
    rw [hk]
    exact hNK1
  have hpop2 : pyPop [X0] (0 : Int) = some (X0, []) := rfl
  have hu2 : undo_insert_ordered (odSet M1 3 [X0]) 3 0
      = some (odDel (odSet M1 3 [X0]) 3) := by
    simp only [undo_insert_ordered, hgetD2, hpop2]
    rw [List.isEmpty_nil, if_pos rfl]
    rw [updatePageIndexes_absent (odGet_odDel_self hNKD2)]
  have hgetF : odGet (odDel (odSet M1 3 [X0]) 3) 3 = none := odGet_odDel_self hNKD2
  refine ⟨odDel (odSet M1 3 [X0]) 3, hu2, hgetF, ?_⟩
  unfold insertAllUndo insertAllUndoGo
  simp only [List.zip_cons_cons, List.zip_nil_right, List.reverse_cons, List.reverse_nil,
    List.nil_append, List.cons_append]
  rw [hu1]
  simp only [insertAllUndoGo]
  rw [hu2]

/-- C9 witness: the batch-append scenario at a concrete store. -/
theorem C9_insert_batch_append_empty_page_witness :
    (insertAllRedo [(5, [mkSel "q" 5 0])] [mkSel "X" 3 7, mkSel "Y" 3 9] true).2.1 = [3, 3] ∧
    (insertAllRedo [(5, [mkSel "q" 5 0])] [mkSel "X" 3 7, mkSel "Y" 3 9] true).2.2 = [0, 1] ∧
    odGet (insertAllRedo [(5, [mkSel "q" 5 0])] [mkSel "X" 3 7, mkSel "Y" 3 9] true).1 3
      = some [{ mkSel "X" 3 7 with page := 3, idx := 0 },
          { mkSel "Y" 3 9 with page := 3, idx := 1 }] ∧
    ∃ D2, undo_insert_ordered
        (insertAllRedo [(5, [mkSel "q" 5 0])] [mkSel "X" 3 7, mkSel "Y" 3 9] true).1 3 1
        = some D2 ∧
      odGet D2 3 = some [{ mkSel "X" 3 7 with page := 3, idx := 0 }] ∧
      ∃ F, undo_insert_ordered D2 3 0 = some F ∧
        odGet F 3 = none ∧
        insertAllUndo
          (insertAllRedo [(5, [mkSel "q" 5 0])] [mkSel "X" 3 7, mkSel "Y" 3 9] true).1
          (insertAllRedo [(5, [mkSel "q" 5 0])] [mkSel "X" 3 7, mkSel "Y" 3 9] true).2.1
          (insertAllRedo [(5, [mkSel "q" 5 0])] [mkSel "X" 3 7, mkSel "Y" 3 9] true).2.2 = F :=
  C9_insert_batch_append_empty_page [(5, [mkSel "q" 5 0])] (mkSel "X" 3 7) (mkSel "Y" 3 9)
    (by decide) rfl rfl rfl

/-! ## `NoEmptyPages` preservation for every non-move operation -/

theorem listSetParent_length (l : List Sel) (i : Nat) (pid : Option String) :
    (listSetParent l i pid).length = l.length := by
  induction l generalizing i with
  | nil => simp [listSetParent]
  | cons s rest ih =>
    cases i with
    | zero => simp [listSetParent]
    | succ n => simp [listSetParent, ih]

theorem noEmptyPages_setParent_step {d : Store} {p : Nat} {i : Nat} {pid : Option String}
    (hd : NoEmptyPages d) :
    NoEmptyPages (match odGet d p with
      | none => d
      | some l => odSet d p (listSetParent l i pid)) := by
  cases hg : odGet d p with
  | none => exact hd
  | some l =>
    have hl : l ≠ [] := hd (p, l) (odGet_mem hg)
    refine noEmptyPages_odSet ?_ hd
    intro hcon
    have hlen := congrArg List.length hcon
    rw [listSetParent_length] at hlen
    exact hl (List.length_eq_zero.1 (by simpa using hlen))

theorem noEmptyPages_reparentPhase {d : Store} (pid : Option String) (cs : List String)
    (hd : NoEmptyPages d) : NoEmptyPages (reparentPhase d pid cs).1 := by
  induction cs generalizing d with
  | nil => exact hd
  | cons c rest ih =>
    simp only [reparentPhase]
    cases hf : find_selection_by_id d c with
    | none => exact ih hd
    | some t =>
      obtain ⟨p, i, s⟩ := t
      exact ih (noEmptyPages_setParent_step hd)

theorem noEmptyPages_removeById {d : Store} (sid : String) (hd : NoEmptyPages d) :
    NoEmptyPages (removeById d sid).1 := by
  induction d with
  | nil => intro e he; simp [removeById] at he
  | cons a rest ih =>
    obtain ⟨p, items⟩ := a
    have hrest : NoEmptyPages rest := fun e he => hd e (by simp [he])
    simp only [removeById]
    cases hf : findWithIdx items sid with
    | some t =>
      obtain ⟨j, s⟩ := t
      dsimp only
      by_cases hemp : (items.eraseIdx j).isEmpty
      · rw [if_pos hemp]
        exact ih hrest
      · rw [if_neg hemp]
        intro e he
        rcases List.mem_cons.1 he with h1 | h1
        · subst h1
          exact List.isEmpty_eq_false.1 (by simpa using hemp)
        · exact hrest e h1
    | none =>
      dsimp only
      intro e he
      rcases List.mem_cons.1 he with h1 | h1
      · subst h1
        exact hd (p, items) (by simp)
      · exact ih hrest e h1

theorem noEmptyPages_remove_and_relink {d : Store} (sel : Sel) (hd : NoEmptyPages d) :
    NoEmptyPages (remove_and_relink_children d sel).1 := by
  unfold remove_and_relink_children
  have h1 := noEmptyPages_reparentPhase sel.parent sel.children hd
  have h2 := noEmptyPages_removeById sel.id_ h1
  cases hep : (removeById (reparentPhase d sel.parent sel.children).1 sel.id_).2 with
  | none => simpa [hep] using h2
  | some p => simpa [hep] using noEmptyPages_updatePageIndexes p h2

theorem removePageItems_empty_removed {items : List Sel} {toRm : List String}
    (hne : items ≠ []) (hres : (removePageItems items toRm).1 = []) :
    (removePageItems items toRm).2.2.1 = true := by
  cases items with
  | nil => exact absurd rfl hne
  | cons s rest =>
    simp only [removePageItems] at hres ⊢
    by_cases hmem : s.id_ ∈ toRm
    · rw [if_pos hmem] at hres ⊢
      by_cases he : (toRm.erase s.id_).isEmpty
      · rw [if_pos he] at hres ⊢
      · rw [if_neg he] at hres ⊢
    · rw [if_neg hmem] at hres
      exact absurd hres (by simp)

theorem noEmptyPages_removeSelectionsGo (entries : List (Nat × List Sel)) :
    ∀ (d : Store) (toRm : List String), (∀ e ∈ entries, e.2 ≠ []) → NoEmptyPages d →
      NoEmptyPages (removeSelectionsGo entries d toRm) := by
  induction entries with
  | nil => intro d toRm _ hd; exact hd
  | cons a rest ih =>
    intro d toRm hent hd
    obtain ⟨p, items⟩ := a
    have hitems : items ≠ [] := hent (p, items) (by simp)
    have hrest : ∀ e ∈ rest, e.2 ≠ [] := fun e he => hent e (by simp [he])
    simp only [removeSelectionsGo]
    set r := removePageItems items toRm with hr
    have hd1 : NoEmptyPages (if r.1.isEmpty ∧ r.2.2.1 then odDel d p else odSet d p r.1) := by
      by_cases hc : r.1.isEmpty ∧ r.2.2.1
      · rw [if_pos hc]
        exact noEmptyPages_odDel p hd
      · rw [if_neg hc]
        refine noEmptyPages_odSet ?_ hd
        intro hcon
        apply hc
        refine ⟨by simp [hcon], ?_⟩
        exact removePageItems_empty_removed hitems (hr ▸ hcon)
    by_cases hearly : r.2.2.2
    · rw [if_pos hearly]
      exact hd1
    · rw [if_neg hearly]
      by_cases hrem : r.2.2.1
      · rw [if_pos hrem]
        exact ih _ _ hrest (noEmptyPages_updatePageIndexes p hd1)
      · rw [if_neg hrem]
        exact ih _ _ hrest hd1

theorem noEmptyPages_remove_selections {d : Store} (sels : List Sel)
    (hd : NoEmptyPages d) : NoEmptyPages (remove_selections d sels) :=
  noEmptyPages_removeSelectionsGo d d _ hd hd

theorem noEmptyPages_undo_insert {d d' : Store} {k : Nat} {i : Int}
    (h : undo_insert_ordered d k i = some d') (hd : NoEmptyPages d) :
    NoEmptyPages d' := by
  unfold undo_insert_ordered at h
  cases hg : odGet d k with
  | none =>
    simp only [hg] at h
    exact Option.noConfusion h
  | some l =>
    simp only [hg] at h
    cases hp : pyPop l i with
    | none =>
      simp only [hp] at h
      cases h
      exact hd
    | some t =>
      obtain ⟨x, l'⟩ := t
      simp only [hp, Option.some.injEq] at h
      subst h
      by_cases he : l'.isEmpty
      · rw [if_pos he]
        exact noEmptyPages_updatePageIndexes k (noEmptyPages_odDel k hd)
      · rw [if_neg he]
        refine noEmptyPages_updatePageIndexes k (noEmptyPages_odSet ?_ hd)
        exact List.isEmpty_eq_false.1 (by simpa using he)

theorem noEmptyPages_insertAllUndoGo (kis : List (Nat × Int)) :
    ∀ d : Store, NoEmptyPages d → NoEmptyPages (insertAllUndoGo d kis) := by
  induction kis with
  | nil => intro d hd; exact hd
  | cons ki rest ih =>
    intro d hd
    simp only [insertAllUndoGo]
    cases hu : undo_insert_ordered d ki.1 ki.2 with
    | none => exact hd
    | some d1 => exact ih d1 (noEmptyPages_undo_insert hu hd)

theorem noEmptyPages_setParentById {d : Store} (cid : String) (pid : Option String)
    (hd : NoEmptyPages d) : NoEmptyPages (setParentById d cid pid) := by
  unfold setParentById
  cases hf : find_selection_by_id d cid with
  | none => exact hd
  | some t =>
    obtain ⟨p, i, s⟩ := t
    exact noEmptyPages_setParent_step hd

theorem noEmptyPages_edit_selection {d : Store} (k : Nat) (i : Int) (r : Sel)
    (hd : NoEmptyPages d) : NoEmptyPages (edit_selection d k i r) := by
  unfold edit_selection
  cases hg : odGet d k with
  | none => exact hd
  | some l =>
    dsimp only
    cases hp : pyPop l i with
    | none => exact hd
    | some t =>
      obtain ⟨x, l'⟩ := t
      dsimp only
      have hd1 : NoEmptyPages (if l'.isEmpty then odDel d k else odSet d k l') := by
        by_cases he : l'.isEmpty
        · rw [if_pos he]
          exact noEmptyPages_odDel k hd
        · rw [if_neg he]
          exact noEmptyPages_odSet (List.isEmpty_eq_false.1 (by simpa using he)) hd
      have hd2 := noEmptyPages_insert_ordered r none none hd1
      have hd3 := noEmptyPages_updatePageIndexes r.page hd2
      by_cases hk : r.page ≠ k
      · rw [if_pos hk]
        exact noEmptyPages_updatePageIndexes k hd3
      · rw [if_neg hk]
        exact hd3

theorem noEmptyPages_insertAllRedo (values : List Sel) (append : Bool) :
    ∀ acc : Store × List Nat × List Int, NoEmptyPages acc.1 →
      NoEmptyPages (values.foldl
        (fun acc v =>
          let i : Int := if append then -1 else v.idx
          let r := insert_ordered acc.1 v none (some i)
          (r.1, acc.2.1 ++ [r.2.1], acc.2.2 ++ [r.2.2])) acc).1 := by
  induction values with
  | nil => intro acc h; exact h
  | cons v rest ih =>
    intro acc h
    simp only [List.foldl_cons]
    exact ih _ (noEmptyPages_insert_ordered v none _ h)

theorem noEmptyPages_removeAllUndo {d : Store} (values : List Sel)
    (hd : NoEmptyPages d) : NoEmptyPages (removeAllUndo d values) := by
  unfold removeAllUndo
  induction values generalizing d with
  | nil => exact hd
  | cons v rest ih =>
    simp only [List.foldl_cons]
    exact ih (noEmptyPages_insert_ordered v none none hd)

theorem noEmptyPages_setParentFold (cids : List String) (pid : Option String) :
    ∀ d : Store, NoEmptyPages d →
      NoEmptyPages (cids.foldl (fun acc cid => setParentById acc cid pid) d) := by
  induction cids with
  | nil => intro d hd; exact hd
  | cons c rest ih =>
    intro d hd
    simp only [List.foldl_cons]
    exact ih _ (noEmptyPages_setParentById c pid hd)

theorem noEmptyPages_removeCmdUndo {d : Store} (value : Sel) (childIds : List String)
    (hd : NoEmptyPages d) : NoEmptyPages (removeCmdUndo d value childIds) := by
  unfold removeCmdUndo
  exact noEmptyPages_setParentFold childIds _ _
    (noEmptyPages_insert_ordered value none none hd)

/-- C6 (amended): every engine operation and undo other than `MoveBatch`
preserves the page-key-presence invariant I4 (a page key exists only with a
non-empty record list).  `MoveBatch` itself violates it (see the
counterexample). -/
theorem C6_non_move_ops_preserve_page_key_presence :
    (∀ d r, NoEmptyPages d → NoEmptyPages (applyOp (.insert r) d)) ∧
    (∀ d rs ap, NoEmptyPages d → NoEmptyPages (applyOp (.insertAll rs ap) d)) ∧
    (∀ d r, NoEmptyPages d → NoEmptyPages (applyOp (.remove r) d)) ∧
    (∀ d rs, NoEmptyPages d → NoEmptyPages (applyOp (.removeAll rs) d)) ∧
    (∀ d k i r, NoEmptyPages d → NoEmptyPages (applyOp (.edit k i r) d)) ∧
    (∀ d k i, NoEmptyPages d → NoEmptyPages (applyOp (.undoInsert k i) d)) ∧
    (∀ d ks ids2, NoEmptyPages d → NoEmptyPages (applyOp (.undoInsertAll ks ids2) d)) ∧
    (∀ d r cids, NoEmptyPages d → NoEmptyPages (applyOp (.undoRemove r cids) d)) ∧
    (∀ d rs, NoEmptyPages d → NoEmptyPages (applyOp (.undoRemoveAll rs) d)) ∧
    (∀ d k i r, NoEmptyPages d → NoEmptyPages (applyOp (.undoEdit k i r) d)) := by
  refine ⟨?_, ?_, ?_, ?_, ?_, ?_, ?_, ?_, ?_, ?_⟩
  · intro d r hd
    exact noEmptyPages_insert_ordered r none none hd
  · intro d rs ap hd
    exact noEmptyPages_insertAllRedo rs ap (d, [], []) hd
  · intro d r hd
    exact noEmptyPages_remove_and_relink r hd
  · intro d rs hd
    exact noEmptyPages_remove_selections rs hd
  · intro d k i r hd
    show NoEmptyPages ((editCmdRedo d k i r).toOption.getD d)
    unfold editCmdRedo
    cases hg : odGet d k with
    | none => exact hd
    | some l =>
      dsimp only
      cases hp : pyGetInt l i with
      | none => exact hd
      | some x =>
        dsimp only [Except.toOption, Option.getD]
        exact noEmptyPages_edit_selection k i r hd
  · intro d k i hd
    show NoEmptyPages ((undo_insert_ordered d k i).getD d)
    cases hu : undo_insert_ordered d k i with
    | none => exact hd
    | some d1 => exact noEmptyPages_undo_insert hu hd
  · intro d ks ids2 hd
    exact noEmptyPages_insertAllUndoGo _ d hd
  · intro d r cids hd
    exact noEmptyPages_removeCmdUndo r cids hd
  · intro d rs hd
    exact noEmptyPages_removeAllUndo rs hd
  · intro d k i r hd
    exact noEmptyPages_edit_selection k i r hd

/-- C6 witness: one amended conjunct at a concrete store. -/
theorem C6_non_move_ops_preserve_page_key_presence_witness :
    NoEmptyPages (applyOp (.insert (mkSel "b" 1 0)) [(1, [mkSel "a" 1 0])]) :=
  C6_non_move_ops_preserve_page_key_presence.1 [(1, [mkSel "a" 1 0])] (mkSel "b" 1 0)
    (by decide)

/-- C6 counterexample: a `MoveBatch` that moves the only record of page 1 to
page 2 leaves key 1 present with an empty list — `_apply_edit` never deletes
emptied page keys, so I4 does not survive `MoveBatch`. -/
theorem C6_moveAll_leaves_empty_page_key :
    odGet (applyOp (.moveAll [⟨1, 0, setPos (mkSel "x" 1 0) 2 0⟩]) [(1, [mkSel "x" 1 0])]) 1
      = some [] ∧
    ¬ NoEmptyPages (applyOp (.moveAll [⟨1, 0, setPos (mkSel "x" 1 0) 2 0⟩])
        [(1, [mkSel "x" 1 0])]) := by
  refine ⟨rfl, by decide⟩

/-! ## Failure semantics pieces (C7) -/

theorem map_id_listSetParent (l : List Sel) (i : Nat) (pid : Option String) :
    (listSetParent l i pid).map Sel.id_ = l.map Sel.id_ := by
  induction l generalizing i with
  | nil => simp [listSetParent]
  | cons s rest ih =>
    cases i with
    | zero => simp [listSetParent]
    | succ n => simp [listSetParent, ih]

theorem storeIds_reparentPhase (cs : List String) (pid : Option String) :
    ∀ d : Store, storeIds (reparentPhase d pid cs).1 = storeIds d := by
  induction cs with
  | nil => intro d; rfl
  | cons c rest ih =>
    intro d
    simp only [reparentPhase]
    cases hf : find_selection_by_id d c with
    | none => exact ih d
    | some t =>
      obtain ⟨p, i, s⟩ := t
      dsimp only
      cases hg : odGet d p with
      | none => exact ih d
      | some l =>
        rw [ih _]
        exact storeIds_odSet_map hg (map_id_listSetParent l i pid)

theorem findWithIdx_eq_none {l : List Sel} {sid : String} (h : sid ∉ l.map Sel.id_) :
    findWithIdx l sid = none := by
  induction l with
  | nil => rfl
  | cons s rest ih =>
    simp only [List.map_cons, List.mem_cons] at h
    push_neg at h
    simp only [findWithIdx, if_neg (fun hh : s.id_ = sid => h.1 hh.symm)]
    rw [ih h.2]
    rfl

theorem removeById_not_found {d : Store} {sid : String} (h : sid ∉ storeIds d) :
    removeById d sid = (d, none) := by
  induction d with
  | nil => rfl
  | cons a rest ih =>
    obtain ⟨p, items⟩ := a
    simp only [storeIds, List.mem_append] at h
    push_neg at h
    simp only [removeById, findWithIdx_eq_none h.1]
    rw [ih h.2]

/-- C7 (amended): Edit propagates invalid-position failures before any
mutation (`editCmdRedo` raises and `edit_selection` itself leaves the store
untouched on its failure paths), but Remove does not propagate a missing
record: the removal phase is skipped silently while the children have
already been reparented (partial mutation). -/
theorem C7_single_item_failure_semantics :
    (∀ (d : Store) (k : Nat) (i : Int) (r : Sel),
      (odGet d k = none ∨ ∃ l, odGet d k = some l ∧ pyGetInt l i = none) →
        editCmdRedo d k i r = Except.error () ∧ edit_selection d k i r = d) ∧
    (∀ (d : Store) (sel : Sel), sel.id_ ∉ storeIds d →
      (remove_and_relink_children d sel).1 = (reparentPhase d sel.parent sel.children).1 ∧
      storeIds (remove_and_relink_children d sel).1 = storeIds d) := by
  constructor
  · intro d k i r h
    rcases h with h | ⟨l, hl, hp⟩
    · constructor
      · unfold editCmdRedo
        rw [h]
      · unfold edit_selection
        rw [h]
    · have hpop : pyPop l i = none := by
        unfold pyGetInt at hp
        exact Option.map_eq_none.1 hp
      constructor
      · unfold editCmdRedo
        rw [hl]
        dsimp only
        rw [hp]
      · unfold edit_selection
        rw [hl]
        dsimp only
        rw [hpop]
  · intro d sel h
    have hids : storeIds (reparentPhase d sel.parent sel.children).1 = storeIds d :=
      storeIds_reparentPhase sel.children sel.parent d
    have hnot : sel.id_ ∉ storeIds (reparentPhase d sel.parent sel.children).1 := by
      rw [hids]
      exact h
    have hrm := removeById_not_found hnot
    constructor
    · unfold remove_and_relink_children
      dsimp only
      rw [hrm]
    · unfold remove_and_relink_children
      dsimp only
      rw [hrm]
      exact hids

/-- C7 witness: the amended semantics at concrete inputs. -/
theorem C7_single_item_failure_semantics_witness :
    (editCmdRedo [(1, [mkSel "a" 1 0])] 2 0 (mkSel "b" 1 0) = Except.error () ∧
      edit_selection [(1, [mkSel "a" 1 0])] 2 0 (mkSel "b" 1 0) = [(1, [mkSel "a" 1 0])]) ∧
    ((remove_and_relink_children [(1, [mkSel "B" 1 0 (some "A")])]
        (mkSel "A" 3 0 none ["B"])).1
      = (reparentPhase [(1, [mkSel "B" 1 0 (some "A")])] none ["B"]).1 ∧
      storeIds (remove_and_relink_children [(1, [mkSel "B" 1 0 (some "A")])]
        (mkSel "A" 3 0 none ["B"])).1 = storeIds [(1, [mkSel "B" 1 0 (some "A")])]) :=
  ⟨C7_single_item_failure_semantics.1 [(1, [mkSel "a" 1 0])] 2 0 (mkSel "b" 1 0)
      (Or.inl rfl),
    C7_single_item_failure_semantics.2 [(1, [mkSel "B" 1 0 (some "A")])]
      (mkSel "A" 3 0 none ["B"]) (by decide)⟩

/-- C7 counterexample: removing a record absent from the store raises
nothing yet mutates the store — the child keeps none as parent although the
removal itself silently failed, so the failing Remove is neither propagated
nor side-effect free. -/
theorem C7_remove_missing_record_mutates :
    (mkSel "A" 3 0 none ["B"]).id_ ∉ storeIds [(1, [mkSel "B" 1 0 (some "A")])] ∧
    (remove_and_relink_children [(1, [mkSel "B" 1 0 (some "A")])]
        (mkSel "A" 3 0 none ["B"])).1
      ≠ [(1, [mkSel "B" 1 0 (some "A")])] := by
  refine ⟨by decide, by decide⟩

/-- C8 (amended): the parent-pointer climb of `get_selection_path_str` has no
cycle guard at all: on a store whose parent chain cycles (A.parent = B,
B.parent = A) the `while` loop alternates between the two ids forever and
never exits — there is no bound by the record count and no `CycleDetected`
failure anywhere in the code. -/
theorem C8_path_walk_cycles_forever (n : Nat) :
    pathIter (build_id_lookup
        [(1, [mkSel "A" 1 0 (some "B"), mkSel "B" 1 1 (some "A")])]) "A" n
      = some (if n % 2 = 0 then "A" else "B") := by
  induction n with
  | zero => rfl
  | succ m ih =>
    rw [pathIter, ih]
    by_cases h : m % 2 = 0
    · have h2 : (m + 1) % 2 ≠ 0 := by omega
      rw [if_pos h, if_neg h2]
      rfl
    · have h2 : (m + 1) % 2 = 0 := by omega
      rw [if_neg h, if_pos h2]
      rfl

/-- C8 counterexample: the cyclic two-record store has record count 2, yet
the climb is still running after 3 and after 10 iterations — the traversal
is not bounded by the total record count and produces no failure. -/
theorem C8_walk_exceeds_record_count :
    (storeIds [(1, [mkSel "A" 1 0 (some "B"), mkSel "B" 1 1 (some "A")])]).length = 2 ∧
    pathIter (build_id_lookup
        [(1, [mkSel "A" 1 0 (some "B"), mkSel "B" 1 1 (some "A")])]) "A" 3 ≠ none ∧
    pathIter (build_id_lookup
        [(1, [mkSel "A" 1 0 (some "B"), mkSel "B" 1 1 (some "A")])]) "A" 10 ≠ none := by
  refine ⟨rfl, by decide, by decide⟩

/-! ## Store extensionality and small helpers (C2) -/

theorem pageIndexed_cons {p i : Nat} {s : Sel} {rest : List Sel}
    (h : pageIndexed p i (s :: rest) = true) :
    s.page = p ∧ s.idx = (i : Int) ∧ pageIndexed p (i + 1) rest = true := by
  simp only [pageIndexed, Bool.and_eq_true, beq_iff_eq] at h
  exact ⟨h.1.1, h.1.2, h.2⟩

theorem pageIndexed_cons_intro {p i : Nat} {s : Sel} {rest : List Sel}
    (h1 : s.page = p) (h2 : s.idx = (i : Int)) (h3 : pageIndexed p (i + 1) rest = true) :
    pageIndexed p i (s :: rest) = true := by
  simp only [pageIndexed, Bool.and_eq_true, beq_iff_eq]
  exact ⟨⟨h1, h2⟩, h3⟩

theorem pyInsert_zero (l : List α) (x : α) : pyInsert l 0 x = x :: l := rfl

theorem store_ext {d d' : Store} (hNK : NodupKeys d) (hk : odKeys d = odKeys d')
    (hget : ∀ q, odGet d q = odGet d' q) : d = d' := by
  induction d generalizing d' with
  | nil =>
    cases d' with
    | nil => rfl
    | cons b rest' => simp [odKeys] at hk
  | cons a rest ih =>
    obtain ⟨k, v⟩ := a
    cases d' with
    | nil => simp [odKeys] at hk
    | cons b rest' =>
      obtain ⟨k', v'⟩ := b
      simp only [odKeys, List.map_cons, List.cons.injEq] at hk
      obtain ⟨hkk, hktail⟩ := hk
      subst hkk
      have hv : v = v' := by
        have h0 := hget k
        simp [odGet] at h0
        exact h0
      subst hv
      obtain ⟨hnm, hrest⟩ := nodupKeys_cons hNK
      have hkt : odKeys rest = odKeys rest' := hktail
      have hnm' : k ∉ odKeys rest' := by
        rw [← hkt]
        exact hnm
      have hrec : rest = rest' := by
        refine ih hrest hkt ?_
        intro q
        by_cases hq : q = k
        · subst hq
          rw [odGet_eq_none_iff.2 hnm, odGet_eq_none_iff.2 hnm']
        · have h0 := hget q
          simp only [odGet, if_neg (fun hh : k = q => hq hh.symm)] at h0
          exact h0
      rw [hrec]

/-- Removal step of `_apply_edit` when the targeted record sits at the head
of its source page. -/
theorem applyEditRemovalStep_hit {d : Store} {pages : List Nat} {p : Nat} {i : Int}
    {ns w : Sel} {rest : List Sel}
    (hg : odGet d p = some (w :: rest)) (hid : w.id_ = ns.id_) :
    applyEditRemovalStep (d, pages) ⟨p, i, ns⟩ = (odSet d p rest, pages.insert p) := by
  unfold applyEditRemovalStep
  dsimp only
  rw [show odGetD d p = w :: rest by simp [odGetD, hg]]
  rw [show findWithIdx (w :: rest) ns.id_ = some (0, w) by simp [findWithIdx, hid]]
  rfl

/-- Insertion step of `_apply_edit` for a replacement declaring index 0 on a
page already present. -/
theorem applyEditInsertStep_head {d : Store} {pages : List Nat} {p : Nat} {i : Int}
    {ns : Sel} {arr : List Sel} (hg : odGet d ns.page = some arr) (hidx : ns.idx = 0) :
    applyEditInsertStep (d, pages) ⟨p, i, ns⟩
      = (odSet d ns.page (ns :: arr), pages.insert ns.page) := by
  unfold applyEditInsertStep
  dsimp only
  rw [if_pos (show odMem d ns.page = true by simp [odMem, hg])]
  rw [show odGetD d ns.page = arr by simp [odGetD, hg]]
  rw [if_neg (show ¬ (ns.idx < 0 ∨ (arr.length : Int) < ns.idx) by rw [hidx]; omega)]
  rw [hidx]
  rw [show ((0 : Int)).toNat = 0 from rfl, pyInsert_zero]

theorem setPos_id (s : Sel) (p : Nat) (i : Int) : (setPos s p i).id_ = s.id_ := rfl

theorem perm_ms {α} {a b c e : List α} (h : (a ++ b).Perm (c ++ e)) :
    (a : Multiset α) + (b : Multiset α) = (c : Multiset α) + (e : Multiset α) := by
  have h2 := Multiset.coe_eq_coe.2 h
  simpa only [← Multiset.coe_add] using h2

/-- C2: a `MoveAllCmd` swapping the head records of pages 1 and 2 puts each
record at its declared target with no duplication or loss, and replaying the
precomputed inverse restores the original store exactly. -/
theorem C2_move_batch_swap (S : Store) (X Y : Sel) (r1 r2 : List Sel)
    (hNK : NodupKeys S)
    (h1 : odGet S 1 = some (X :: r1)) (h2 : odGet S 2 = some (Y :: r2))
    (hpi1 : pageIndexed 1 0 (X :: r1) = true) (hpi2 : pageIndexed 2 0 (Y :: r2) = true) :
    odGet (apply_edit S [⟨1, 0, setPos X 2 0⟩, ⟨2, 0, setPos Y 1 0⟩]) 2
      = some (setPos X 2 0 :: r2) ∧
    odGet (apply_edit S [⟨1, 0, setPos X 2 0⟩, ⟨2, 0, setPos Y 1 0⟩]) 1
      = some (setPos Y 1 0 :: r1) ∧
    (storeIds (apply_edit S [⟨1, 0, setPos X 2 0⟩, ⟨2, 0, setPos Y 1 0⟩])).Perm
      (storeIds S) ∧
    compute_inverse S [⟨1, 0, setPos X 2 0⟩, ⟨2, 0, setPos Y 1 0⟩]
      = [⟨2, 0, X⟩, ⟨1, 0, Y⟩] ∧
    apply_edit (apply_edit S [⟨1, 0, setPos X 2 0⟩, ⟨2, 0, setPos Y 1 0⟩])
      [⟨2, 0, X⟩, ⟨1, 0, Y⟩] = S := by
  obtain ⟨hXp, hXi, hpt1⟩ := pageIndexed_cons hpi1
  obtain ⟨hYp, hYi, hpt2⟩ := pageIndexed_cons hpi2
  set A1 : Store := odSet S 1 r1 with hA1def
  set A2 : Store := odSet A1 2 r2 with hA2def
  set A3 : Store := odSet A2 2 (setPos X 2 0 :: r2) with hA3def
  set DX : Store := odSet A3 1 (setPos Y 1 0 :: r1) with hDXdef
  have hA1g2 : odGet A1 2 = some (Y :: r2) := by
    rw [hA1def, odGet_odSet_ne _ _ (by omega : (2 : Nat) ≠ 1)]
    exact h2
  have hA2g2 : odGet A2 2 = some r2 := by
    rw [hA2def]
    exact odGet_odSet_self A1 2 r2
  have hA2g1 : odGet A2 1 = some r1 := by
    rw [hA2def, odGet_odSet_ne _ _ (by omega : (1 : Nat) ≠ 2), hA1def]
    exact odGet_odSet_self S 1 r1
  have hA3g1 : odGet A3 1 = some r1 := by
    rw [hA3def, odGet_odSet_ne _ _ (by omega : (1 : Nat) ≠ 2)]
    exact hA2g1
  have hA3g2 : odGet A3 2 = some (setPos X 2 0 :: r2) := by
    rw [hA3def]
    exact odGet_odSet_self A2 2 _
  have hDXg1 : odGet DX 1 = some (setPos Y 1 0 :: r1) := by
    rw [hDXdef]
    exact odGet_odSet_self A3 1 _
  have hDXg2 : odGet DX 2 = some (setPos X 2 0 :: r2) := by
    rw [hDXdef, odGet_odSet_ne _ _ (by omega : (2 : Nat) ≠ 1)]
    exact hA3g2
  -- forward application
  have hs1 : applyEditRemovalStep (S, ([] : List Nat)) ⟨1, 0, setPos X 2 0⟩
      = (A1, [1]) := by
    rw [applyEditRemovalStep_hit h1 (setPos_id X 2 0).symm]
    rfl
  have hs2 : applyEditRemovalStep (A1, [1]) ⟨2, 0, setPos Y 1 0⟩ = (A2, [2, 1]) := by
    rw [applyEditRemovalStep_hit hA1g2 (setPos_id Y 1 0).symm]
    rfl
  have hs3 : applyEditInsertStep (A2, [2, 1]) ⟨1, 0, setPos X 2 0⟩ = (A3, [2, 1]) := by
    have hg : odGet A2 (setPos X 2 0).page = some r2 := hA2g2
    rw [applyEditInsertStep_head hg rfl]
    rfl
  have hs4 : applyEditInsertStep (A3, [2, 1]) ⟨2, 0, setPos Y 1 0⟩ = (DX, [2, 1]) := by
    have hg : odGet A3 (setPos Y 1 0).page = some r1 := hA3g1
    rw [applyEditInsertStep_head hg rfl]
    rfl
  have hpiX : pageIndexed 2 0 (setPos X 2 0 :: r2) = true :=
    pageIndexed_cons_intro rfl rfl hpt2
  have hpiY : pageIndexed 1 0 (setPos Y 1 0 :: r1) = true :=
    pageIndexed_cons_intro rfl rfl hpt1
  have hupd2 : updatePageIndexes DX 2 = DX := updatePageIndexes_eq_self hDXg2 hpiX
  have hupd1 : updatePageIndexes DX 1 = DX := updatePageIndexes_eq_self hDXg1 hpiY
  have hfwd : apply_edit S [⟨1, 0, setPos X 2 0⟩, ⟨2, 0, setPos Y 1 0⟩] = DX := by
    unfold apply_edit
    simp only [List.foldl_cons, List.foldl_nil]
    rw [hs1, hs2, hs3, hs4]
    dsimp only
    simp only [List.foldl_cons, List.foldl_nil]
    rw [hupd2, hupd1]
  refine ⟨by rw [hfwd]; exact hDXg2, by rw [hfwd]; exact hDXg1, ?_, ?_, ?_⟩
  · -- no duplication or loss
    rw [hfwd, ← Multiset.coe_eq_coe]
    have m1 := perm_ms (storeIds_odSet_get r1 h1)
    have m2 := perm_ms (storeIds_odSet_get r2 hA1g2)
    have m3 := perm_ms (storeIds_odSet_get (setPos X 2 0 :: r2) hA2g2)
    have m4 := perm_ms (storeIds_odSet_get (setPos Y 1 0 :: r1) hA3g1)
    rw [← hA1def] at m1
    rw [← hA2def] at m2
    rw [← hA3def] at m3
    rw [← hDXdef] at m4
    simp only [List.map_cons, setPos_id, ← Multiset.cons_coe, ← Multiset.singleton_add] at m1 m2 m3 m4
    have c1 : (storeIds A1 : Multiset String) + {X.id_} = (storeIds S : Multiset String) := by
      rw [← add_assoc] at m1
      exact add_right_cancel m1
    have c2 : (storeIds A2 : Multiset String) + {Y.id_} = (storeIds A1 : Multiset String) := by
      rw [← add_assoc] at m2
      exact add_right_cancel m2
    have c3 : (storeIds A3 : Multiset String)
        = (storeIds A2 : Multiset String) + {X.id_} := by
      rw [← add_assoc] at m3
      exact add_right_cancel m3
    have c4 : (storeIds DX : Multiset String)
        = (storeIds A3 : Multiset String) + {Y.id_} := by
      rw [← add_assoc] at m4
      exact add_right_cancel m4
    calc (storeIds DX : Multiset String)
        = (storeIds A3 : Multiset String) + {Y.id_} := c4
      _ = ((storeIds A2 : Multiset String) + {X.id_}) + {Y.id_} := by rw [c3]
      _ = ((storeIds A2 : Multiset String) + {Y.id_}) + {X.id_} := add_right_comm _ _ _
      _ = (storeIds A1 : Multiset String) + {X.id_} := by rw [c2]
      _ = (storeIds S : Multiset String) := c1
  · -- the precomputed inverse
    unfold compute_inverse
    simp only [List.filterMap_cons, List.filterMap_nil]
    rw [h1, h2]
    dsimp only
    rw [dif_pos (show (0 : Int) ≤ 0 ∧ (0 : Int) < ((X :: r1).length : Int) by
      constructor
      · omega
      · simp)]
    rw [dif_pos (show (0 : Int) ≤ 0 ∧ (0 : Int) < ((Y :: r2).length : Int) by
      constructor
      · omega
      · simp)]
    dsimp only
    have hXrec : ({ X with page := 1, idx := (0 : Int) } : Sel) = X :=
      (sel_update_eq_self X 1 0).2 ⟨hXp, hXi⟩
    have hYrec : ({ Y with page := 2, idx := (0 : Int) } : Sel) = Y :=
      (sel_update_eq_self Y 2 0).2 ⟨hYp, hYi⟩
    show [({ editing_page := (setPos X 2 0).page, editing_idx := (setPos X 2 0).idx,
             new_selection := { X with page := 1, idx := (0 : Int) } } : EditingData),
          { editing_page := (setPos Y 1 0).page, editing_idx := (setPos Y 1 0).idx,
            new_selection := { Y with page := 2, idx := (0 : Int) } }] =
      [{ editing_page := 2, editing_idx := 0, new_selection := X },
       { editing_page := 1, editing_idx := 0, new_selection := Y }]
    rw [hXrec, hYrec]
    rfl
  · -- undo restores the original store
    rw [hfwd]
    set B1 : Store := odSet DX 2 r2 with hB1def
    set B2 : Store := odSet B1 1 r1 with hB2def
    set B3 : Store := odSet B2 1 (X :: r1) with hB3def
    set B4 : Store := odSet B3 2 (Y :: r2) with hB4def
    have hB1g1 : odGet B1 1 = some (setPos Y 1 0 :: r1) := by
      rw [hB1def, odGet_odSet_ne _ _ (by omega : (1 : Nat) ≠ 2)]
      exact hDXg1
    have hB1g2 : odGet B1 2 = some r2 := by
      rw [hB1def]
      exact odGet_odSet_self DX 2 r2
    have hB2g1 : odGet B2 1 = some r1 := by
      rw [hB2def]
      exact odGet_odSet_self B1 1 r1
    have hB2g2 : odGet B2 2 = some r2 := by
      rw [hB2def, odGet_odSet_ne _ _ (by omega : (2 : Nat) ≠ 1)]
      exact hB1g2
    have hB3g1 : odGet B3 1 = some (X :: r1) := by
      rw [hB3def]
      exact odGet_odSet_self B2 1 _
    have hB3g2 : odGet B3 2 = some r2 := by
      rw [hB3def, odGet_odSet_ne _ _ (by omega : (2 : Nat) ≠ 1)]
      exact hB2g2
    have hB4g1 : odGet B4 1 = some (X :: r1) := by
      rw [hB4def, odGet_odSet_ne _ _ (by omega : (1 : Nat) ≠ 2)]
      exact hB3g1
    have hB4g2 : odGet B4 2 = some (Y :: r2) := by
      rw [hB4def]
      exact odGet_odSet_self B3 2 _
    have hu1 : applyEditRemovalStep (DX, ([] : List Nat)) ⟨2, 0, X⟩ = (B1, [2]) := by
      rw [applyEditRemovalStep_hit hDXg2 (setPos_id X 2 0)]
      rfl
    have hu2 : applyEditRemovalStep (B1, [2]) ⟨1, 0, Y⟩ = (B2, [1, 2]) := by
      rw [applyEditRemovalStep_hit hB1g1 (setPos_id Y 1 0)]
      rfl
    have hu3 : applyEditInsertStep (B2, [1, 2]) ⟨2, 0, X⟩ = (B3, [1, 2]) := by
      have hg : odGet B2 X.page = some r1 := by rw [hXp]; exact hB2g1
      rw [applyEditInsertStep_head hg hXi]
      rw [hXp]
      rfl
    have hu4 : applyEditInsertStep (B3, [1, 2]) ⟨1, 0, Y⟩ = (B4, [1, 2]) := by
      have hg : odGet B3 Y.page = some r2 := by rw [hYp]; exact hB3g2
      rw [applyEditInsertStep_head hg hYi]
      rw [hYp]
      rfl
    have hupd1' : updatePageIndexes B4 1 = B4 := updatePageIndexes_eq_self hB4g1 hpi1
    have hupd2' : updatePageIndexes B4 2 = B4 := updatePageIndexes_eq_self hB4g2 hpi2
    have hundo : apply_edit DX [⟨2, 0, X⟩, ⟨1, 0, Y⟩] = B4 := by
      unfold apply_edit
      simp only [List.foldl_cons, List.foldl_nil]
      rw [hu1, hu2, hu3, hu4]
      dsimp only
      simp only [List.foldl_cons, List.foldl_nil]
      rw [hupd1', hupd2']
    rw [hundo]
    -- keys of every intermediate store agree with the original
    have hk1 : odKeys A1 = odKeys S := by
      rw [hA1def]
      exact odKeys_odSet_present _ (by simp [h1])
    have hk2 : odKeys A2 = odKeys A1 := by
      rw [hA2def]
      exact odKeys_odSet_present _ (by simp [hA1g2])
    have hk3 : odKeys A3 = odKeys A2 := by
      rw [hA3def]
      exact odKeys_odSet_present _ (by simp [hA2g2])
    have hk4 : odKeys DX = odKeys A3 := by
      rw [hDXdef]
      exact odKeys_odSet_present _ (by simp [hA3g1])
    have hk5 : odKeys B1 = odKeys DX := by
      rw [hB1def]
      exact odKeys_odSet_present _ (by simp [hDXg2])
    have hk6 : odKeys B2 = odKeys B1 := by
      rw [hB2def]
      exact odKeys_odSet_present _ (by simp [hB1g1])
    have hk7 : odKeys B3 = odKeys B2 := by
      rw [hB3def]
      exact odKeys_odSet_present _ (by simp [hB2g1])
    have hk8 : odKeys B4 = odKeys B3 := by
      rw [hB4def]
      exact odKeys_odSet_present _ (by simp [hB3g2])
    have hkeys : odKeys B4 = odKeys S := by
      rw [hk8, hk7, hk6, hk5, hk4, hk3, hk2, hk1]
    have hNKB4 : NodupKeys B4 := by
      show (odKeys B4).Nodup
      rw [hkeys]
      exact hNK
    refine store_ext hNKB4 hkeys ?_
    intro q
    by_cases hq1 : q = 1
    · subst hq1
      rw [hB4g1, h1]
    · by_cases hq2 : q = 2
      · subst hq2
        rw [hB4g2, h2]
      · rw [hB4def, odGet_odSet_ne _ _ hq2, hB3def, odGet_odSet_ne _ _ hq1,
          hB2def, odGet_odSet_ne _ _ hq1, hB1def, odGet_odSet_ne _ _ hq2,
          hDXdef, odGet_odSet_ne _ _ hq1, hA3def, odGet_odSet_ne _ _ hq2,
          hA2def, odGet_odSet_ne _ _ hq2, hA1def, odGet_odSet_ne _ _ hq1]

theorem C2_move_batch_swap_witness :
    NodupKeys [(1, [mkSel "x" 1 0]), (2, [mkSel "y" 2 0])] ∧
    (odGet (apply_edit [(1, [mkSel "x" 1 0]), (2, [mkSel "y" 2 0])]
        [⟨1, 0, setPos (mkSel "x" 1 0) 2 0⟩, ⟨2, 0, setPos (mkSel "y" 2 0) 1 0⟩]) 2
      = some (setPos (mkSel "x" 1 0) 2 0 :: []) ∧
     odGet (apply_edit [(1, [mkSel "x" 1 0]), (2, [mkSel "y" 2 0])]
        [⟨1, 0, setPos (mkSel "x" 1 0) 2 0⟩, ⟨2, 0, setPos (mkSel "y" 2 0) 1 0⟩]) 1
      = some (setPos (mkSel "y" 2 0) 1 0 :: []) ∧
     (storeIds (apply_edit [(1, [mkSel "x" 1 0]), (2, [mkSel "y" 2 0])]
        [⟨1, 0, setPos (mkSel "x" 1 0) 2 0⟩, ⟨2, 0, setPos (mkSel "y" 2 0) 1 0⟩])).Perm
      (storeIds [(1, [mkSel "x" 1 0]), (2, [mkSel "y" 2 0])]) ∧
     compute_inverse [(1, [mkSel "x" 1 0]), (2, [mkSel "y" 2 0])]
        [⟨1, 0, setPos (mkSel "x" 1 0) 2 0⟩, ⟨2, 0, setPos (mkSel "y" 2 0) 1 0⟩]
      = [⟨2, 0, mkSel "x" 1 0⟩, ⟨1, 0, mkSel "y" 2 0⟩] ∧
     apply_edit (apply_edit [(1, [mkSel "x" 1 0]), (2, [mkSel "y" 2 0])]
        [⟨1, 0, setPos (mkSel "x" 1 0) 2 0⟩, ⟨2, 0, setPos (mkSel "y" 2 0) 1 0⟩])
        [⟨2, 0, mkSel "x" 1 0⟩, ⟨1, 0, mkSel "y" 2 0⟩]
      = [(1, [mkSel "x" 1 0]), (2, [mkSel "y" 2 0])]) :=
  ⟨by decide,
   C2_move_batch_swap [(1, [mkSel "x" 1 0]), (2, [mkSel "y" 2 0])]
     (mkSel "x" 1 0) (mkSel "y" 2 0) [] [] (by decide) rfl rfl rfl rfl⟩

/-! # Uniqueness (I1) machinery -/

theorem storeIds_odSet_decomp {d : Store} {k : Nat} {l : List Sel}
    (h : odGet d k = some l) (v : List Sel) :
    ∃ P S : List String, storeIds d = P ++ (l.map Sel.id_ ++ S) ∧
      storeIds (odSet d k v) = P ++ (v.map Sel.id_ ++ S) := by
  induction d with
  | nil => simp [odGet] at h
  | cons e rest ih =>
    obtain ⟨k', v'⟩ := e
    by_cases hk : k' = k
    · subst hk
      have h' : v' = l := by simpa [odGet] using h
      subst h'
      exact ⟨[], storeIds rest, by simp [storeIds], by simp [odSet, storeIds]⟩
    · simp only [odGet, if_neg hk] at h
      obtain ⟨P, S, h1, h2⟩ := ih h
      exact ⟨v'.map Sel.id_ ++ P, S, by simp [storeIds, h1],
        by simp [odSet, hk, storeIds, h2]⟩

theorem storeIds_odSet_sublist {d : Store} {k : Nat} {l v : List Sel}
    (h : odGet d k = some l) (hv : List.Sublist (v.map Sel.id_) (l.map Sel.id_)) :
    List.Sublist (storeIds (odSet d k v)) (storeIds d) := by
  obtain ⟨P, S, h1, h2⟩ := storeIds_odSet_decomp h v
  rw [h1, h2]
  exact (hv.append (List.Sublist.refl S)).append_left P

theorem storeIds_odDel_sublist (d : Store) (k : Nat) :
    List.Sublist (storeIds (odDel d k)) (storeIds d) := by
  induction d with
  | nil => exact List.Sublist.refl _
  | cons e rest ih =>
    obtain ⟨k', v'⟩ := e
    by_cases hk : k' = k
    · simp only [odDel, if_pos hk, storeIds]
      exact List.sublist_append_right _ _
    · simp only [odDel, if_neg hk, storeIds]
      exact ih.append_left _

theorem removePageItems_ids_sublist (items : List Sel) :
    ∀ toRm : List String,
      List.Sublist ((removePageItems items toRm).1.map Sel.id_) (items.map Sel.id_) := by
  induction items with
  | nil => intro toRm; simp [removePageItems]
  | cons s rest ih =>
    intro toRm
    simp only [removePageItems]
    by_cases hmem : s.id_ ∈ toRm
    · rw [if_pos hmem]
      by_cases he : (toRm.erase s.id_).isEmpty
      · rw [if_pos he]
        exact List.Sublist.cons _ (List.Sublist.refl _)
      · rw [if_neg he]
        exact List.Sublist.cons _ (ih _)
    · rw [if_neg hmem]
      simp only [List.map_cons]
      exact List.Sublist.cons₂ _ (ih _)

theorem nodupIds_updatePageIndexes {d : Store} (p : Nat) (hd : NodupIds d) :
    NodupIds (updatePageIndexes d p) := by
  unfold NodupIds
  rw [storeIds_updatePageIndexes]
  exact hd

theorem odGet_of_mem {d : Store} (hNK : NodupKeys d) {e : Nat × List Sel}
    (he : e ∈ d) : odGet d e.1 = some e.2 := by
  induction d with
  | nil => cases he
  | cons a rest ih =>
    obtain ⟨hk, hrest⟩ := nodupKeys_cons hNK
    rcases List.mem_cons.1 he with h | h
    · subst h
      obtain ⟨k', v'⟩ := e
      simp [odGet]
    · have hne : a.1 ≠ e.1 := by
        intro hc
        exact hk (hc ▸ (List.mem_map.2 ⟨e, h, rfl⟩))
      obtain ⟨k', v'⟩ := a
      simp only [odGet, if_neg hne]
      exact ih hrest h

theorem nodupIds_removeSelectionsGo (entries : List (Nat × List Sel)) :
    ∀ (d : Store) (toRm : List String),
      NodupIds d →
      (∀ e ∈ entries, odGet d e.1 = some e.2) →
      (entries.map Prod.fst).Nodup →
      NodupIds (removeSelectionsGo entries d toRm) := by
  induction entries with
  | nil => intro d toRm hd _ _; exact hd
  | cons a rest ih =>
    intro d toRm hd hent hkeys
    obtain ⟨p, items⟩ := a
    have hg : odGet d p = some items := hent (p, items) (by simp)
    have hknd : p ∉ rest.map Prod.fst ∧ (rest.map Prod.fst).Nodup := by
      simpa using hkeys
    simp only [removeSelectionsGo]
    set r := removePageItems items toRm with hr
    set D1 : Store := if r.1.isEmpty ∧ r.2.2.1 then odDel d p else odSet d p r.1
      with hD1
    have hd1 : NodupIds D1 := by
      rw [hD1]
      by_cases hc : r.1.isEmpty ∧ r.2.2.1
      · rw [if_pos hc]
        exact List.Nodup.sublist (storeIds_odDel_sublist d p) hd
      · rw [if_neg hc]
        exact List.Nodup.sublist
          (storeIds_odSet_sublist hg (removePageItems_ids_sublist items toRm)) hd
    have hD1get : ∀ q, q ≠ p → odGet D1 q = odGet d q := by
      intro q hq
      rw [hD1]
      by_cases hc : r.1.isEmpty ∧ r.2.2.1
      · rw [if_pos hc]
        exact odGet_odDel_ne d hq
      · rw [if_neg hc]
        exact odGet_odSet_ne d _ hq
    by_cases hearly : r.2.2.2
    · rw [if_pos hearly]
      exact hd1
    · rw [if_neg hearly]
      set D2 : Store := if r.2.2.1 then updatePageIndexes D1 p else D1 with hD2
      have hd2 : NodupIds D2 := by
        rw [hD2]
        by_cases hrem : r.2.2.1
        · rw [if_pos hrem]
          exact nodupIds_updatePageIndexes p hd1
        · rw [if_neg hrem]
          exact hd1
      have hent2 : ∀ e ∈ rest, odGet D2 e.1 = some e.2 := by
        intro e he
        have hne : e.1 ≠ p := fun hc => hknd.1 (hc ▸ List.mem_map.2 ⟨e, he, rfl⟩)
        have h1 : odGet D2 e.1 = odGet D1 e.1 := by
          rw [hD2]
          by_cases hrem : r.2.2.1
          · rw [if_pos hrem]
            exact odGet_updatePageIndexes_ne D1 hne
          · rw [if_neg hrem]
        rw [h1, hD1get e.1 hne]
        exact hent e (List.mem_cons_of_mem _ he)
      exact ih _ _ hd2 hent2 hknd.2

theorem nodupIds_remove_selections {d : Store} (sels : List Sel)
    (hNK : NodupKeys d) (hd : NodupIds d) : NodupIds (remove_selections d sels) :=
  nodupIds_removeSelectionsGo d d _ hd (fun e he => odGet_of_mem hNK he) hNK

theorem storeIds_removeById_sublist (sid : String) :
    ∀ d : Store, List.Sublist (storeIds (removeById d sid).1) (storeIds d) := by
  intro d
  induction d with
  | nil => exact List.Sublist.refl _
  | cons a rest ih =>
    obtain ⟨p, items⟩ := a
    simp only [removeById]
    cases hf : findWithIdx items sid with
    | none =>
      dsimp only
      simp only [storeIds]
      exact ih.append_left _
    | some ji =>
      obtain ⟨j, x⟩ := ji
      dsimp only
      by_cases he : (items.eraseIdx j).isEmpty
      · rw [if_pos he]
        simp only [storeIds]
        exact ih.trans (List.sublist_append_right _ _)
      · rw [if_neg he]
        simp only [storeIds]
        exact ((List.eraseIdx_sublist items j).map Sel.id_).append (List.Sublist.refl _)

theorem nodupIds_remove_and_relink {d : Store} (sel : Sel) (hd : NodupIds d) :
    NodupIds (remove_and_relink_children d sel).1 := by
  unfold remove_and_relink_children
  dsimp only
  have h1 : storeIds (reparentPhase d sel.parent sel.children).1 = storeIds d :=
    storeIds_reparentPhase _ _ d
  have hnd1 : NodupIds (reparentPhase d sel.parent sel.children).1 := by
    show (storeIds _).Nodup
    rw [h1]
    exact hd
  have hnd2 : NodupIds (removeById (reparentPhase d sel.parent sel.children).1 sel.id_).1 :=
    List.Nodup.sublist (storeIds_removeById_sublist sel.id_ _) hnd1
  cases hp : (removeById (reparentPhase d sel.parent sel.children).1 sel.id_).2 with
  | none => exact hnd2
  | some p => exact nodupIds_updatePageIndexes p hnd2

theorem nodupIds_insertAllFold (append : Bool) (values : List Sel) :
    ∀ acc : Store × List Nat × List Int,
      NodupIds acc.1 → (values.map Sel.id_).Nodup →
      (∀ r ∈ values, r.id_ ∉ storeIds acc.1) →
      NodupIds (values.foldl
        (fun acc v =>
          let i : Int := if append then -1 else v.idx
          let r := insert_ordered acc.1 v none (some i)
          (r.1, acc.2.1 ++ [r.2.1], acc.2.2 ++ [r.2.2])) acc).1 := by
  induction values with
  | nil => intro acc h _ _; exact h
  | cons v rest ih =>
    intro acc h hnd hfresh
    simp only [List.map_cons, List.nodup_cons] at hnd
    simp only [List.foldl_cons]
    refine ih _ (nodupIds_insert_ordered none _ h (hfresh v (by simp))) hnd.2 ?_
    intro u hu hmem
    have hperm := storeIds_insert_ordered acc.1 v none
      (some (if append then -1 else v.idx))
    rcases List.mem_cons.1 (hperm.subset hmem) with hc | hc
    · exact hnd.1 (by rw [← hc]; exact List.mem_map.2 ⟨u, hu, rfl⟩)
    · exact hfresh u (by simp [hu]) hc

theorem nodupIds_insertAllRedo {d : Store} (values : List Sel) (append : Bool)
    (hd : NodupIds d) (hnd : (values.map Sel.id_).Nodup)
    (hfresh : ∀ r ∈ values, r.id_ ∉ storeIds d) :
    NodupIds (insertAllRedo d values append).1 := by
  unfold insertAllRedo
  exact nodupIds_insertAllFold append values (d, [], []) hd hnd hfresh

theorem pyPop_decomp {l : List α} {i : Int} {x : α} {l' : List α}
    (h : pyPop l i = some (x, l')) :
    ∃ l1 l2, l = l1 ++ x :: l2 ∧ l' = l1 ++ l2 := by
  simp only [pyPop] at h
  by_cases h0 : 0 ≤ (if i < 0 then i + (l.length : Int) else i)
  · rw [if_pos h0] at h
    cases hg : l.get? (if i < 0 then i + (l.length : Int) else i).toNat with
    | none =>
      rw [hg] at h
      exact Option.noConfusion h
    | some y =>
      rw [hg] at h
      simp only [Option.some.injEq, Prod.mk.injEq] at h
      obtain ⟨hx, hl'⟩ := h
      subst hx
      obtain ⟨hlt, hget⟩ := List.get?_eq_some.1 hg
      refine ⟨l.take (if i < 0 then i + (l.length : Int) else i).toNat,
        l.drop ((if i < 0 then i + (l.length : Int) else i).toNat + 1), ?_, hl'.symm⟩
      conv_lhs => rw [← List.take_append_drop
        ((if i < 0 then i + (l.length : Int) else i).toNat) l]
      congr 1
      rw [← hget]
      exact (List.get_cons_drop l ⟨_, hlt⟩).symm
  · rw [if_neg h0] at h
    exact Option.noConfusion h

theorem storeIds_pop_perm {d : Store} {k : Nat} {l l1 l2 l' : List Sel} {x : Sel}
    (hg : odGet d k = some l) (hl : l = l1 ++ x :: l2) (hl' : l' = l1 ++ l2) :
    (storeIds (if l'.isEmpty then odDel d k else odSet d k l') ++ [x.id_]).Perm
      (storeIds d) := by
  by_cases he : l'.isEmpty
  · rw [if_pos he]
    have hnil : l1 ++ l2 = [] := by
      rw [← hl']
      simpa using he
    obtain ⟨h1, h2⟩ := List.append_eq_nil.1 hnil
    subst h1; subst h2
    have := storeIds_odDel_get hg
    rw [hl] at this
    simpa using this
  · rw [if_neg he]
    subst hl'
    have h1 := storeIds_odSet_get (l1 ++ l2) hg
    have hm := perm_ms h1
    rw [hl] at hm
    simp only [List.map_append, List.map_cons, ← Multiset.coe_add, ← Multiset.cons_coe,
      ← Multiset.singleton_add, Multiset.coe_singleton] at hm
    rw [← Multiset.coe_eq_coe]
    simp only [← Multiset.coe_add, ← Multiset.cons_coe, ← Multiset.singleton_add,
      Multiset.coe_singleton, List.map_cons, List.map_nil, List.append_nil]
    have hm2 : ((storeIds (odSet d k (l1 ++ l2)) : Multiset String) + {x.id_})
        + ((l1.map Sel.id_ : Multiset String) + (l2.map Sel.id_ : Multiset String))
        = (storeIds d : Multiset String)
        + ((l1.map Sel.id_ : Multiset String) + (l2.map Sel.id_ : Multiset String)) := by
      rw [← hm]
      abel
    exact add_right_cancel hm2

theorem nodupIds_edit_selection {d : Store} (k : Nat) (i : Int) (r : Sel)
    (hd : NodupIds d)
    (hpre : ∀ l x l', odGet d k = some l → pyPop l i = some (x, l') →
      x.id_ = r.id_ ∨ r.id_ ∉ storeIds d) :
    NodupIds (edit_selection d k i r) := by
  unfold edit_selection
  cases hg : odGet d k with
  | none => exact hd
  | some l =>
    dsimp only
    cases hp : pyPop l i with
    | none => exact hd
    | some t =>
      obtain ⟨x, l'⟩ := t
      dsimp only
      obtain ⟨l1, l2, hl, hl'⟩ := pyPop_decomp hp
      have hperm : (storeIds (if l'.isEmpty then odDel d k else odSet d k l')
          ++ [x.id_]).Perm (storeIds d) := storeIds_pop_perm hg hl hl'
      have hall : (storeIds (if l'.isEmpty then odDel d k else odSet d k l')
          ++ [x.id_]).Nodup := hperm.symm.nodup hd
      have hnd1 : NodupIds (if l'.isEmpty then odDel d k else odSet d k l') :=
        (List.nodup_append.1 hall).1
      have hxnot : x.id_ ∉ storeIds (if l'.isEmpty then odDel d k else odSet d k l') :=
        fun hmem => (List.nodup_append.1 hall).2.2 hmem (by simp)
      have hrnot : r.id_ ∉ storeIds (if l'.isEmpty then odDel d k else odSet d k l') := by
        rcases hpre l x l' hg hp with hcase | hcase
        · rw [← hcase]
          exact hxnot
        · intro hmem
          exact hcase (hperm.subset (List.mem_append_left _ hmem))
      have hnd2 : NodupIds (insert_ordered
          (if l'.isEmpty then odDel d k else odSet d k l') r none none).1 :=
        nodupIds_insert_ordered none none hnd1 hrnot
      have hnd3 := nodupIds_updatePageIndexes r.page hnd2
      by_cases hk : r.page ≠ k
      · rw [if_pos hk]
        exact nodupIds_updatePageIndexes k hnd3
      · rw [if_neg hk]
        exact hnd3

theorem findWithIdx_some_decomp {l : List Sel} {sid : String} {j : Nat} {x : Sel}
    (h : findWithIdx l sid = some (j, x)) :
    ∃ l1 l2, l = l1 ++ x :: l2 ∧ l1.length = j ∧ x.id_ = sid ∧
      l.eraseIdx j = l1 ++ l2 := by
  induction l generalizing j with
  | nil => exact Option.noConfusion h
  | cons s rest ih =>
    simp only [findWithIdx] at h
    by_cases hs : s.id_ = sid
    · rw [if_pos hs] at h
      simp only [Option.some.injEq, Prod.mk.injEq] at h
      obtain ⟨hj, hx⟩ := h
      subst hj
      subst hx
      exact ⟨[], rest, rfl, rfl, hs, rfl⟩
    · rw [if_neg hs] at h
      cases hr : findWithIdx rest sid with
      | none =>
        rw [hr] at h
        exact Option.noConfusion h
      | some q =>
        rw [hr] at h
        obtain ⟨j', x'⟩ := q
        simp only [Option.map_some', Option.some.injEq, Prod.mk.injEq] at h
        obtain ⟨hj, hx⟩ := h
        subst hx
        subst hj
        obtain ⟨l1, l2, h1, h2, h3, h4⟩ := ih hr
        refine ⟨s :: l1, l2, by rw [List.cons_append, ← h1], by simp [h2], h3, ?_⟩
        simp only [List.eraseIdx_cons_succ, List.cons_append]
        rw [h4]

theorem findWithIdx_none_not_mem {l : List Sel} {sid : String}
    (h : findWithIdx l sid = none) : sid ∉ l.map Sel.id_ := by
  induction l with
  | nil => simp
  | cons s rest ih =>
    simp only [findWithIdx] at h
    by_cases hs : s.id_ = sid
    · rw [if_pos hs] at h
      exact Option.noConfusion h
    · rw [if_neg hs] at h
      cases hr : findWithIdx rest sid with
      | none =>
        simp only [List.map_cons, List.mem_cons]
        push_neg
        exact ⟨fun hh => hs hh.symm, ih hr⟩
      | some q =>
        rw [hr] at h
        exact Option.noConfusion h

theorem mem_storeIds_of_page {d : Store} {p : Nat} {l : List Sel} {s : String}
    (hg : odGet d p = some l) (hs : s ∈ l.map Sel.id_) : s ∈ storeIds d := by
  induction d with
  | nil => simp [odGet] at hg
  | cons e rest ih =>
    obtain ⟨k', v'⟩ := e
    by_cases hk : k' = p
    · subst hk
      have h' : v' = l := by simpa [odGet] using hg
      subst h'
      simp only [storeIds]
      exact List.mem_append_left _ hs
    · simp only [odGet, if_neg hk] at hg
      simp only [storeIds]
      exact List.mem_append_right _ (ih hg)

theorem storeIds_removalStep_sublist (acc : Store × List Nat) (e : EditingData) :
    List.Sublist (storeIds (applyEditRemovalStep acc e).1) (storeIds acc.1) := by
  unfold applyEditRemovalStep
  dsimp only
  cases hf : findWithIdx (odGetD acc.1 e.editing_page) e.new_selection.id_ with
  | none => exact List.Sublist.refl _
  | some ji =>
    obtain ⟨j, x⟩ := ji
    dsimp only
    cases hg : odGet acc.1 e.editing_page with
    | none =>
      rw [odGetD, hg] at hf
      exact Option.noConfusion hf
    | some arr =>
      have harr : odGetD acc.1 e.editing_page = arr := by simp [odGetD, hg]
      rw [harr]
      exact storeIds_odSet_sublist hg ((List.eraseIdx_sublist arr j).map Sel.id_)

theorem removalStep_clears {acc : Store × List Nat} {e : EditingData}
    (hd : NodupIds acc.1)
    (hin : e.new_selection.id_ ∈ storeIds acc.1 →
      e.new_selection.id_ ∈ (odGetD acc.1 e.editing_page).map Sel.id_) :
    e.new_selection.id_ ∉ storeIds (applyEditRemovalStep acc e).1 := by
  by_cases hmem : e.new_selection.id_ ∈ storeIds acc.1
  · have hpage := hin hmem
    unfold applyEditRemovalStep
    dsimp only
    cases hf : findWithIdx (odGetD acc.1 e.editing_page) e.new_selection.id_ with
    | none => exact absurd hpage (findWithIdx_none_not_mem hf)
    | some ji =>
      obtain ⟨j, x⟩ := ji
      dsimp only
      cases hg : odGet acc.1 e.editing_page with
      | none =>
        rw [odGetD, hg] at hf
        exact Option.noConfusion hf
      | some arr =>
        have harr : odGetD acc.1 e.editing_page = arr := by simp [odGetD, hg]
        rw [harr] at hf ⊢
        obtain ⟨l1, l2, h1, h2, h3, h4⟩ := findWithIdx_some_decomp hf
        obtain ⟨P, S, hdec1, hdec2⟩ := storeIds_odSet_decomp hg (arr.eraseIdx j)
        have hc : (storeIds acc.1).count x.id_ ≤ 1 :=
          List.nodup_iff_count_le_one.1 hd _
        rw [hdec1, h1] at hc
        simp only [List.map_append, List.map_cons, List.count_append,
          List.count_cons_self] at hc
        have hzero : (storeIds (odSet acc.1 e.editing_page (arr.eraseIdx j))).count
            x.id_ = 0 := by
          rw [hdec2, h4]
          simp only [List.map_append, List.count_append]
          omega
        rw [← h3]
        exact List.count_eq_zero.1 hzero
  · intro hcon
    exact hmem ((storeIds_removalStep_sublist acc e).subset hcon)

theorem removalStep_page_mem {acc : Store × List Nat} {e : EditingData} {s : String}
    (q : Nat) (hne : s ≠ e.new_selection.id_)
    (hs : s ∈ (odGetD acc.1 q).map Sel.id_) :
    s ∈ (odGetD (applyEditRemovalStep acc e).1 q).map Sel.id_ := by
  unfold applyEditRemovalStep
  dsimp only
  cases hf : findWithIdx (odGetD acc.1 e.editing_page) e.new_selection.id_ with
  | none => exact hs
  | some ji =>
    obtain ⟨j, x⟩ := ji
    dsimp only
    by_cases hq : q = e.editing_page
    · rw [hq] at hs ⊢
      have hget : odGetD (odSet acc.1 e.editing_page
          ((odGetD acc.1 e.editing_page).eraseIdx j)) e.editing_page
          = (odGetD acc.1 e.editing_page).eraseIdx j := by
        simp [odGetD, odGet_odSet_self]
      rw [hget]
      obtain ⟨l1, l2, h1, h2, h3, h4⟩ := findWithIdx_some_decomp hf
      rw [h4]
      rw [h1] at hs
      simp only [List.map_append, List.map_cons, List.mem_append, List.mem_cons] at hs ⊢
      rcases hs with h | h | h
      · exact Or.inl h
      · exact absurd (h.trans h3) hne
      · exact Or.inr h
    · have hget : odGetD (odSet acc.1 e.editing_page
          ((odGetD acc.1 e.editing_page).eraseIdx j)) q = odGetD acc.1 q := by
        simp [odGetD, odGet_odSet_ne _ _ hq]
      rw [hget]
      exact hs

theorem removalPhase_invariants (es : List EditingData) :
    ∀ acc : Store × List Nat,
      NodupIds acc.1 →
      (∀ e ∈ es, e.new_selection.id_ ∈ storeIds acc.1 →
        e.new_selection.id_ ∈ (odGetD acc.1 e.editing_page).map Sel.id_) →
      (es.map (fun e => e.new_selection.id_)).Nodup →
      NodupIds (es.foldl applyEditRemovalStep acc).1 ∧
      List.Sublist (storeIds (es.foldl applyEditRemovalStep acc).1) (storeIds acc.1) ∧
      (∀ e ∈ es, e.new_selection.id_ ∉ storeIds (es.foldl applyEditRemovalStep acc).1) := by
  induction es with
  | nil =>
    intro acc hd _ _
    exact ⟨hd, List.Sublist.refl _, by simp⟩
  | cons e rest ih =>
    intro acc hd hin hnd
    simp only [List.map_cons, List.nodup_cons] at hnd
    simp only [List.foldl_cons]
    have hstep_sub := storeIds_removalStep_sublist acc e
    have hstep_nd : NodupIds (applyEditRemovalStep acc e).1 :=
      List.Nodup.sublist hstep_sub hd
    have hclear : e.new_selection.id_ ∉ storeIds (applyEditRemovalStep acc e).1 :=
      removalStep_clears hd (hin e (by simp))
    have hin' : ∀ e' ∈ rest, e'.new_selection.id_ ∈
        storeIds (applyEditRemovalStep acc e).1 →
        e'.new_selection.id_ ∈
          (odGetD (applyEditRemovalStep acc e).1 e'.editing_page).map Sel.id_ := by
      intro e' he' hmem
      have hne : e'.new_selection.id_ ≠ e.new_selection.id_ := by
        intro hc
        exact hnd.1 (by rw [← hc]; exact List.mem_map.2 ⟨e', he', rfl⟩)
      exact removalStep_page_mem _ hne
        (hin e' (List.mem_cons_of_mem _ he') (hstep_sub.subset hmem))
    obtain ⟨ih1, ih2, ih3⟩ := ih (applyEditRemovalStep acc e) hstep_nd hin' hnd.2
    refine ⟨ih1, ih2.trans hstep_sub, ?_⟩
    intro e' he'
    rcases List.mem_cons.1 he' with h | h
    · subst h
      exact fun hm => hclear (ih2.subset hm)
    · exact ih3 e' h

theorem storeIds_insertStep_perm (acc : Store × List Nat) (e : EditingData) :
    (storeIds (applyEditInsertStep acc e).1).Perm
      (e.new_selection.id_ :: storeIds acc.1) := by
  unfold applyEditInsertStep
  dsimp only
  by_cases hm : odMem acc.1 e.new_selection.page
  · rw [if_pos hm]
    obtain ⟨arr, hg⟩ : ∃ arr, odGet acc.1 e.new_selection.page = some arr := by
      cases hgg : odGet acc.1 e.new_selection.page with
      | none =>
        rw [odMem, hgg] at hm
        exact absurd hm (by simp)
      | some arr => exact ⟨arr, rfl⟩
    have harr : odGetD acc.1 e.new_selection.page = arr := by simp [odGetD, hg]
    rw [harr]
    have h1 := storeIds_odSet_get
      (pyInsert arr (if e.new_selection.idx < 0 ∨ (arr.length : Int) < e.new_selection.idx
        then arr.length else e.new_selection.idx.toNat) e.new_selection) hg
    have h2 : (storeIds acc.1 ++ (pyInsert arr
        (if e.new_selection.idx < 0 ∨ (arr.length : Int) < e.new_selection.idx
          then arr.length else e.new_selection.idx.toNat) e.new_selection).map
          Sel.id_).Perm
        ((e.new_selection.id_ :: storeIds acc.1) ++ arr.map Sel.id_) := by
      refine ((pyInsert_map_perm arr _ e.new_selection Sel.id_).append_left
        (storeIds acc.1)).trans ?_
      rw [← Multiset.coe_eq_coe]
      simp only [← Multiset.coe_add, ← Multiset.cons_coe, ← Multiset.singleton_add,
        Multiset.coe_singleton]
      abel
    exact perm_cancel_right (h1.trans h2)
  · rw [if_neg hm]
    have hg : odGet acc.1 e.new_selection.page = none := by
      rw [odMem] at hm
      exact Option.not_isSome_iff_eq_none.1 (by simpa using hm)
    have hg1 : odGet (odSet acc.1 e.new_selection.page []) e.new_selection.page
        = some [] := odGet_odSet_self _ _ _
    have harr : odGetD (odSet acc.1 e.new_selection.page []) e.new_selection.page
        = [] := by simp [odGetD, hg1]
    rw [harr]
    have hids1 : storeIds (odSet acc.1 e.new_selection.page []) = storeIds acc.1 := by
      rw [storeIds_odSet_absent [] hg]
      simp
    have h1 := storeIds_odSet_get
      (pyInsert [] (if e.new_selection.idx < 0 ∨ (([] : List Sel).length : Int)
        < e.new_selection.idx then ([] : List Sel).length
        else e.new_selection.idx.toNat) e.new_selection) hg1
    simp only [List.map_nil, List.append_nil, hids1] at h1
    refine h1.trans ?_
    have hp : pyInsert ([] : List Sel) (if e.new_selection.idx < 0
        ∨ (([] : List Sel).length : Int) < e.new_selection.idx
        then ([] : List Sel).length else e.new_selection.idx.toNat) e.new_selection
        = [e.new_selection] := by
      simp [pyInsert]
    rw [hp]
    rw [← Multiset.coe_eq_coe]
    simp only [← Multiset.coe_add, ← Multiset.cons_coe, ← Multiset.singleton_add,
      Multiset.coe_singleton, List.map_cons, List.map_nil]
    abel

theorem insertPhase_nodup (es : List EditingData) :
    ∀ acc : Store × List Nat,
      NodupIds acc.1 →
      (∀ e ∈ es, e.new_selection.id_ ∉ storeIds acc.1) →
      (es.map (fun e => e.new_selection.id_)).Nodup →
      NodupIds (es.foldl applyEditInsertStep acc).1 := by
  induction es with
  | nil => intro acc h _ _; exact h
  | cons e rest ih =>
    intro acc hd hfresh hnd
    simp only [List.map_cons, List.nodup_cons] at hnd
    simp only [List.foldl_cons]
    have hperm := storeIds_insertStep_perm acc e
    refine ih _ (hperm.symm.nodup (List.nodup_cons.2 ⟨hfresh e (by simp), hd⟩)) ?_ hnd.2
    intro u hu hmem
    rcases List.mem_cons.1 (hperm.subset hmem) with hc | hc
    · exact hnd.1 (by rw [← hc]; exact List.mem_map.2 ⟨u, hu, rfl⟩)
    · exact hfresh u (by simp [hu]) hc

theorem storeIds_foldl_updatePageIndexes (ps : List Nat) :
    ∀ d : Store, storeIds (ps.foldl updatePageIndexes d) = storeIds d := by
  induction ps with
  | nil => intro d; rfl
  | cons p rest ih =>
    intro d
    simp only [List.foldl_cons]
    rw [ih, storeIds_updatePageIndexes]

theorem nodupIds_apply_edit {d : Store} (es : List EditingData)
    (hd : NodupIds d)
    (hnd : (es.map (fun e => e.new_selection.id_)).Nodup)
    (hin : ∀ e ∈ es, e.new_selection.id_ ∈ storeIds d →
      e.new_selection.id_ ∈ (odGetD d e.editing_page).map Sel.id_) :
    NodupIds (apply_edit d es) := by
  unfold apply_edit
  dsimp only
  obtain ⟨h1, h2, h3⟩ := removalPhase_invariants es (d, []) hd hin hnd
  have h4 := insertPhase_nodup es (es.foldl applyEditRemovalStep (d, [])) h1 h3 hnd
  show (storeIds _).Nodup
  rw [storeIds_foldl_updatePageIndexes]
  exact h4

/-- C5 counterexample: the engine does not deduplicate — inserting a record
whose id already lives in the store (on another page) leaves the id twice. -/
theorem C5_insert_duplicates_id :
    NodupIds [(1, [mkSel "a" 1 0])] ∧
    ¬ NodupIds (applyOp (.insert (mkSel "a" 2 0)) [(1, [mkSel "a" 1 0])]) := by
  decide

/-- C5 (amended): Remove preserves id-uniqueness unconditionally and
RemoveBatch does so under unique page keys; Insert, InsertBatch, Edit and
MoveBatch preserve it exactly when the incoming ids are fresh — for Edit
the replacement may instead reuse the id of the record it replaces, and for
MoveBatch every moved id present in the store must live on the page its edit
declares as the source (the removal phase only scans that page). -/
theorem C5_unique_ids_after_commands :
    (∀ (d : Store) (r : Sel), NodupIds d → r.id_ ∉ storeIds d →
      NodupIds (applyOp (.insert r) d)) ∧
    (∀ (d : Store) (rs : List Sel) (ap : Bool), NodupIds d →
      (rs.map Sel.id_).Nodup → (∀ r ∈ rs, r.id_ ∉ storeIds d) →
      NodupIds (applyOp (.insertAll rs ap) d)) ∧
    (∀ (d : Store) (r : Sel), NodupIds d → NodupIds (applyOp (.remove r) d)) ∧
    (∀ (d : Store) (rs : List Sel), NodupKeys d → NodupIds d →
      NodupIds (applyOp (.removeAll rs) d)) ∧
    (∀ (d : Store) (k : Nat) (i : Int) (r : Sel), NodupIds d →
      (∀ l x l', odGet d k = some l → pyPop l i = some (x, l') →
        x.id_ = r.id_ ∨ r.id_ ∉ storeIds d) →
      NodupIds (applyOp (.edit k i r) d)) ∧
    (∀ (d : Store) (es : List EditingData), NodupIds d →
      (es.map (fun e => e.new_selection.id_)).Nodup →
      (∀ e ∈ es, e.new_selection.id_ ∈ storeIds d →
        e.new_selection.id_ ∈ (odGetD d e.editing_page).map Sel.id_) →
      NodupIds (applyOp (.moveAll es) d)) := by
  refine ⟨?_, ?_, ?_, ?_, ?_, ?_⟩
  · intro d r hd hr
    exact nodupIds_insert_ordered none none hd hr
  · intro d rs ap hd hnd hfresh
    exact nodupIds_insertAllRedo rs ap hd hnd hfresh
  · intro d r hd
    exact nodupIds_remove_and_relink r hd
  · intro d rs hNK hd
    exact nodupIds_remove_selections rs hNK hd
  · intro d k i r hd hpre
    show NodupIds ((editCmdRedo d k i r).toOption.getD d)
    unfold editCmdRedo
    cases hg : odGet d k with
    | none => exact hd
    | some l =>
      dsimp only
      cases hp : pyGetInt l i with
      | none => exact hd
      | some x0 =>
        dsimp only
        show NodupIds (edit_selection d k i r)
        exact nodupIds_edit_selection k i r hd hpre
  · intro d es hd hnd hin
    exact nodupIds_apply_edit es hd hnd hin

theorem C5_unique_ids_after_commands_witness :
    NodupIds (applyOp (.insert (mkSel "b" 1 1)) [(1, [mkSel "a" 1 0])]) ∧
    NodupIds (applyOp (.insertAll [mkSel "c" 2 0, mkSel "e" 2 1] true)
      [(1, [mkSel "a" 1 0])]) ∧
    NodupIds (applyOp (.remove (mkSel "a" 1 0)) [(1, [mkSel "a" 1 0])]) ∧
    NodupIds (applyOp (.removeAll [mkSel "a" 1 0]) [(1, [mkSel "a" 1 0])]) ∧
    NodupIds (applyOp (.edit 1 0 (mkSel "b" 1 0)) [(1, [mkSel "a" 1 0])]) ∧
    NodupIds (applyOp (.moveAll [⟨1, 0, setPos (mkSel "a" 1 0) 2 1⟩])
      [(1, [mkSel "a" 1 0]), (2, [mkSel "b" 2 0])]) :=
  ⟨C5_unique_ids_after_commands.1 [(1, [mkSel "a" 1 0])] (mkSel "b" 1 1)
      (by decide) (by decide),
   C5_unique_ids_after_commands.2.1 [(1, [mkSel "a" 1 0])]
      [mkSel "c" 2 0, mkSel "e" 2 1] true (by decide) (by decide) (by decide),
   C5_unique_ids_after_commands.2.2.1 [(1, [mkSel "a" 1 0])] (mkSel "a" 1 0)
      (by decide),
   C5_unique_ids_after_commands.2.2.2.1 [(1, [mkSel "a" 1 0])] [mkSel "a" 1 0]
      (by decide) (by decide),
   C5_unique_ids_after_commands.2.2.2.2.1 [(1, [mkSel "a" 1 0])] 1 0
      (mkSel "b" 1 0) (by decide) (fun l x l' hl hp => Or.inr (by decide)),
   C5_unique_ids_after_commands.2.2.2.2.2 [(1, [mkSel "a" 1 0]), (2, [mkSel "b" 2 0])]
      [⟨1, 0, setPos (mkSel "a" 1 0) 2 1⟩] (by decide) (by decide) (by decide)⟩

/-! # Reparenting machinery (RemoveCmd) -/

theorem updParent_id (cid : String) (pid : Option String) (s : Sel) :
    (updParent cid pid s).id_ = s.id_ := by
  unfold updParent
  by_cases h : s.id_ = cid
  · rw [if_pos h]
  · rw [if_neg h]

theorem updParent_ne {cid : String} {s : Sel} (pid : Option String)
    (h : s.id_ ≠ cid) : updParent cid pid s = s := by
  unfold updParent
  rw [if_neg h]

theorem updParent_eq {cid : String} {s : Sel} (pid : Option String)
    (h : s.id_ = cid) : updParent cid pid s = { s with parent := pid } := by
  unfold updParent
  rw [if_pos h]

theorem map_updParent_of_not_mem {cid : String} {l : List Sel}
    (pid : Option String) (h : cid ∉ l.map Sel.id_) :
    l.map (updParent cid pid) = l := by
  induction l with
  | nil => rfl
  | cons s rest ih =>
    simp only [List.map_cons, List.mem_cons] at h ⊢
    push_neg at h
    rw [updParent_ne pid (fun hc => h.1 hc.symm), ih h.2]

theorem storeMapSel_updParent_absent {cid : String} {d : Store}
    (pid : Option String) (h : cid ∉ storeIds d) :
    storeMapSel (updParent cid pid) d = d := by
  induction d with
  | nil => rfl
  | cons e rest ih =>
    obtain ⟨k, v⟩ := e
    simp only [storeIds, List.mem_append] at h
    push_neg at h
    simp only [storeMapSel, List.map_cons]
    rw [map_updParent_of_not_mem pid h.1]
    have := ih h.2
    simp only [storeMapSel] at this
    rw [this]

theorem storeRecords_storeMapSel (f : Sel → Sel) (d : Store) :
    storeRecords (storeMapSel f d) = (storeRecords d).map f := by
  induction d with
  | nil => rfl
  | cons e rest ih =>
    obtain ⟨k, v⟩ := e
    simp only [storeMapSel, List.map_cons, storeRecords, List.map_append] at ih ⊢
    rw [ih]

theorem storeIds_storeMapSel {f : Sel → Sel} (hid : ∀ s, (f s).id_ = s.id_)
    (d : Store) : storeIds (storeMapSel f d) = storeIds d := by
  rw [storeIds_eq_map, storeIds_eq_map, storeRecords_storeMapSel, List.map_map]
  exact List.map_congr_left (fun s _ => hid s)

theorem odKeys_storeMapSel (f : Sel → Sel) (d : Store) :
    odKeys (storeMapSel f d) = odKeys d := by
  induction d with
  | nil => rfl
  | cons e rest ih =>
    obtain ⟨k, v⟩ := e
    simp only [storeMapSel, odKeys, List.map_cons] at ih ⊢
    rw [ih]

theorem odGet_storeMapSel (f : Sel → Sel) (d : Store) (k : Nat) :
    odGet (storeMapSel f d) k = (odGet d k).map (List.map f) := by
  induction d with
  | nil => rfl
  | cons e rest ih =>
    obtain ⟨k', v⟩ := e
    by_cases hk : k' = k
    · simp [storeMapSel, odGet, hk]
    · simp only [storeMapSel, List.map_cons, odGet, if_neg hk]
      exact ih

theorem records_filter_storeMapSel {f : Sel → Sel} (hid : ∀ s, (f s).id_ = s.id_)
    (d : Store) (sid : String) :
    (storeRecords (storeMapSel f d)).filter (fun x => x.id_ = sid)
      = ((storeRecords d).filter (fun x => x.id_ = sid)).map f := by
  rw [storeRecords_storeMapSel, List.filter_map]
  congr 1
  apply List.filter_congr
  intro x _
  simp [Function.comp, hid x]

theorem parentsOfId_append (P Q : Store) (s : String) :
    parentsOfId (P ++ Q) s = parentsOfId P s ++ parentsOfId Q s := by
  unfold parentsOfId
  rw [storeRecords_append, List.filter_append, List.map_append]

theorem nodupIds_cons {k : Nat} {v : List Sel} {rest : Store}
    (h : NodupIds ((k, v) :: rest)) :
    (v.map Sel.id_).Nodup ∧ NodupIds rest ∧
      ∀ a ∈ v.map Sel.id_, a ∉ storeIds rest := by
  have h' : (v.map Sel.id_ ++ storeIds rest).Nodup := h
  rw [List.nodup_append] at h'
  exact ⟨h'.1, h'.2.1, h'.2.2⟩

theorem findWithIdx_mem {l : List Sel} {sid : String} {j : Nat} {x : Sel}
    (h : findWithIdx l sid = some (j, x)) : x ∈ l ∧ x.id_ = sid := by
  obtain ⟨l1, l2, h1, _, h3, _⟩ := findWithIdx_some_decomp h
  exact ⟨h1 ▸ List.mem_append_right _ (List.mem_cons_self _ _), h3⟩

theorem findWithIdx_at {l1 : List Sel} (l2 : List Sel) {s : Sel} {sid : String}
    (hnot : sid ∉ l1.map Sel.id_) (hs : s.id_ = sid) :
    findWithIdx (l1 ++ s :: l2) sid = some (l1.length, s) := by
  induction l1 with
  | nil => simp [findWithIdx, hs]
  | cons a rest ih =>
    simp only [List.map_cons, List.mem_cons] at hnot
    push_neg at hnot
    simp only [List.cons_append, findWithIdx,
      if_neg (fun hc : a.id_ = sid => hnot.1 hc.symm)]
    simp only [List.append_eq]
    rw [ih hnot.2]
    rfl

theorem findWithIdx_map {f : Sel → Sel} (hid : ∀ s, (f s).id_ = s.id_)
    (l : List Sel) (sid : String) :
    findWithIdx (l.map f) sid = (findWithIdx l sid).map (fun t => (t.1, f t.2)) := by
  induction l with
  | nil => rfl
  | cons s rest ih =>
    simp only [List.map_cons, findWithIdx, hid s]
    by_cases hs : s.id_ = sid
    · rw [if_pos hs, if_pos hs]
      rfl
    · rw [if_neg hs, if_neg hs, ih]
      cases findWithIdx rest sid <;> rfl

theorem find_eq_none_iff {d : Store} {sid : String} :
    find_selection_by_id d sid = none ↔ sid ∉ storeIds d := by
  induction d with
  | nil => simp [find_selection_by_id, storeIds]
  | cons e rest ih =>
    obtain ⟨p, items⟩ := e
    simp only [find_selection_by_id, storeIds, List.mem_append]
    cases hfw : findWithIdx items sid with
    | some ji =>
      obtain ⟨j, x⟩ := ji
      dsimp only
      constructor
      · intro h
        exact Option.noConfusion h
      · intro h
        obtain ⟨hm, hx⟩ := findWithIdx_mem hfw
        exact absurd (Or.inl (hx ▸ List.mem_map.2 ⟨x, hm, rfl⟩)) h
    | none =>
      dsimp only
      rw [ih]
      constructor
      · intro h hc
        rcases hc with hc | hc
        · exact findWithIdx_none_not_mem hfw hc
        · exact h hc
      · intro h hc
        exact h (Or.inr hc)

theorem find_mem_records {d : Store} {sid : String} {p i : Nat} {s : Sel}
    (h : find_selection_by_id d sid = some (p, i, s)) :
    s ∈ storeRecords d ∧ s.id_ = sid := by
  induction d with
  | nil => exact Option.noConfusion h
  | cons e rest ih =>
    obtain ⟨p', items⟩ := e
    simp only [find_selection_by_id] at h
    cases hfw : findWithIdx items sid with
    | some ji =>
      obtain ⟨j, x⟩ := ji
      rw [hfw] at h
      dsimp only at h
      simp only [Option.some.injEq, Prod.mk.injEq] at h
      obtain ⟨_, _, hx⟩ := h
      subst hx
      obtain ⟨hm, hid⟩ := findWithIdx_mem hfw
      exact ⟨List.mem_append_left _ hm, hid⟩
    | none =>
      rw [hfw] at h
      obtain ⟨hm, hid⟩ := ih h
      exact ⟨List.mem_append_right _ hm, hid⟩

theorem find_page_mem {d : Store} {sid : String} {p i : Nat} {s : Sel}
    (h : find_selection_by_id d sid = some (p, i, s)) : p ∈ odKeys d := by
  induction d with
  | nil => exact Option.noConfusion h
  | cons e rest ih =>
    obtain ⟨p', items⟩ := e
    simp only [find_selection_by_id] at h
    cases hfw : findWithIdx items sid with
    | some ji =>
      obtain ⟨j, x⟩ := ji
      rw [hfw] at h
      dsimp only at h
      simp only [Option.some.injEq, Prod.mk.injEq] at h
      simp [odKeys, h.1]
    | none =>
      rw [hfw] at h
      simp only [odKeys, List.map_cons, List.mem_cons]
      exact Or.inr (ih h)

theorem find_some_odGet {d : Store} {sid : String} {p i : Nat} {s : Sel}
    (hNK : NodupKeys d) (h : find_selection_by_id d sid = some (p, i, s)) :
    ∃ l, odGet d p = some l ∧ findWithIdx l sid = some (i, s) := by
  induction d with
  | nil => exact Option.noConfusion h
  | cons e rest ih =>
    obtain ⟨p', items⟩ := e
    simp only [find_selection_by_id] at h
    cases hfw : findWithIdx items sid with
    | some ji =>
      obtain ⟨j, x⟩ := ji
      rw [hfw] at h
      dsimp only at h
      simp only [Option.some.injEq, Prod.mk.injEq] at h
      obtain ⟨h1, h2, h3⟩ := h
      subst h1
      refine ⟨items, by simp [odGet], ?_⟩
      rw [hfw, h2, h3]
    | none =>
      rw [hfw] at h
      have hp : p ∈ odKeys rest := find_page_mem h
      have hne : p' ≠ p := by
        intro hc
        exact (nodupKeys_cons hNK).1 (hc ▸ hp)
      obtain ⟨l, hl1, hl2⟩ := ih (nodupKeys_cons hNK).2 h
      exact ⟨l, by simp [odGet, if_neg hne, hl1], hl2⟩

theorem find_storeMapSel {f : Sel → Sel} (hid : ∀ s, (f s).id_ = s.id_)
    (d : Store) (sid : String) :
    find_selection_by_id (storeMapSel f d) sid
      = (find_selection_by_id d sid).map (fun t => (t.1, t.2.1, f t.2.2)) := by
  induction d with
  | nil => rfl
  | cons e rest ih =>
    obtain ⟨p, items⟩ := e
    simp only [storeMapSel, List.map_cons, find_selection_by_id]
    rw [findWithIdx_map hid]
    cases hfw : findWithIdx items sid with
    | some ji => rfl
    | none =>
      dsimp only
      simp only [storeMapSel] at ih
      exact ih

theorem find_of_odGet {d : Store} {sid : String} {p i : Nat} {s : Sel} {l : List Sel}
    (hNK : NodupKeys d) (hNI : NodupIds d) (hg : odGet d p = some l)
    (hfw : findWithIdx l sid = some (i, s)) :
    find_selection_by_id d sid = some (p, i, s) := by
  induction d with
  | nil => simp [odGet] at hg
  | cons e rest ih =>
    obtain ⟨p', items⟩ := e
    by_cases hp : p' = p
    · subst hp
      have h' : items = l := by simpa [odGet] using hg
      subst h'
      simp only [find_selection_by_id, hfw]
    · simp only [odGet, if_neg hp] at hg
      simp only [find_selection_by_id]
      cases hfw' : findWithIdx items sid with
      | some ji =>
        obtain ⟨j, x⟩ := ji
        have hmem1 : sid ∈ items.map Sel.id_ := by
          obtain ⟨hm, hx⟩ := findWithIdx_mem hfw'
          exact hx ▸ List.mem_map.2 ⟨x, hm, rfl⟩
        have hmem2 : sid ∈ storeIds rest := by
          obtain ⟨hm, hx⟩ := findWithIdx_mem hfw
          refine mem_storeIds_of_page hg ?_
          exact hx ▸ List.mem_map.2 ⟨s, hm, rfl⟩
        exact absurd hmem2 ((nodupIds_cons hNI).2.2 sid hmem1)
      | none =>
        dsimp only
        exact ih (nodupKeys_cons hNK).2 (nodupIds_cons hNI).2.1 hg

theorem find_append_left {P : Store} (Q : Store) {sid : String}
    (h : sid ∉ storeIds P) :
    find_selection_by_id (P ++ Q) sid = find_selection_by_id Q sid := by
  induction P with
  | nil => rfl
  | cons e rest ih =>
    obtain ⟨p, items⟩ := e
    simp only [storeIds, List.mem_append] at h
    push_neg at h
    simp only [List.cons_append, find_selection_by_id,
      findWithIdx_eq_none h.1]
    exact ih h.2

theorem listSetParent_append_at (l1 : List Sel) (s : Sel) (l2 : List Sel)
    (pid : Option String) :
    listSetParent (l1 ++ s :: l2) l1.length pid
      = l1 ++ ({ s with parent := pid } :: l2) := by
  induction l1 with
  | nil => rfl
  | cons a rest ih =>
    simp only [List.cons_append, List.length_cons, listSetParent, List.append_eq, ih]

theorem listSetParent_eq_map {l : List Sel} {cid : String} {i : Nat} {s : Sel}
    (pid : Option String) (hfw : findWithIdx l cid = some (i, s))
    (hcnt : (l.map Sel.id_).count cid ≤ 1) :
    listSetParent l i pid = l.map (updParent cid pid) := by
  obtain ⟨l1, l2, h1, h2, h3, _⟩ := findWithIdx_some_decomp hfw
  subst h1
  rw [List.map_append, List.map_cons, h3, List.count_append,
    List.count_cons_self] at hcnt
  have hc1 : (l1.map Sel.id_).count cid = 0 := by omega
  have hc2 : (l2.map Sel.id_).count cid = 0 := by omega
  rw [← h2, listSetParent_append_at, List.map_append, List.map_cons]
  rw [map_updParent_of_not_mem pid (List.count_eq_zero.1 hc1),
    map_updParent_of_not_mem pid (List.count_eq_zero.1 hc2),
    updParent_eq pid h3]

theorem setParent_hit_eq_mapSel (cid : String) (pid : Option String) :
    ∀ (d : Store) (p i : Nat) (s : Sel) (l : List Sel),
      NodupKeys d → (storeIds d).count cid ≤ 1 →
      find_selection_by_id d cid = some (p, i, s) →
      odGet d p = some l →
      odSet d p (listSetParent l i pid) = storeMapSel (updParent cid pid) d := by
  intro d
  induction d with
  | nil =>
    intro p i s l _ _ hf _
    exact Option.noConfusion hf
  | cons e rest ih =>
    obtain ⟨k', v'⟩ := e
    intro p i s l hNK hcnt hf hg
    simp only [find_selection_by_id] at hf
    cases hfw : findWithIdx v' cid with
    | some ji =>
      obtain ⟨j, x⟩ := ji
      rw [hfw] at hf
      dsimp only at hf
      simp only [Option.some.injEq, Prod.mk.injEq] at hf
      obtain ⟨h1, h2, h3⟩ := hf
      subst h1
      have hv : v' = l := by simpa [odGet] using hg
      subst hv
      have hmem : cid ∈ v'.map Sel.id_ := by
        obtain ⟨hm, hx⟩ := findWithIdx_mem hfw
        exact hx ▸ List.mem_map.2 ⟨x, hm, rfl⟩
      have hcnt' : ((v'.map Sel.id_ : List String) ++ storeIds rest).count cid ≤ 1 :=
        hcnt
    -- the page holds the only occurrence: the tail has none
      rw [List.count_append] at hcnt'
      have hpos : 0 < (v'.map Sel.id_).count cid := List.count_pos_iff.2 hmem
      have hcp : (v'.map Sel.id_).count cid ≤ 1 := by omega
      have hcr : (storeIds rest).count cid = 0 := by omega
      simp only [odSet, if_pos rfl, storeMapSel, List.map_cons]
      rw [listSetParent_eq_map pid
        (show findWithIdx v' cid = some (i, s) by rw [hfw, h2, h3]) hcp]
      have hrest : storeMapSel (updParent cid pid) rest = rest :=
        storeMapSel_updParent_absent pid (List.count_eq_zero.1 hcr)
      simp only [storeMapSel] at hrest
      rw [hrest]
      simp only [if_true]
    | none =>
      rw [hfw] at hf
      have hk'p : k' ≠ p := fun hc => (nodupKeys_cons hNK).1 (hc ▸ find_page_mem hf)
      simp only [odGet, if_neg hk'p] at hg
      have hcr : (storeIds rest).count cid ≤ 1 := by
        have h' : ((v'.map Sel.id_ : List String) ++ storeIds rest).count cid ≤ 1 := hcnt
        rw [List.count_append] at h'
        omega
      have hrest := ih p i s l (nodupKeys_cons hNK).2 hcr hf hg
      simp only [odSet, if_neg hk'p, storeMapSel, List.map_cons]
      rw [map_updParent_of_not_mem pid (findWithIdx_none_not_mem hfw)]
      simp only [storeMapSel] at hrest
      rw [hrest]

theorem setParentById_eq_mapSel {d : Store} (cid : String) (pid : Option String)
    (hNK : NodupKeys d) (hcnt : (storeIds d).count cid ≤ 1) :
    setParentById d cid pid = storeMapSel (updParent cid pid) d := by
  unfold setParentById
  cases hf : find_selection_by_id d cid with
  | none =>
    exact (storeMapSel_updParent_absent pid (find_eq_none_iff.1 hf)).symm
  | some t =>
    obtain ⟨p, i, s⟩ := t
    obtain ⟨l, hg, hfw⟩ := find_some_odGet hNK hf
    dsimp only
    rw [hg]
    exact setParent_hit_eq_mapSel cid pid d p i s l hNK hcnt hf hg

theorem parentsOfId_storeMapSel_self {d : Store} {cid : String} {b0 : Sel}
    (pid : Option String)
    (hsingle : (storeRecords d).filter (fun x => x.id_ = cid) = [b0]) :
    parentsOfId (storeMapSel (updParent cid pid) d) cid = [pid] := by
  unfold parentsOfId
  rw [records_filter_storeMapSel (updParent_id cid pid), hsingle]
  have hb0 : b0.id_ = cid := by
    have : b0 ∈ (storeRecords d).filter (fun x => x.id_ = cid) := by
      rw [hsingle]
      exact List.mem_singleton_self _
    simpa using (List.mem_filter.1 this).2
  simp [updParent_eq pid hb0]

theorem parentsOfId_storeMapSel_ne {d : Store} {cid sid : String}
    (pid : Option String) (hne : sid ≠ cid) :
    parentsOfId (storeMapSel (updParent cid pid) d) sid = parentsOfId d sid := by
  unfold parentsOfId
  rw [records_filter_storeMapSel (updParent_id cid pid), List.map_map]
  apply List.map_congr_left
  intro x hx
  have hxid : x.id_ = sid := by simpa using (List.mem_filter.1 hx).2
  simp [Function.comp, updParent_ne pid (hxid ▸ hne)]

theorem filter_eq_singleton_of_nodup_map {l : List Sel} {s : Sel} {sid : String}
    (hnd : (l.map Sel.id_).Nodup) (hmem : s ∈ l) (hid : s.id_ = sid) :
    l.filter (fun x => x.id_ = sid) = [s] := by
  induction l with
  | nil => cases hmem
  | cons a rest ih =>
    simp only [List.map_cons, List.nodup_cons] at hnd
    rcases List.mem_cons.1 hmem with h | h
    · subst h
      rw [List.filter_cons_of_pos (by simp [hid])]
      rw [List.filter_eq_nil.2, List.cons_eq_cons]
      · exact ⟨rfl, rfl⟩
      · intro x hx
        simp only [decide_eq_true_eq]
        intro hc
        exact hnd.1 (by rw [hid, ← hc]; exact List.mem_map.2 ⟨x, hx, rfl⟩)
    · rw [List.filter_cons_of_neg, ih hnd.2 h]
      simp only [decide_eq_true_eq]
      intro hc
      exact hnd.1 (by rw [hc, ← hid]; exact List.mem_map.2 ⟨s, h, rfl⟩)

theorem records_filter_singleton {d : Store} {s : Sel} {sid : String}
    (hNI : NodupIds d) (hmem : s ∈ storeRecords d) (hid : s.id_ = sid) :
    (storeRecords d).filter (fun x => x.id_ = sid) = [s] := by
  refine filter_eq_singleton_of_nodup_map ?_ hmem hid
  rw [← storeIds_eq_map]
  exact hNI

theorem storeRecords_odSet_decomp {d : Store} {k : Nat} {l : List Sel}
    (h : odGet d k = some l) (v : List Sel) :
    ∃ P S : List Sel, storeRecords d = P ++ (l ++ S) ∧
      storeRecords (odSet d k v) = P ++ (v ++ S) := by
  induction d with
  | nil => simp [odGet] at h
  | cons e rest ih =>
    obtain ⟨k', v'⟩ := e
    by_cases hk : k' = k
    · subst hk
      have h' : v' = l := by simpa [odGet] using h
      subst h'
      exact ⟨[], storeRecords rest, by simp [storeRecords], by simp [odSet, storeRecords]⟩
    · simp only [odGet, if_neg hk] at h
      obtain ⟨P, S, h1, h2⟩ := ih h
      exact ⟨v' ++ P, S, by simp [storeRecords, h1], by simp [odSet, hk, storeRecords, h2]⟩

theorem storeRecords_odDel_decomp {d : Store} {k : Nat} {l : List Sel}
    (h : odGet d k = some l) :
    ∃ P S : List Sel, storeRecords d = P ++ (l ++ S) ∧
      storeRecords (odDel d k) = P ++ S := by
  induction d with
  | nil => simp [odGet] at h
  | cons e rest ih =>
    obtain ⟨k', v'⟩ := e
    by_cases hk : k' = k
    · subst hk
      have h' : v' = l := by simpa [odGet] using h
      subst h'
      exact ⟨[], storeRecords rest, by simp [storeRecords], by simp [odDel, storeRecords]⟩
    · simp only [odGet, if_neg hk] at h
      obtain ⟨P, S, h1, h2⟩ := ih h
      exact ⟨v' ++ P, S, by simp [storeRecords, h1], by simp [odDel, hk, storeRecords, h2]⟩

theorem parentsOfId_odSet {d : Store} {k : Nat} {l v : List Sel} (s : String)
    (hg : odGet d k = some l)
    (hfilter : (v.filter (fun x => x.id_ = s)).map Sel.parent
      = (l.filter (fun x => x.id_ = s)).map Sel.parent) :
    parentsOfId (odSet d k v) s = parentsOfId d s := by
  obtain ⟨P, S, h1, h2⟩ := storeRecords_odSet_decomp hg v
  unfold parentsOfId
  rw [h1, h2]
  simp only [List.filter_append, List.map_append]
  rw [hfilter]

theorem parentsOfId_odDel {d : Store} {k : Nat} {l : List Sel} (s : String)
    (hg : odGet d k = some l)
    (hfilter : l.filter (fun x => x.id_ = s) = []) :
    parentsOfId (odDel d k) s = parentsOfId d s := by
  obtain ⟨P, S, h1, h2⟩ := storeRecords_odDel_decomp hg
  unfold parentsOfId
  rw [h1, h2]
  simp only [List.filter_append, List.map_append, hfilter]
  simp

theorem reindexFrom_filter_parent (p : Nat) (s : String) :
    ∀ (i : Nat) (l : List Sel),
      ((reindexFrom p i l).filter (fun x => x.id_ = s)).map Sel.parent
        = (l.filter (fun x => x.id_ = s)).map Sel.parent := by
  intro i l
  induction l generalizing i with
  | nil => rfl
  | cons a rest ih =>
    simp only [reindexFrom]
    by_cases ha : a.id_ = s
    · rw [List.filter_cons_of_pos (by simpa using ha),
        List.filter_cons_of_pos (by simpa using ha)]
      simp only [List.map_cons]
      rw [ih]
    · rw [List.filter_cons_of_neg (by simpa using ha),
        List.filter_cons_of_neg (by simpa using ha)]
      exact ih _

theorem parentsOfId_updatePageIndexes (d : Store) (p : Nat) (s : String) :
    parentsOfId (updatePageIndexes d p) s = parentsOfId d s := by
  unfold updatePageIndexes
  cases hg : odGet d p with
  | none => rfl
  | some l => exact parentsOfId_odSet s hg (reindexFrom_filter_parent p s 0 l)

theorem odSet_erase_clears {d : Store} {k : Nat} {l1 l2 : List Sel} {x : Sel}
    (hNI : NodupIds d) (hg : odGet d k = some (l1 ++ x :: l2)) :
    x.id_ ∉ storeIds (odSet d k (l1 ++ l2)) := by
  obtain ⟨P, S, hdec1, hdec2⟩ := storeIds_odSet_decomp hg (l1 ++ l2)
  have hc : (storeIds d).count x.id_ ≤ 1 := List.nodup_iff_count_le_one.1 hNI _
  rw [hdec1] at hc
  simp only [List.map_append, List.map_cons, List.count_append,
    List.count_cons_self] at hc
  have hzero : (storeIds (odSet d k (l1 ++ l2))).count x.id_ = 0 := by
    rw [hdec2]
    simp only [List.map_append, List.count_append]
    omega
  exact List.count_eq_zero.1 hzero

theorem odDel_clears {d : Store} {k : Nat} {l : List Sel} {sid : String}
    (hNI : NodupIds d) (hg : odGet d k = some l) (hmem : sid ∈ l.map Sel.id_) :
    sid ∉ storeIds (odDel d k) := by
  have hperm := storeIds_odDel_get hg
  have hall : (storeIds (odDel d k) ++ l.map Sel.id_).Nodup := hperm.symm.nodup hNI
  intro hc
  exact (List.nodup_append.1 hall).2.2 hc hmem

theorem pageIndexed_append (p : Nat) :
    ∀ (n : Nat) (u w : List Sel),
      pageIndexed p n (u ++ w)
        = (pageIndexed p n u && pageIndexed p (n + u.length) w) := by
  intro n u
  induction u generalizing n with
  | nil =>
    intro w
    simp [pageIndexed]
  | cons a rest ih =>
    intro w
    simp only [List.cons_append, pageIndexed, List.append_eq, ih (n + 1),
      List.length_cons]
    have harith : n + 1 + rest.length = n + (rest.length + 1) := by omega
    rw [harith, ← Bool.and_assoc]

theorem find_wellIndexed_fields {d : Store} {sid : String} {p i : Nat} {s : Sel}
    (hNK : NodupKeys d) (hWI : WellIndexed d)
    (hf : find_selection_by_id d sid = some (p, i, s)) :
    s.page = p ∧ s.idx = (i : Int) := by
  obtain ⟨l, hg, hfw⟩ := find_some_odGet hNK hf
  have hmem : (p, l) ∈ d := odGet_mem hg
  have hpi : pageIndexed p 0 l = true := hWI (p, l) hmem
  obtain ⟨l1, l2, h1, h2, _, _⟩ := findWithIdx_some_decomp hfw
  subst h1
  rw [pageIndexed_append] at hpi
  simp only [Bool.and_eq_true] at hpi
  obtain ⟨hsp, hsi, _⟩ := pageIndexed_cons hpi.2
  exact ⟨hsp, by rw [hsi, Nat.zero_add, h2]⟩

theorem removeById_found_spec (sid : String) :
    ∀ (d : Store) (p i : Nat) (s : Sel) (l : List Sel),
      NodupKeys d → NodupIds d →
      find_selection_by_id d sid = some (p, i, s) →
      odGet d p = some l →
      removeById d sid =
        (if (l.eraseIdx i).isEmpty then (odDel d p, none)
         else (odSet d p (l.eraseIdx i), some p)) := by
  intro d
  induction d with
  | nil =>
    intro p i s l _ _ hf _
    exact Option.noConfusion hf
  | cons e rest ih =>
    obtain ⟨k', v'⟩ := e
    intro p i s l hNK hNI hf hg
    simp only [find_selection_by_id] at hf
    cases hfw : findWithIdx v' sid with
    | some ji =>
      obtain ⟨j, x⟩ := ji
      rw [hfw] at hf
      dsimp only at hf
      simp only [Option.some.injEq, Prod.mk.injEq] at hf
      obtain ⟨h1, h2, h3⟩ := hf
      subst h1
      subst h2
      have hv : v' = l := by simpa [odGet] using hg
      subst hv
      have hmem : sid ∈ v'.map Sel.id_ := by
        obtain ⟨hm, hx⟩ := findWithIdx_mem hfw
        exact hx ▸ List.mem_map.2 ⟨x, hm, rfl⟩
      have hnot : sid ∉ storeIds rest := (nodupIds_cons hNI).2.2 sid hmem
      simp only [removeById, hfw]
      by_cases he : (v'.eraseIdx j).isEmpty
      · rw [if_pos he, if_pos he]
        rw [removeById_not_found hnot]
        simp [odDel]
      · rw [if_neg he, if_neg he]
        simp [odSet]
    | none =>
      rw [hfw] at hf
      have hk'p : k' ≠ p := fun hc => (nodupKeys_cons hNK).1 (hc ▸ find_page_mem hf)
      simp only [odGet, if_neg hk'p] at hg
      simp only [removeById, hfw]
      rw [ih p i s l (nodupKeys_cons hNK).2 (nodupIds_cons hNI).2.1 hf hg]
      by_cases he : (l.eraseIdx i).isEmpty
      · rw [if_pos he, if_pos he]
        simp [odDel, hk'p]
      · rw [if_neg he, if_neg he]
        simp [odSet, hk'p]

theorem parentsOfId_cons (p : Nat) (items : List Sel) (rest : Store) (s : String) :
    parentsOfId ((p, items) :: rest) s
      = (items.filter (fun x => x.id_ = s)).map Sel.parent ++ parentsOfId rest s := by
  unfold parentsOfId
  simp only [storeRecords, List.filter_append, List.map_append]

theorem storeIds_odSet_congr {v w : List Sel} (d : Store) (k : Nat)
    (h : v.map Sel.id_ = w.map Sel.id_) :
    storeIds (odSet d k v) = storeIds (odSet d k w) := by
  induction d with
  | nil => simp [odSet, storeIds, h]
  | cons e rest ih =>
    obtain ⟨k', v'⟩ := e
    by_cases hk : k' = k
    · simp [odSet, hk, storeIds, h]
    · simp only [odSet, if_neg hk, storeIds]
      rw [ih]

theorem parents_singleton_filter {d : Store} {sid : String} {q : Option String}
    (h : parentsOfId d sid = [q]) :
    ∃ b0, (storeRecords d).filter (fun x => x.id_ = sid) = [b0] := by
  have hlen : ((storeRecords d).filter (fun x => x.id_ = sid)).length = 1 := by
    have := congrArg List.length h
    simpa [parentsOfId] using this
  exact List.length_eq_one.1 hlen

theorem removeUndo_phase4 {mid : Store} {A B C : Sel} {pa ia : Nat}
    (hNKf0 : NodupKeys (insert_ordered mid A none none).1)
    (hNIf0 : NodupIds (insert_ordered mid A none none).1)
    (hfind : find_selection_by_id (insert_ordered mid A none none).1 A.id_
      = some (pa, ia, A))
    (hpb : parentsOfId (insert_ordered mid A none none).1 B.id_ = [none])
    (hpc : parentsOfId (insert_ordered mid A none none).1 C.id_ = [none])
    (hABne : A.id_ ≠ B.id_) (hACne : A.id_ ≠ C.id_) (hBCne : B.id_ ≠ C.id_) :
    find_selection_by_id (removeCmdUndo mid A [B.id_, C.id_]) A.id_
      = some (pa, ia, A) ∧
    parentsOfId (removeCmdUndo mid A [B.id_, C.id_]) B.id_ = [some A.id_] ∧
    parentsOfId (removeCmdUndo mid A [B.id_, C.id_]) C.id_ = [some A.id_] := by
  unfold removeCmdUndo
  simp only [List.foldl_cons, List.foldl_nil]
  set f0 : Store := (insert_ordered mid A none none).1 with hf0
  have hsp1 : setParentById f0 B.id_ (some A.id_)
      = storeMapSel (updParent B.id_ (some A.id_)) f0 :=
    setParentById_eq_mapSel B.id_ (some A.id_) hNKf0
      (List.nodup_iff_count_le_one.1 hNIf0 _)
  set F1 : Store := storeMapSel (updParent B.id_ (some A.id_)) f0 with hF1
  have hidsF1 : storeIds F1 = storeIds f0 := storeIds_storeMapSel (updParent_id _ _) f0
  have hkeysF1 : odKeys F1 = odKeys f0 := odKeys_storeMapSel _ f0
  have hNKF1 : NodupKeys F1 := by
    show (odKeys F1).Nodup
    rw [hkeysF1]
    exact hNKf0
  have hNIF1 : NodupIds F1 := by
    show (storeIds F1).Nodup
    rw [hidsF1]
    exact hNIf0
  have hsp2 : setParentById F1 C.id_ (some A.id_)
      = storeMapSel (updParent C.id_ (some A.id_)) F1 :=
    setParentById_eq_mapSel C.id_ (some A.id_) hNKF1
      (List.nodup_iff_count_le_one.1 hNIF1 _)
  rw [hsp1, hsp2]
  obtain ⟨b0, hb0⟩ := parents_singleton_filter hpb
  obtain ⟨c0, hc0⟩ := parents_singleton_filter hpc
  refine ⟨?_, ?_, ?_⟩
  · rw [hF1, find_storeMapSel (updParent_id _ _), find_storeMapSel (updParent_id _ _),
      hfind]
    simp only [Option.map_some']
    rw [updParent_ne _ hABne, updParent_ne _ hACne]
  · rw [parentsOfId_storeMapSel_ne _ hBCne, hF1,
      parentsOfId_storeMapSel_self _ hb0]
  · have hcF1 : (storeRecords F1).filter (fun x => x.id_ = C.id_)
        = [updParent B.id_ (some A.id_) c0] := by
      rw [hF1, records_filter_storeMapSel (updParent_id _ _), hc0]
      rfl
    rw [parentsOfId_storeMapSel_self _ hcF1]

theorem insert_back_spec {mid : Store} {A : Sel} {pa ia : Nat}
    (hNK : NodupKeys mid) (hNI : NodupIds mid) (hSorted : SortedKeys mid)
    (hA : A.id_ ∉ storeIds mid) (hApage : A.page = pa) (hAidx : A.idx = (ia : Int))
    (hcase : (odGet mid pa = none ∧ ia = 0) ∨
      (∃ lre, odGet mid pa = some lre ∧ ia ≤ lre.length)) :
    find_selection_by_id (insert_ordered mid A none none).1 A.id_
      = some (pa, ia, A) ∧
    NodupKeys (insert_ordered mid A none none).1 ∧
    NodupIds (insert_ordered mid A none none).1 ∧
    ∀ s, s ≠ A.id_ →
      parentsOfId (insert_ordered mid A none none).1 s = parentsOfId mid s := by
  have hkk : (none : Option Nat).getD A.page = pa := hApage
  have hNIfin : NodupIds (insert_ordered mid A none none).1 :=
    nodupIds_insert_ordered none none hNI hA
  rcases hcase with ⟨hgnone, hia0⟩ | ⟨lre, hgsome, hle⟩
  · -- the page was emptied and deleted: the new-key branch splices it back
    obtain ⟨Am, Bm, hsplit, hAlt, hBgt, hfin0⟩ :=
      @insert_ordered_sorted_splice mid A none none pa hkk hgnone hSorted
    obtain ⟨_, _, hNKfin, _⟩ :=
      @insert_ordered_absent_get mid A none none pa hkk hgnone hNK
    have hAnotAm : A.id_ ∉ storeIds Am := by
      intro hc
      apply hA
      rw [hsplit, storeIds_append]
      exact List.mem_append_left _ hc
    refine ⟨?_, hNKfin, hNIfin, ?_⟩
    · rw [hfin0, find_append_left _ hAnotAm]
      simp only [find_selection_by_id]
      rw [show findWithIdx [A] A.id_ = some (0, A) from by simp [findWithIdx]]
      rw [hia0]
    · intro s hs
      rw [hfin0, hsplit, parentsOfId_append, parentsOfId_append, parentsOfId_cons]
      rw [List.filter_cons_of_neg (by simpa using fun hc => hs hc.symm)]
      simp
  · -- the page survived: insert at the declared index and reindex
    have hi : ¬ ((none : Option Int).getD A.idx < 0) := by
      rw [Option.getD_none, hAidx]
      omega
    have heq := @insert_ordered_present_at mid A none none pa lre hkk hgsome hi
    have htoNat : ((none : Option Int).getD A.idx).toNat = ia := by
      rw [Option.getD_none, hAidx]
      simp
    rw [htoNat] at heq
    have hfin0 : (insert_ordered mid A none none).1
        = odSet mid pa (reindexFrom pa 0 (pyInsert lre ia A)) := by
      rw [heq]
      exact updatePageIndexes_odSet mid pa _
    have hNKfin : NodupKeys (insert_ordered mid A none none).1 := by
      show (odKeys _).Nodup
      rw [hfin0, odKeys_odSet_present _ (by simp [hgsome])]
      exact hNK
    have htake_len : (lre.take ia).length = ia := by
      rw [List.length_take]
      omega
    have hsplitlist : reindexFrom pa 0 (pyInsert lre ia A)
        = reindexFrom pa 0 (lre.take ia)
          ++ ({ A with page := pa, idx := (ia : Int) }
              :: reindexFrom pa (ia + 1) (lre.drop ia)) := by
      show reindexFrom pa 0 (lre.take ia ++ A :: lre.drop ia) = _
      rw [reindexFrom_append, htake_len]
      simp only [reindexFrom, Nat.zero_add]
    have hselA : ({ A with page := pa, idx := (ia : Int) } : Sel) = A :=
      (sel_update_eq_self A pa ia).2 ⟨hApage, hAidx⟩
    rw [hselA] at hsplitlist
    have hAnotlre : A.id_ ∉ lre.map Sel.id_ :=
      fun hc => hA (mem_storeIds_of_page hgsome hc)
    have hAnotrt : A.id_ ∉ (reindexFrom pa 0 (lre.take ia)).map Sel.id_ := by
      rw [map_id_reindexFrom]
      intro hc
      exact hAnotlre (((List.take_sublist ia lre).map Sel.id_).subset hc)
    have hrtlen : (reindexFrom pa 0 (lre.take ia)).length = ia := by
      rw [length_reindexFrom, htake_len]
    refine ⟨?_, hNKfin, hNIfin, ?_⟩
    · refine find_of_odGet hNKfin hNIfin
        (show odGet (insert_ordered mid A none none).1 pa
          = some (reindexFrom pa 0 (lre.take ia)
            ++ A :: reindexFrom pa (ia + 1) (lre.drop ia)) from ?_) ?_
      · rw [hfin0, odGet_odSet_self, hsplitlist]
      · rw [findWithIdx_at _ hAnotrt rfl, hrtlen]
    · intro s hs
      rw [hfin0]
      refine parentsOfId_odSet s hgsome ?_
      rw [reindexFrom_filter_parent]
      show ((lre.take ia ++ A :: lre.drop ia).filter (fun x => x.id_ = s)).map
        Sel.parent = _
      rw [List.filter_append, List.filter_cons_of_neg
        (by simpa using fun hc => hs hc.symm), ← List.filter_append,
        List.take_append_drop]

/-- C3: removing a root record `A` whose two children `B` and `C` point back
to it collects exactly `[B.id, C.id]`, deletes `A` from the store and makes
`B` and `C` roots (parent `none`); the recorded undo re-inserts `A` at its
original page and index and restores both children's `parent` to `A.id`. -/
theorem C3_remove_reparents_and_undo_restores
    (S : Store) (A B C : Sel) (pa ia pb ib pc ic : Nat)
    (hNK : NodupKeys S) (hSorted : SortedKeys S) (hNI : NodupIds S)
    (hWI : WellIndexed S)
    (hfA : find_selection_by_id S A.id_ = some (pa, ia, A))
    (hfB : find_selection_by_id S B.id_ = some (pb, ib, B))
    (hfC : find_selection_by_id S C.id_ = some (pc, ic, C))
    (hApar : A.parent = none) (hAch : A.children = [B.id_, C.id_])
    (hBpar : B.parent = some A.id_) (hCpar : C.parent = some A.id_)
    (hABne : A.id_ ≠ B.id_) (hACne : A.id_ ≠ C.id_) (hBCne : B.id_ ≠ C.id_) :
    (remove_and_relink_children S A).2 = [B.id_, C.id_] ∧
    find_selection_by_id (remove_and_relink_children S A).1 A.id_ = none ∧
    parentsOfId (remove_and_relink_children S A).1 B.id_ = [none] ∧
    parentsOfId (remove_and_relink_children S A).1 C.id_ = [none] ∧
    find_selection_by_id
      (removeCmdUndo (remove_and_relink_children S A).1 A [B.id_, C.id_]) A.id_
      = some (pa, ia, A) ∧
    parentsOfId
      (removeCmdUndo (remove_and_relink_children S A).1 A [B.id_, C.id_]) B.id_
      = [some A.id_] ∧
    parentsOfId
      (removeCmdUndo (remove_and_relink_children S A).1 A [B.id_, C.id_]) C.id_
      = [some A.id_] := by
  obtain ⟨hApage, hAidx⟩ := find_wellIndexed_fields hNK hWI hfA
  obtain ⟨lb, hglb, hfwb⟩ := find_some_odGet hNK hfB
  have hcntB : (storeIds S).count B.id_ ≤ 1 := List.nodup_iff_count_le_one.1 hNI _
  have hd1 : odSet S pb (listSetParent lb ib none)
      = storeMapSel (updParent B.id_ none) S :=
    setParent_hit_eq_mapSel B.id_ none S pb ib B lb hNK hcntB hfB hglb
  set M1 : Store := storeMapSel (updParent B.id_ none) S with hM1
  have hidsM1 : storeIds M1 = storeIds S := storeIds_storeMapSel (updParent_id _ _) S
  have hkeysM1 : odKeys M1 = odKeys S := odKeys_storeMapSel _ S
  have hNK1 : NodupKeys M1 := by
    show (odKeys M1).Nodup
    rw [hkeysM1]
    exact hNK
  have hNI1 : NodupIds M1 := by
    show (storeIds M1).Nodup
    rw [hidsM1]
    exact hNI
  have hfC1 : find_selection_by_id M1 C.id_ = some (pc, ic, C) := by
    rw [hM1, find_storeMapSel (updParent_id _ _), hfC]
    simp only [Option.map_some']
    rw [updParent_ne none (fun hc => hBCne hc.symm)]
  obtain ⟨lc, hglc, hfwc⟩ := find_some_odGet hNK1 hfC1
  have hcntC : (storeIds M1).count C.id_ ≤ 1 := List.nodup_iff_count_le_one.1 hNI1 _
  have hd2 : odSet M1 pc (listSetParent lc ic none)
      = storeMapSel (updParent C.id_ none) M1 :=
    setParent_hit_eq_mapSel C.id_ none M1 pc ic C lc hNK1 hcntC hfC1 hglc
  set M2 : Store := storeMapSel (updParent C.id_ none) M1 with hM2
  have hidsM2 : storeIds M2 = storeIds M1 := storeIds_storeMapSel (updParent_id _ _) M1
  have hkeysM2 : odKeys M2 = odKeys M1 := odKeys_storeMapSel _ M1
  have hNK2 : NodupKeys M2 := by
    show (odKeys M2).Nodup
    rw [hkeysM2]
    exact hNK1
  have hNI2 : NodupIds M2 := by
    show (storeIds M2).Nodup
    rw [hidsM2]
    exact hNI1
  have hSorted2 : SortedKeys M2 := by
    show (odKeys M2).Sorted (· < ·)
    rw [hkeysM2, hkeysM1]
    exact hSorted
  have hrep : reparentPhase S A.parent A.children = (M2, [B.id_, C.id_]) := by
    rw [hApar, hAch]
    simp only [reparentPhase]
    rw [hfB]
    dsimp only
    rw [hglb]
    dsimp only
    rw [hd1, hfC1]
    dsimp only
    rw [hglc]
    dsimp only
    rw [hd2]
  have hfA1 : find_selection_by_id M1 A.id_ = some (pa, ia, A) := by
    rw [hM1, find_storeMapSel (updParent_id _ _), hfA]
    simp only [Option.map_some']
    rw [updParent_ne none hABne]
  have hfA2 : find_selection_by_id M2 A.id_ = some (pa, ia, A) := by
    rw [hM2, find_storeMapSel (updParent_id _ _), hfA1]
    simp only [Option.map_some']
    rw [updParent_ne none hACne]
  obtain ⟨lM, hglM, hfwM⟩ := find_some_odGet hNK2 hfA2
  obtain ⟨lM1, lM2, hlM, hlen1, _, herase⟩ := findWithIdx_some_decomp hfwM
  have hrem := removeById_found_spec A.id_ M2 pa ia A lM hNK2 hNI2 hfA2 hglM
  rw [herase] at hrem
  have hglM' : odGet M2 pa = some (lM1 ++ A :: lM2) := by
    rw [← hlM]
    exact hglM
  have hsingleB : (storeRecords S).filter (fun x => x.id_ = B.id_) = [B] :=
    records_filter_singleton hNI (find_mem_records hfB).1 rfl
  have hpbM1 : parentsOfId M1 B.id_ = [none] := by
    rw [hM1]
    exact parentsOfId_storeMapSel_self none hsingleB
  have hpbM2 : parentsOfId M2 B.id_ = [none] := by
    rw [hM2, parentsOfId_storeMapSel_ne none hBCne]
    exact hpbM1
  have hsingleC1 : (storeRecords M1).filter (fun x => x.id_ = C.id_) = [C] :=
    records_filter_singleton hNI1 (find_mem_records hfC1).1 rfl
  have hpcM2 : parentsOfId M2 C.id_ = [none] := by
    rw [hM2]
    exact parentsOfId_storeMapSel_self none hsingleC1
  by_cases hemp : (lM1 ++ lM2).isEmpty
  · have hrem1 : removeById M2 A.id_ = (odDel M2 pa, none) := by
      rw [hrem, if_pos hemp]
    have hmid : remove_and_relink_children S A = (odDel M2 pa, [B.id_, C.id_]) := by
      unfold remove_and_relink_children
      rw [hrep]
      dsimp only
      rw [hrem1]
    have hnil : lM1 ++ lM2 = [] := by simpa using hemp
    obtain ⟨hn1, hn2⟩ := List.append_eq_nil.1 hnil
    subst hn1
    subst hn2
    have hia0 : ia = 0 := by simpa using hlen1.symm
    have hlMA : lM = [A] := by simpa using hlM
    have hNKmid : NodupKeys (odDel M2 pa) :=
      List.Nodup.sublist (odKeys_odDel_sublist M2 pa) hNK2
    have hNImid : NodupIds (odDel M2 pa) :=
      List.Nodup.sublist (storeIds_odDel_sublist M2 pa) hNI2
    have hSortedmid : SortedKeys (odDel M2 pa) :=
      List.Pairwise.sublist (odKeys_odDel_sublist M2 pa) hSorted2
    have hAmid : A.id_ ∉ storeIds (odDel M2 pa) :=
      odDel_clears hNI2 hglM (by rw [hlMA]; simp)
    have hpbmid : parentsOfId (odDel M2 pa) B.id_ = [none] := by
      rw [parentsOfId_odDel B.id_ hglM
        (by rw [hlMA, List.filter_cons_of_neg (by simpa using hABne)]; rfl)]
      exact hpbM2
    have hpcmid : parentsOfId (odDel M2 pa) C.id_ = [none] := by
      rw [parentsOfId_odDel C.id_ hglM
        (by rw [hlMA, List.filter_cons_of_neg (by simpa using hACne)]; rfl)]
      exact hpcM2
    obtain ⟨hfind0, hNKfin, hNIfin, hpar0⟩ := insert_back_spec hNKmid hNImid
      hSortedmid hAmid hApage hAidx (Or.inl ⟨odGet_odDel_self hNK2, hia0⟩)
    have hpb0 : parentsOfId (insert_ordered (odDel M2 pa) A none none).1 B.id_
        = [none] := by
      rw [hpar0 B.id_ (fun hc => hABne hc.symm)]
      exact hpbmid
    have hpc0 : parentsOfId (insert_ordered (odDel M2 pa) A none none).1 C.id_
        = [none] := by
      rw [hpar0 C.id_ (fun hc => hACne hc.symm)]
      exact hpcmid
    obtain ⟨hf4, hb4, hc4⟩ := removeUndo_phase4 hNKfin hNIfin hfind0 hpb0 hpc0
      hABne hACne hBCne
    rw [hmid]
    exact ⟨rfl, find_eq_none_iff.2 hAmid, hpbmid, hpcmid, hf4, hb4, hc4⟩
  · have hrem2 : removeById M2 A.id_ = (odSet M2 pa (lM1 ++ lM2), some pa) := by
      rw [hrem, if_neg hemp]
    have hmid : remove_and_relink_children S A
        = (updatePageIndexes (odSet M2 pa (lM1 ++ lM2)) pa, [B.id_, C.id_]) := by
      unfold remove_and_relink_children
      rw [hrep]
      dsimp only
      rw [hrem2]
    set mid : Store := updatePageIndexes (odSet M2 pa (lM1 ++ lM2)) pa with hmiddef
    have hkeysmid : odKeys mid = odKeys M2 := by
      rw [hmiddef, odKeys_updatePageIndexes, odKeys_odSet_present _ (by simp [hglM])]
    have hNKmid : NodupKeys mid := by
      show (odKeys mid).Nodup
      rw [hkeysmid]
      exact hNK2
    have hSortedmid : SortedKeys mid := by
      show (odKeys mid).Sorted (· < ·)
      rw [hkeysmid]
      exact hSorted2
    have hidsmid : storeIds mid = storeIds (odSet M2 pa (lM1 ++ lM2)) := by
      rw [hmiddef, storeIds_updatePageIndexes]
    have hAmid : A.id_ ∉ storeIds mid := by
      rw [hidsmid]
      exact odSet_erase_clears hNI2 hglM'
    have hNImid : NodupIds mid := by
      show (storeIds mid).Nodup
      rw [hidsmid]
      refine List.Nodup.sublist (storeIds_odSet_sublist hglM' ?_) hNI2
      exact ((List.sublist_cons_self A lM2).append_left lM1).map Sel.id_
    have hmid2 : mid = odSet M2 pa (reindexFrom pa 0 (lM1 ++ lM2)) := by
      rw [hmiddef]
      exact updatePageIndexes_odSet M2 pa _
    have hgmid : odGet mid pa = some (reindexFrom pa 0 (lM1 ++ lM2)) := by
      rw [hmid2]
      exact odGet_odSet_self _ _ _
    have hle : ia ≤ (reindexFrom pa 0 (lM1 ++ lM2)).length := by
      rw [length_reindexFrom, List.length_append]
      omega
    have hpbmid : parentsOfId mid B.id_ = [none] := by
      rw [hmiddef, parentsOfId_updatePageIndexes,
        parentsOfId_odSet B.id_ hglM'
          (by rw [List.filter_append, List.filter_append,
            List.filter_cons_of_neg (by simpa using hABne)])]
      exact hpbM2
    have hpcmid : parentsOfId mid C.id_ = [none] := by
      rw [hmiddef, parentsOfId_updatePageIndexes,
        parentsOfId_odSet C.id_ hglM'
          (by rw [List.filter_append, List.filter_append,
            List.filter_cons_of_neg (by simpa using hACne)])]
      exact hpcM2
    obtain ⟨hfind0, hNKfin, hNIfin, hpar0⟩ := insert_back_spec hNKmid hNImid
      hSortedmid hAmid hApage hAidx
      (Or.inr ⟨reindexFrom pa 0 (lM1 ++ lM2), hgmid, hle⟩)
    have hpb0 : parentsOfId (insert_ordered mid A none none).1 B.id_ = [none] := by
      rw [hpar0 B.id_ (fun hc => hABne hc.symm)]
      exact hpbmid
    have hpc0 : parentsOfId (insert_ordered mid A none none).1 C.id_ = [none] := by
      rw [hpar0 C.id_ (fun hc => hACne hc.symm)]
      exact hpcmid
    obtain ⟨hf4, hb4, hc4⟩ := removeUndo_phase4 hNKfin hNIfin hfind0 hpb0 hpc0
      hABne hACne hBCne
    rw [hmid]
    exact ⟨rfl, find_eq_none_iff.2 hAmid, hpbmid, hpcmid, hf4, hb4, hc4⟩

theorem C3_remove_reparents_and_undo_restores_witness :
    WellIndexed [(1, [mkSel "A" 1 0 none ["B", "C"], mkSel "B" 1 1 (some "A")]),
      (2, [mkSel "C" 2 0 (some "A")])] ∧
    ((remove_and_relink_children
        [(1, [mkSel "A" 1 0 none ["B", "C"], mkSel "B" 1 1 (some "A")]),
          (2, [mkSel "C" 2 0 (some "A")])] (mkSel "A" 1 0 none ["B", "C"])).2
      = ["B", "C"] ∧
    find_selection_by_id
      (remove_and_relink_children
        [(1, [mkSel "A" 1 0 none ["B", "C"], mkSel "B" 1 1 (some "A")]),
          (2, [mkSel "C" 2 0 (some "A")])] (mkSel "A" 1 0 none ["B", "C"])).1 "A"
      = none ∧
    parentsOfId
      (remove_and_relink_children
        [(1, [mkSel "A" 1 0 none ["B", "C"], mkSel "B" 1 1 (some "A")]),
          (2, [mkSel "C" 2 0 (some "A")])] (mkSel "A" 1 0 none ["B", "C"])).1 "B"
      = [none] ∧
    parentsOfId
      (remove_and_relink_children
        [(1, [mkSel "A" 1 0 none ["B", "C"], mkSel "B" 1 1 (some "A")]),
          (2, [mkSel "C" 2 0 (some "A")])] (mkSel "A" 1 0 none ["B", "C"])).1 "C"
      = [none] ∧
    find_selection_by_id
      (removeCmdUndo
        (remove_and_relink_children
          [(1, [mkSel "A" 1 0 none ["B", "C"], mkSel "B" 1 1 (some "A")]),
            (2, [mkSel "C" 2 0 (some "A")])] (mkSel "A" 1 0 none ["B", "C"])).1
        (mkSel "A" 1 0 none ["B", "C"]) ["B", "C"]) "A"
      = some (1, 0, mkSel "A" 1 0 none ["B", "C"]) ∧
    parentsOfId
      (removeCmdUndo
        (remove_and_relink_children
          [(1, [mkSel "A" 1 0 none ["B", "C"], mkSel "B" 1 1 (some "A")]),
            (2, [mkSel "C" 2 0 (some "A")])] (mkSel "A" 1 0 none ["B", "C"])).1
        (mkSel "A" 1 0 none ["B", "C"]) ["B", "C"]) "B"
      = [some "A"] ∧
    parentsOfId
      (removeCmdUndo
        (remove_and_relink_children
          [(1, [mkSel "A" 1 0 none ["B", "C"], mkSel "B" 1 1 (some "A")]),
            (2, [mkSel "C" 2 0 (some "A")])] (mkSel "A" 1 0 none ["B", "C"])).1
        (mkSel "A" 1 0 none ["B", "C"]) ["B", "C"]) "C"
      = [some "A"]) :=
  ⟨by decide,
   C3_remove_reparents_and_undo_restores
     [(1, [mkSel "A" 1 0 none ["B", "C"], mkSel "B" 1 1 (some "A")]),
       (2, [mkSel "C" 2 0 (some "A")])]
     (mkSel "A" 1 0 none ["B", "C"]) (mkSel "B" 1 1 (some "A"))
     (mkSel "C" 2 0 (some "A")) 1 0 1 1 2 0
     (by decide) (by decide) (by decide) (by decide)
     rfl rfl rfl rfl rfl rfl rfl
     (by decide) (by decide) (by decide)⟩
